import Mathlib

/-!
# gold: tree aggregation and divergence computation

A shallow embedding of `node.go`, `util.go` and `render.go` of the `gold`
package, followed by theorems about it.

Modelling conventions.

* Go's `float64` is modelled by an arbitrary linearly ordered field `K`
  (exact arithmetic, no rounding); `math.Sqrt` is a parameter `sqrt : K → K`,
  instantiated with `Real.sqrt` over `ℝ` where its laws are needed.  The
  conversion `float64(v)` of an integer is the exact cast into `K`.
* A Go `map[string]V` is modelled as an association list `List (String × V)`;
  `range` over the map visits the list in order.  Go leaves that order
  unspecified, so every list order is a possible run.
* `panic` is modelled by `none`.
* A pointer into `state.Variables` is the index of the variable.
* Strings are compared and sorted by their characters, which is Go's byte order
  on UTF-8.
-/

set_option linter.unusedSectionVars false
set_option exponentiation.threshold 10000

namespace Gold

/-! ## Values, entries, variables -/

/-- The dynamic values an `interface{}` entry can hold: every Go numeric kind,
the package's own `Error` type, and anything else (strings, booleans, nil, ...). -/
inductive Value (K : Type) where
  | float64 (v : K)
  | float32 (v : K)
  | int (v : Int)
  | int64 (v : Int)
  | int32 (v : Int)
  | int16 (v : Int)
  | int8 (v : Int)
  | uint (v : Nat)
  | uint64 (v : Nat)
  | uint32 (v : Nat)
  | uint16 (v : Nat)
  | uint8 (v : Nat)
  | Error (v : K)
  | other (repr : String)

/-- `Entry` remembers a variable value from one source. -/
structure Entry (K : Type) where
  Source : String
  Value : Value K

/-- `Variable` is a named data point from multiple sources. -/
structure Variable (K : Type) where
  Name : String
  Entries : List (Entry K)

/-- `State` is a collection of variables. -/
structure State (K : Type) where
  Variables : List (Variable K)

section Defs

variable {K : Type} [Zero K] [One K] [HAdd K K K] [Sub K] [Mul K] [Div K] [Neg K] [NatCast K]
  [IntCast K] [LT K] [DecidableEq K] [DecidableRel (fun a b : K => a < b)]

/-- `nativeAsFloat`: the type switch of `node.go`; `none` is `ok = false`. -/
def nativeAsFloat : Value K → Option K
  | .float64 v => some v
  | .float32 v => some v
  | .int v => some (v : K)
  | .int64 v => some (v : K)
  | .int32 v => some (v : K)
  | .int8 v => some (v : K)
  | .uint v => some (v : K)
  | .uint64 v => some (v : K)
  | .uint32 v => some (v : K)
  | .uint8 v => some (v : K)
  | _ => none

/-- The first loop of `Variable.CalculateError`, threading `(err, mean, n)`;
`none` is the panic on an entry that is neither numeric nor an `Error`. -/
def CalculateError.accumulate : List (Entry K) → K × K × Nat → Option (K × K × Nat)
  | [], acc => some acc
  | entry :: rest, (err, mean, n) =>
    match nativeAsFloat entry.Value with
    | some v => CalculateError.accumulate rest (err, mean + v, n + 1)
    | none =>
      match entry.Value with
      | .Error v => CalculateError.accumulate rest (err + v, mean, n)
      | _ => none

/-- The second loop of `Variable.CalculateError`, threading `sum2`. -/
def CalculateError.squares (mean : K) : List (Entry K) → K → K
  | [], sum2 => sum2
  | entry :: rest, sum2 =>
    match nativeAsFloat entry.Value with
    | some v => CalculateError.squares mean rest (sum2 + (v - mean) * (v - mean))
    | none => CalculateError.squares mean rest sum2

/-- `Variable.CalculateError` calculates how much the source values differ. -/
def Variable.CalculateError (sqrt : K → K) (v : Variable K) : Option K :=
  match CalculateError.accumulate v.Entries (0, 0, 0) with
  | none => none
  | some (err, mean, n) =>
    if 2 ≤ n then
      let mean := mean / (n : K)
      let sum2 := CalculateError.squares mean v.Entries 0
      some (err + sqrt (sum2 / ((n - 1 : Nat) : K)))
    else
      some err

/-! ## Go maps as association lists -/

/-- Map write `m[k] = v`: overwrite the binding of `k` when there is one, add it otherwise. -/
def GoMap.set {V : Type} (k : String) (v : V) : List (String × V) → List (String × V)
  | [] => [(k, v)]
  | (k', v') :: rest => if k' = k then (k, v) :: rest else (k', v') :: GoMap.set k v rest

/-- Map read `v, ok := m[k]`. -/
def GoMap.get {V : Type} (k : String) : List (String × V) → Option V
  | [] => none
  | (k', v') :: rest => if k' = k then some v' else GoMap.get k rest

/-! ## util.go -/

/-- `contains` reports whether `value` occurs in `xs`. -/
def contains (value : String) : List String → Bool
  | [] => false
  | x :: xs => if x = value then true else contains value xs

/-- `empty` reports whether every string of `xs` is the empty string. -/
def empty : List String → Bool
  | [] => true
  | x :: xs => if x ≠ "" then false else empty xs

/-! ## State -/

/-- `Variable.Clone` copies the name and the entries. -/
def Variable.Clone (v : Variable K) : Variable K :=
  { Name := v.Name, Entries := [] ++ v.Entries }

/-- `Variable.Add` appends a new data point from a particular source. -/
def Variable.Add (v : Variable K) (source : String) (value : Value K) : Variable K :=
  { v with Entries := v.Entries ++ [⟨source, value⟩] }

/-- The loop of `Variable.Get`: the value of the first entry from `source`. -/
def Variable.Get.loop (source : String) : List (Entry K) → Option (Value K)
  | [] => none
  | entry :: rest => if entry.Source = source then some entry.Value else Variable.Get.loop source rest

/-- `Variable.Get` gets a value from a particular source. -/
def Variable.Get (v : Variable K) (source : String) : Option (Value K) :=
  Variable.Get.loop source v.Entries

/-- `State.Clone` creates a copy of all entries. -/
def State.Clone (state : State K) : State K :=
  { Variables := state.Variables.foldl (fun clone v => clone ++ [v.Clone]) [] }

/-- The loop of `State.Get`: the index (counted from `i`) of the first variable called `name`. -/
def State.Get.loop (name : String) : List (Variable K) → Nat → Option Nat
  | [], _ => none
  | v :: rest, i => if v.Name = name then some i else State.Get.loop name rest (i + 1)

/-- `State.Get` returns a pointer to the first variable called `name`, here its
index in `state.Variables`; `none` is `ok = false`. -/
def State.Get (state : State K) (name : String) : Option Nat :=
  State.Get.loop name state.Variables 0

/-- Write through a pointer returned by `State.Get` or `State.mustGet`. -/
def State.modify (state : State K) (i : Nat) (f : Variable K → Variable K) : State K :=
  { Variables := state.Variables.modify f i }

/-- `State.mustGet` either finds a particular variable, or if one does not
exist, creates one; it returns the state and the pointer (index). -/
def State.mustGet (state : State K) (name : String) : State K × Nat :=
  match state.Get name with
  | some i => (state, i)
  | none =>
    ({ Variables := state.Variables ++ [(⟨name, []⟩ : Variable K)] },
      (state.Variables ++ [(⟨name, []⟩ : Variable K)]).length - 1)

/-- One iteration of the loops of `State.Add` and `State.addError`. -/
def State.addValue (state : State K) (source name : String) (value : Value K) : State K :=
  let r := state.mustGet name
  r.1.modify r.2 (fun val => val.Add source value)

/-- `State.Add` adds variables from a particular source to the state. -/
def State.Add (state : State K) (source : String) (vars : List (String × Value K)) :
    State K :=
  vars.foldl (fun st p => st.addValue source p.1 p.2) state

/-- `State.addError` adds a map of `Error`s as entries of `source`. -/
def State.addError (state : State K) (source : String) (vars : List (String × K)) :
    State K :=
  vars.foldl (fun st p => st.addValue source p.1 (Value.Error p.2)) state

/-- The loop of `State.CalculateError`, threading the result map `r`. -/
def State.CalculateError.loop (sqrt : K → K) :
    List (Variable K) → List (String × K) → Option (List (String × K))
  | [], r => some r
  | v :: rest, r =>
    match v.CalculateError sqrt with
    | none => none
    | some e => State.CalculateError.loop sqrt rest (GoMap.set v.Name e r)

/-- `State.CalculateError` calculates the error for each variable. -/
def State.CalculateError (sqrt : K → K) (state : State K) : Option (List (String × K)) :=
  State.CalculateError.loop sqrt state.Variables []

end Defs

/-! ## Nodes and the tree -/

/-- `Node` stores information about a node and its states, recursively. -/
inductive Node (K : Type) where
  | mk (QualifiedName : String) (Name : String) (State : State K)
      (Error : List (String × K)) (Children : List (String × Node K))
      (ChildrenOrder : List String)

namespace Node

variable {K : Type}

/-- Field `QualifiedName`. -/
def QualifiedName : Node K → String
  | mk q _ _ _ _ _ => q

/-- Field `Name`. -/
def Name : Node K → String
  | mk _ n _ _ _ _ => n

/-- Field `State`. -/
def State : Node K → Gold.State K
  | mk _ _ s _ _ _ => s

/-- Field `Error`. -/
def Error : Node K → List (String × K)
  | mk _ _ _ e _ _ => e

/-- Field `Children`. -/
def Children : Node K → List (String × Node K)
  | mk _ _ _ _ c _ => c

/-- Field `ChildrenOrder`. -/
def ChildrenOrder : Node K → List String
  | mk _ _ _ _ _ o => o

end Node

/-- `Tree`: the global source and variable lists and the embedded root node. -/
structure Tree (K : Type) where
  Sources : List String
  Variables : List String
  Node : Node K

section TreeDefs

variable {K : Type} [Zero K] [One K] [HAdd K K K] [Sub K] [Mul K] [Div K] [Neg K] [NatCast K]
  [IntCast K] [LT K] [DecidableEq K] [DecidableRel (fun a b : K => a < b)]

/-- `PathSeparator`. -/
def PathSeparator : Char := '/'

/-- `NewNode` returns a new node. -/
def NewNode (qualifiedName name : String) : Node K :=
  Node.mk qualifiedName name ⟨[]⟩ [] [] []

/-- `NewTree` returns a tree whose root has empty names. -/
def NewTree : Tree K :=
  { Sources := [], Variables := [], Node := NewNode "" "" }

/-- `strings.Join(xs, PathSeparator)`. -/
def Join : List String → String
  | [] => ""
  | [x] => x
  | x :: y :: rest => x ++ String.singleton PathSeparator ++ Join (y :: rest)

/-- `strings.Split` on the characters of a path, for the one-character separator. -/
def Split.chars : List Char → List (List Char)
  | [] => [[]]
  | c :: cs =>
    if c = PathSeparator then [] :: Split.chars cs
    else
      match Split.chars cs with
      | [] => [[c]]
      | seg :: segs => (c :: seg) :: segs

/-- `strings.Split(path, PathSeparator)`. -/
def Split (path : String) : List String :=
  (Split.chars path.data).map String.mk

/-- `Node.Include` creates child nodes and puts the variables to the deepest level. -/
def Node.Include (source : String) (vars : List (String × Value K)) :
    List String → List String → Node K → Node K
  | _, [], Node.mk q n s e cs o => Node.mk q n (s.Add source vars) e cs o
  | pre, name :: path, Node.mk q n s e cs o =>
    match GoMap.get name cs with
    | some child =>
      Node.mk q n s e
        (GoMap.set name (Node.Include source vars (pre ++ [name]) path child) cs) o
    | none =>
      Node.mk q n s e
        (GoMap.set name
          (Node.Include source vars (pre ++ [name]) path
            (NewNode (Join (pre ++ [name])) name)) cs)
        (o ++ [name])

/-- `sort.Strings`: increasing lexicographic order of the characters. -/
def sortStrings (xs : List String) : List String :=
  xs.insertionSort (fun a b => a.data ≤ b.data)

/-- The first statement of `Tree.Add`: a leading `PathSeparator` is cut off the path. -/
def trimSeparator (path : String) : String :=
  match path.data with
  | c :: rest => if c = PathSeparator then String.mk rest else path
  | [] => path

/-- `Tree.Add` adds a single data point. -/
def Tree.Add (tree : Tree K) (source path : String) (vars : List (String × Value K)) :
    Tree K :=
  let path := trimSeparator path
  let newvars := (vars.map Prod.fst).filter (fun name => !contains name tree.Variables)
  { Sources := if contains source tree.Sources then tree.Sources else tree.Sources ++ [source],
    Variables := tree.Variables ++ sortStrings newvars,
    Node := tree.Node.Include source vars [] (Split path) }

mutual
/-- `Node.UpdateError` calculates recursively the error in state and children. -/
def Node.UpdateError (sqrt : K → K) : Node K → Option (Node K)
  | Node.mk q n s _ cs o =>
    match Node.UpdateError.children sqrt cs s.Clone with
    | none => none
    | some (cs', all) =>
      match all.CalculateError sqrt with
      | none => none
      | some e => some (Node.mk q n s e cs' o)
/-- The loop of `Node.UpdateError` over the children, threading the clone `all`. -/
def Node.UpdateError.children (sqrt : K → K) :
    List (String × Node K) → Gold.State K → Option (List (String × Node K) × Gold.State K)
  | [], all => some ([], all)
  | (k, child) :: rest, all =>
    match Node.UpdateError sqrt child with
    | none => none
    | some child' =>
      match Node.UpdateError.children sqrt rest (all.addError child'.Name child'.Error) with
      | none => none
      | some (rest', all') => some ((k, child') :: rest', all')
end

/-- The loop of `Node.HasErrors`: some value of the `Error` map is not zero. -/
def HasErrors.loop : List (String × K) → Bool
  | [] => false
  | (_, err) :: rest => if err ≠ 0 then true else HasErrors.loop rest

/-- `Node.HasErrors` reports whether some error of the node is not zero. -/
def Node.HasErrors (node : Node K) : Bool :=
  HasErrors.loop node.Error

/-- `Tree.UpdateError`: the method of the embedded root node. -/
def Tree.UpdateError (sqrt : K → K) (tree : Tree K) : Option (Tree K) :=
  match tree.Node.UpdateError sqrt with
  | none => none
  | some node => some { tree with Node := node }

end TreeDefs

/-! ## render.go

The report is modelled row by row: one `Row` for what the renderer writes between
`<tr>` and `</tr>` (HTML) or up to the newline (console), with the strings of its cells.
The table, style and body tags around the rows are left out. The three `%v` and `%.2f`
conversions of `fmt` and `html.EscapeString` are parameters. -/

/-- Which block of the renderer wrote a row. -/
inductive RowKind where
  | header
  | node
  | source
  deriving DecidableEq

/-- One row of the report: its first cell and the cells written after it. -/
structure Row where
  kind : RowKind
  label : String
  cells : List String
  deriving DecidableEq

/-- `Renderer`. -/
structure Renderer (K : Type) where
  Sources : List String
  Variables : List String
  LevelLimit : Int
  ShowZero : Bool
  ShowSource : Bool
  Epsilon : K

/-- The conversions the renderer takes from `fmt` and `html`: `%.2f` of an `Error`,
`%.2f` of an entry value, and `html.EscapeString`. -/
structure Format (K : Type) where
  float : K → String
  value : Value K → String
  escape : String → String

section RenderDefs

variable {K : Type} [Zero K] [One K] [HAdd K K K] [Sub K] [Mul K] [Div K] [Neg K] [NatCast K]
  [IntCast K] [LT K] [DecidableEq K] [DecidableRel (fun a b : K => a < b)]

/-- `Epsilon`. -/
def Epsilon : K := 1 / 10000

/-- `NewRenderer`. -/
def NewRenderer : Renderer K :=
  { Sources := [], Variables := [], LevelLimit := 0, ShowZero := false, ShowSource := false,
    Epsilon := Epsilon }

/-- The loop filling `cross` in the `ShowSource` block (the same in both renderers):
for every selected variable the node's state has, one more cell in the row of every
source, `""` when the source has no entry. `cell` is the `Sprintf` of a found value. -/
def crossLoop (cell : Value K → String) (sources : List String) (state : State K) :
    List String → List (List String) → List (List String)
  | [], cross => cross
  | variableName :: rest, cross =>
    match state.Get variableName with
    | none => crossLoop cell sources state rest cross
    | some i =>
      match state.Variables[i]? with
      | none => crossLoop cell sources state rest cross
      | some v =>
        crossLoop cell sources state rest
          (List.zipWith (fun source values =>
            match v.Get source with
            | none => values ++ [""]
            | some val => values ++ [cell val]) sources cross)

/-- The table `cross` of the `ShowSource` block, one list of cells per source. -/
def crossTable (cell : Value K → String) (sources vars : List String) (state : State K) :
    List (List String) :=
  crossLoop cell sources state vars (List.replicate sources.length [])

/-- The second loop of the `ShowSource` block: a row for every source whose cells are
not all empty. -/
def sourceRows (label : String → String) (blank : String → String) :
    List String → List (List String) → List Row
  | source :: sources, values :: cross =>
    if empty values then sourceRows label blank sources cross
    else ⟨RowKind.source, label source, values.map blank⟩ :: sourceRows label blank sources cross
  | _, _ => []

/-- The rows `Renderer.HTML` writes for one node: the error row and the source rows. -/
def HTML.rows (r : Renderer K) (f : Format K) (sources vars : List String)
    (q : String) (state : State K) (err : List (String × K)) : List Row :=
  ⟨RowKind.node, "<td>" ++ f.escape q ++ "</td>",
      vars.map (fun name =>
        match GoMap.get name err with
        | some value =>
          (if -r.Epsilon < value ∧ value < r.Epsilon then "<td class=\"zero\">" else "<td>")
            ++ f.float value ++ "</td>"
        | none => "<td></td>")⟩
    :: (if r.ShowSource then
          sourceRows (fun source => "<td>" ++ f.escape (q ++ ":" ++ source) ++ "</td>")
            (fun value => if value ≠ "" then value else "<td></td>") sources
            (crossTable (fun val => "<td>" ++ f.value val ++ "</td>") sources vars state)
        else [])

/-- The rows `Renderer.Console` writes for one node: the error row and the source rows. -/
def Console.rows (r : Renderer K) (f : Format K) (sources vars : List String)
    (q : String) (state : State K) (err : List (String × K)) : List Row :=
  ⟨RowKind.node, q,
      vars.map (fun name =>
        match GoMap.get name err with
        | some value => "\t" ++ f.float value
        | none => "\t")⟩
    :: (if r.ShowSource then
          sourceRows (fun source => q ++ ":" ++ source)
            (fun value => if value ≠ "" then "\t" ++ value else "\t") sources
            (crossTable (fun val => f.value val) sources vars state)
        else [])

/-- The call `render(child, level)` for a child that is not in `Children`, a nil
pointer: it returns only when `ShowZero` is set and the level is over the limit, and
dereferences nil (`none`) otherwise. -/
def renderNil (r : Renderer K) (level : Nat) : Option (List Row) :=
  if r.ShowZero = false then none
  else if (level : Int) > r.LevelLimit ∧ r.LevelLimit ≥ 0 then some []
  else none

/-- The loop over `ChildrenOrder` at the end of `render`: `outs` binds every key of
`Children` to the rendering of that child, a function of the level. -/
def renderOrder (r : Renderer K) (outs : List (String × (Nat → Option (List Row))))
    (level : Nat) : List String → Option (List Row)
  | [] => some []
  | childName :: rest =>
    match (match GoMap.get childName outs with
      | some out => out level
      | none => renderNil r level) with
    | none => none
    | some rows =>
      match renderOrder r outs level rest with
      | none => none
      | some more => some (rows ++ more)

mutual
/-- The closure `render` of `Renderer.HTML`; `none` is a nil dereference. -/
def HTML.render (r : Renderer K) (f : Format K) (sources vars : List String) :
    Node K → Nat → Option (List Row)
  | Node.mk q _ s e cs o, level =>
    if r.ShowZero = false ∧ HasErrors.loop e = false then some []
    else if (level : Int) > r.LevelLimit ∧ r.LevelLimit ≥ 0 then some []
    else
      match renderOrder r (HTML.render.children r f sources vars cs) (level + 1) o with
      | none => none
      | some below => some (HTML.rows r f sources vars q s e ++ below)
/-- `HTML.render` of every child in `Children`, by key. -/
def HTML.render.children (r : Renderer K) (f : Format K) (sources vars : List String) :
    List (String × Node K) → List (String × (Nat → Option (List Row)))
  | [] => []
  | (k, child) :: rest =>
    (k, fun level => HTML.render r f sources vars child level)
      :: HTML.render.children r f sources vars rest
end

mutual
/-- The closure `render` of `Renderer.Console`; `none` is a nil dereference. -/
def Console.render (r : Renderer K) (f : Format K) (sources vars : List String) :
    Node K → Nat → Option (List Row)
  | Node.mk q _ s e cs o, level =>
    if r.ShowZero = false ∧ HasErrors.loop e = false then some []
    else if (level : Int) > r.LevelLimit ∧ r.LevelLimit ≥ 0 then some []
    else
      match renderOrder r (Console.render.children r f sources vars cs) (level + 1) o with
      | none => none
      | some below => some (Console.rows r f sources vars q s e ++ below)
/-- `Console.render` of every child in `Children`, by key. -/
def Console.render.children (r : Renderer K) (f : Format K) (sources vars : List String) :
    List (String × Node K) → List (String × (Nat → Option (List Row)))
  | [] => []
  | (k, child) :: rest =>
    (k, fun level => Console.render r f sources vars child level)
      :: Console.render.children r f sources vars rest
end

/-- `Renderer.HTML`: the header row, then `render(tree.Node, 0)`. -/
def Renderer.HTML (r : Renderer K) (f : Format K) (tree : Tree K) : Option (List Row) :=
  let sources := if r.Sources.length = 0 then tree.Sources else r.Sources
  let vars := if r.Variables.length = 0 then tree.Variables else r.Variables
  match HTML.render r f sources vars tree.Node 0 with
  | none => none
  | some body =>
    some (⟨RowKind.header, "<th></th>", vars.map (fun v => "<th>" ++ f.escape v ++ "</th>")⟩
      :: body)

/-- `Renderer.Console`: the header row, then `render(tree.Node, 0)`. -/
def Renderer.Console (r : Renderer K) (f : Format K) (tree : Tree K) : Option (List Row) :=
  let sources := if r.Sources.length = 0 then tree.Sources else r.Sources
  let vars := if r.Variables.length = 0 then tree.Variables else r.Variables
  match Console.render r f sources vars tree.Node 0 with
  | none => none
  | some body => some (⟨RowKind.header, "", vars.map (fun v => "\t" ++ v)⟩ :: body)

end RenderDefs

/-! ## Specification-side definitions -/

section SpecDefs

variable {K : Type} [Zero K] [One K] [HAdd K K K] [Sub K] [Mul K] [Div K] [Neg K] [NatCast K]
  [IntCast K] [LT K] [DecidableEq K] [DecidableRel (fun a b : K => a < b)]

/-- The numeric samples among the entries, in entry order. -/
def samplesOf (entries : List (Entry K)) : List K :=
  entries.filterMap (fun e => nativeAsFloat e.Value)

/-- The pre-aggregated divergence values among the entries, in entry order. -/
def aggregatesOf (entries : List (Entry K)) : List K :=
  entries.filterMap (fun e => match e.Value with
    | .Error x => some x
    | _ => none)

/-- An entry the divergence computation accepts: a numeric sample or an `Error`. -/
def Entry.recognized (e : Entry K) : Prop :=
  (nativeAsFloat e.Value).isSome ∨ ∃ x, e.Value = Value.Error x

/-- The running sum of a loop `acc += x` started at `0`: `((0 + x₁) + x₂) + ...`, every
addition being the addition of `K`, in list order. -/
def runningSum (xs : List K) : K :=
  xs.foldl (fun acc x => acc + x) 0

/-- The standard-deviation term as `CalculateError` evaluates it for two or more samples:
the mean is the running sum divided by `float64(n)`, `sum2` is the running sum of the
products `d * d`, and the term is `sqrt (sum2 / float64(n - 1))`. -/
def stddevMachine (sqrt : K → K) (samples : List K) : K :=
  sqrt (runningSum (samples.map (fun v =>
      (v - runningSum samples / (samples.length : K))
        * (v - runningSum samples / (samples.length : K))))
    / ((samples.length - 1 : Nat) : K))

/-- The divergence as `CalculateError` evaluates it: the running sum of the pre-aggregated
entries, plus the standard-deviation term when there are two or more samples. -/
def divergenceMachine (sqrt : K → K) (entries : List (Entry K)) : K :=
  if 2 ≤ (samplesOf entries).length then
    runningSum (aggregatesOf entries) + stddevMachine sqrt (samplesOf entries)
  else runningSum (aggregatesOf entries)

/-- Every entry of the state is a numeric sample or an `Error`. -/
def State.allRecognized (state : State K) : Prop :=
  ∀ w ∈ state.Variables, ∀ e ∈ w.Entries, e.recognized

mutual
/-- Every entry recorded in the subtree is a numeric sample or an `Error`. -/
def Node.allRecognized : Node K → Prop
  | Node.mk _ _ s _ cs _ => s.allRecognized ∧ Node.allRecognized.children cs
/-- `Node.allRecognized` for the bindings of a `Children` map. -/
def Node.allRecognized.children : List (String × Node K) → Prop
  | [] => True
  | (_, child) :: rest => Node.allRecognized child ∧ Node.allRecognized.children rest
end

end SpecDefs

section SpecDefsExact

variable {K : Type} [LinearOrderedField K]

/-- The standard-deviation term of the spec: `sqrt (Σ (vᵢ - mean)² / (n - 1))` for
`n ≥ 2` samples, `0` for fewer. -/
def stddevTerm (sqrt : K → K) (samples : List K) : K :=
  if 2 ≤ samples.length then
    sqrt ((samples.map (fun v => (v - samples.sum / samples.length) ^ 2)).sum
      / ((samples.length : K) - 1))
  else 0

/-- The divergence of the spec: the sum of the pre-aggregated entries plus the
standard-deviation term of the numeric samples. -/
def divergenceSpec (sqrt : K → K) (entries : List (Entry K)) : K :=
  (aggregatesOf entries).sum + stddevTerm sqrt (samplesOf entries)

end SpecDefsExact

/-! ## Views of a state used by the statements -/

section ViewDefs

variable {K : Type}

/-- The entries of the first variable called `x`, or none. -/
def entriesOf (x : String) : List (Variable K) → List (Entry K)
  | [] => []
  | w :: ws => if w.Name = x then w.Entries else entriesOf x ws

/-- What `State.addValue` does to the variable list: extend the first variable called
`name`, or add a fresh variable at the end. -/
def addEntry (name : String) (e : Entry K) : List (Variable K) → List (Variable K)
  | [] => [⟨name, [e]⟩]
  | w :: ws => if w.Name = name then ⟨w.Name, w.Entries ++ [e]⟩ :: ws else w :: addEntry name e ws

mutual
/-- The node with every `Error` map of its subtree emptied: what is left is the
names, states, children and children order. -/
def Node.skeleton : Node K → Node K
  | Node.mk q n s _ cs o => Node.mk q n s [] (Node.skeleton.children cs) o
/-- `Node.skeleton` on the bindings of a `Children` map. -/
def Node.skeleton.children : List (String × Node K) → List (String × Node K)
  | [] => []
  | (k, child) :: rest => (k, Node.skeleton child) :: Node.skeleton.children rest
end

/-- The clone after the scores of the updated children `cs` have been added to `all`. -/
def absorb (cs : List (String × Node K)) (all : State K) : State K :=
  cs.foldl (fun st p => st.addError p.2.Name p.2.Error) all

/-- One call `tree.Add(source, path, variables)`. -/
structure AddCall (K : Type) where
  source : String
  path : String
  vars : List (String × Value K)

/-- The spec's first-seen order: every element once, at the place of its first occurrence. -/
def firstSeen : List String → List String
  | [] => []
  | x :: xs => x :: (firstSeen xs).filter (fun y => y ≠ x)

/-- A sequence of `Tree.Add` calls, as the loops of `Output.AddInto` and `JSON.AddInto` issue them. -/
def Tree.AddAll (tree : Tree K) (calls : List (AddCall K)) : Tree K :=
  calls.foldl (fun t c => t.Add c.source c.path c.vars) tree

/-- The node reached from `node` by following the child names of `path`. -/
def Node.find : List String → Node K → Option (Node K)
  | [], node => some node
  | name :: path, Node.mk _ _ _ _ cs _ =>
    match GoMap.get name cs with
    | some child => Node.find path child
    | none => none

/-- A stand-in for the `fmt` conversions, used to run the renderer on examples. -/
def Format.sample : Format K :=
  { float := fun _ => "#", value := fun _ => "#", escape := fun s => s }

end ViewDefs

section NameDefs

variable {K : Type}

/-- The naming invariant below a node created with the prefix `pre`. -/
def namedFrom (pre : List String) (node : Node K) : Prop :=
  ∀ (p : List String) (nd : Node K), p ≠ [] → node.find p = some nd →
    p.getLast? = some nd.Name ∧ nd.QualifiedName = Join (pre ++ p)

end NameDefs

section OrderDefs

variable {K : Type}

/-- The segment that follows the prefix `p` in the path `segs`, when `p` is a proper
prefix of `segs`: the name of the child of the node at `p` that an `Add` with path `segs`
goes through. -/
def nextSeg : List String → List String → Option String
  | [], [] => none
  | [], s :: _ => some s
  | _ :: _, [] => none
  | a :: p, b :: segs => if a = b then nextSeg p segs else none

/-- The path segments of a call, as `Tree.Add` computes them. -/
def AddCall.segments (c : AddCall K) : List String :=
  Split (trimSeparator c.path)

/-- The names of the children that the calls, in order, ask of the node at `p`. -/
def childRequests (p : List String) (calls : List (AddCall K)) : List String :=
  calls.filterMap (fun c => nextSeg p c.segments)

end OrderDefs

section SourceRowDefs

variable {K : Type}

/-- The selected variables the node's state has, in selection order: the variables the
`ShowSource` block does not skip. -/
def presentVars (state : State K) (vars : List String) : List (Variable K) :=
  vars.filterMap (fun name => (state.Get name).bind (fun i => state.Variables[i]?))

/-- The cells of the row of `source` in `cross`. -/
def crossCells (cell : Value K → String) (state : State K) (vars : List String)
    (source : String) : List String :=
  (presentVars state vars).map (fun v =>
    match v.Get source with
    | none => ""
    | some val => cell val)

/-- The source has an entry for at least one selected variable in the state. -/
def sourceHasEntry (state : State K) (vars : List String) (source : String) : Prop :=
  ∃ name ∈ vars, ∃ e ∈ entriesOf name state.Variables, e.Source = source

/-- Whether a source has an entry is decidable: the lists are finite. -/
instance sourceHasEntry.decidable (state : State K) (vars : List String) (source : String) :
    Decidable (sourceHasEntry state vars source) := by
  unfold sourceHasEntry
  infer_instance

end SourceRowDefs

section SubtreeDefs

variable {K : Type}

mutual
/-- The property `P` holds at every node of the subtree. -/
def Node.all (P : Node K → Prop) : Node K → Prop
  | Node.mk q n s e cs o => P (Node.mk q n s e cs o) ∧ Node.all.children P cs
/-- `Node.all` for the bindings of a `Children` map. -/
def Node.all.children (P : Node K → Prop) : List (String × Node K) → Prop
  | [] => True
  | (_, child) :: rest => Node.all P child ∧ Node.all.children P rest
end

/-- `ChildrenOrder` is the list of the keys of `Children`, without repetition. -/
def Node.orderlyHere (node : Node K) : Prop :=
  node.ChildrenOrder = node.Children.map Prod.fst ∧ (node.Children.map Prod.fst).Nodup

end SubtreeDefs

section SubtreeDefs2

variable {K : Type} [Zero K] [One K] [HAdd K K K] [Sub K] [Mul K] [Div K] [Neg K] [NatCast K]
  [IntCast K] [LT K] [DecidableEq K] [DecidableRel (fun a b : K => a < b)] [LE K]

/-- The state of the node has no repeated variable name and holds numeric samples only. -/
def Node.numericHere (node : Node K) : Prop :=
  (node.State.Variables.map (fun w => w.Name)).Nodup
    ∧ ∀ w ∈ node.State.Variables, ∀ e ∈ w.Entries, (nativeAsFloat e.Value).isSome

/-- The `Error` map of the node is a map with non-negative values that binds every
variable of a child's `Error` map, to a value that is not smaller. -/
def Node.monotoneHere (node : Node K) : Prop :=
  (node.Error.map Prod.fst).Nodup
    ∧ (∀ p ∈ node.Error, 0 ≤ p.2)
    ∧ ∀ c ∈ node.Children, ∀ (x : String) (d : K), GoMap.get x c.2.Error = some d →
        ∃ D, GoMap.get x node.Error = some D ∧ d ≤ D

/-- `HasErrors` is false at the node. -/
def Node.quietHere (node : Node K) : Prop :=
  node.HasErrors = false

mutual
/-- The qualified names of the nodes of the subtree for which `HasErrors` is true, the
node first, then its children in the order of `Children`. -/
def Node.flagged : Node K → List String
  | Node.mk q _ _ e cs _ => (if HasErrors.loop e then [q] else []) ++ Node.flagged.children cs
/-- `Node.flagged` for the bindings of a `Children` map. -/
def Node.flagged.children : List (String × Node K) → List String
  | [] => []
  | (_, child) :: rest => Node.flagged child ++ Node.flagged.children rest
end

/-- The labels of the node rows of a report. -/
def nodeLabels (rows : List Row) : List String :=
  (rows.filter (fun row => decide (row.kind = RowKind.node))).map (fun row => row.label)

end SubtreeDefs2

/-! ## Go's `float64` -/

/-- Binary search for the position of the leading bit: `2^acc ≤ n < 2^(acc + 2^i)`. -/
def ilog2.loop (n : Nat) : Nat → Nat → Nat
  | 0, acc => acc
  | i + 1, acc =>
    if 2 ^ (acc + 2 ^ i) ≤ n then ilog2.loop n i (acc + 2 ^ i) else ilog2.loop n i acc

/-- The position of the leading bit of `n`, for `0 < n < 2^8192`. -/
def ilog2 (n : Nat) : Nat :=
  ilog2.loop n 13 0

/-- Round the magnitude `n * 2^-e`, counted in units of `2^-1074` (the smallest positive
`float64`), to the nearest magnitude a `float64` can hold, ties to the even significand.
The result is in the same units; `none` is overflow. The quantum is `2^(t - e)` units, where
`t` drops what exceeds 53 significant bits, and nothing below one unit is kept. The scale
`e` is at most 1074, so a numerator of `2^8192` or more is an overflow. -/
def roundMagnitude (n e : Nat) : Option Nat :=
  if 2 ^ 8192 ≤ n then none
  else
    let t := max e (ilog2 n - 52)
    let q := n / 2 ^ t
    let r := n % 2 ^ t
    let q' := if 2 ^ t < 2 * r ∨ (2 ^ t = 2 * r ∧ q % 2 = 1) then q + 1 else q
    let m := q' * 2 ^ (t - e)
    if m < 2 ^ 2098 then some m else none

/-- Go's `float64`, IEEE 754 binary64: a NaN, the two infinities, and the finite values
`k * 2^-1074`. The two zeros are one value `fin 0`: the package compares with `!=` and `<`,
which do not tell them apart, and never divides by a zero. -/
inductive F64 where
  | nan
  | inf (neg : Bool)
  | fin (k : Int)
  deriving DecidableEq

/-- The `float64` nearest to `± n * 2^-e` units. -/
def F64.round (neg : Bool) (n e : Nat) : F64 :=
  match roundMagnitude n e with
  | none => .inf neg
  | some m => .fin (if neg then -(m : Int) else (m : Int))

/-- `a + b` of `float64`. -/
def F64.add : F64 → F64 → F64
  | .nan, _ => .nan
  | _, .nan => .nan
  | .inf s, .inf s' => if s = s' then .inf s else .nan
  | .inf s, .fin _ => .inf s
  | .fin _, .inf s => .inf s
  | .fin a, .fin b => F64.round (decide (a + b < 0)) (a + b).natAbs 0

/-- `-a` of `float64`. -/
def F64.neg : F64 → F64
  | .nan => .nan
  | .inf s => .inf (!s)
  | .fin k => .fin (-k)

/-- `a - b` of `float64`. -/
def F64.sub (a b : F64) : F64 :=
  F64.add a (F64.neg b)

/-- `a * b` of `float64`. -/
def F64.mul : F64 → F64 → F64
  | .nan, _ => .nan
  | _, .nan => .nan
  | .inf s, .inf s' => .inf (s != s')
  | .inf s, .fin k => if k = 0 then .nan else .inf (s != decide (k < 0))
  | .fin k, .inf s => if k = 0 then .nan else .inf (s != decide (k < 0))
  | .fin a, .fin b => F64.round (decide (a < 0) != decide (b < 0)) (a.natAbs * b.natAbs) 1074

/-- `a / b` of `float64`; the quotient is cut after two extra bits, the second of which is
sticky. -/
def F64.div : F64 → F64 → F64
  | .nan, _ => .nan
  | _, .nan => .nan
  | .inf _, .inf _ => .nan
  | .inf s, .fin k => .inf (s != decide (k < 0))
  | .fin _, .inf _ => .fin 0
  | .fin a, .fin b =>
    if b = 0 then (if a = 0 then .nan else .inf (decide (a < 0)))
    else
      F64.round (decide (a < 0) != decide (b < 0))
        (2 * (a.natAbs * 2 ^ 1076 / b.natAbs)
          + (if a.natAbs * 2 ^ 1076 % b.natAbs = 0 then 0 else 1)) 3

/-- Bit by bit, the largest `r` with `r * r ≤ n`. -/
def isqrt.loop (n : Nat) : Nat → Nat → Nat
  | 0, r => r
  | i + 1, r =>
    if (r + 2 ^ i) * (r + 2 ^ i) ≤ n then isqrt.loop n i (r + 2 ^ i) else isqrt.loop n i r

/-- The integer square root. -/
def isqrt (n : Nat) : Nat :=
  isqrt.loop n (ilog2 n / 2 + 1) 0

/-- `math.Sqrt`, correctly rounded. -/
def F64.sqrt : F64 → F64
  | .nan => .nan
  | .inf s => if s then .nan else .inf false
  | .fin k =>
    if k < 0 then .nan
    else
      F64.round false
        (2 * isqrt (k.natAbs * 2 ^ 1076)
          + (if isqrt (k.natAbs * 2 ^ 1076) * isqrt (k.natAbs * 2 ^ 1076)
              = k.natAbs * 2 ^ 1076 then 0 else 1)) 2

/-- `a < b` of `float64`. -/
def F64.lt : F64 → F64 → Bool
  | .nan, _ => false
  | _, .nan => false
  | .inf s, .inf s' => s && !s'
  | .inf s, .fin _ => s
  | .fin _, .inf s => !s
  | .fin a, .fin b => decide (a < b)

/-- `a <= b` of `float64`. -/
def F64.le : F64 → F64 → Bool
  | .nan, _ => false
  | _, .nan => false
  | .inf s, .inf s' => s || !s'
  | .inf s, .fin _ => s
  | .fin _, .inf s => !s
  | .fin a, .fin b => decide (a ≤ b)

/-- The conversion `float64(k)` of an integer. -/
def F64.ofInt (k : Int) : F64 :=
  F64.round (decide (k < 0)) (k.natAbs * 2 ^ 1074) 0

instance F64.instZero : Zero F64 := ⟨.fin 0⟩
instance F64.instOne : One F64 := ⟨F64.ofInt 1⟩
instance F64.instHAdd : HAdd F64 F64 F64 := ⟨F64.add⟩
instance F64.instSub : Sub F64 := ⟨F64.sub⟩
instance F64.instMul : Mul F64 := ⟨F64.mul⟩
instance F64.instDiv : Div F64 := ⟨F64.div⟩
instance F64.instNeg : Neg F64 := ⟨F64.neg⟩
instance F64.instNatCast : NatCast F64 := ⟨fun n => F64.ofInt n⟩
instance F64.instIntCast : IntCast F64 := ⟨F64.ofInt⟩
instance F64.instLT : LT F64 := ⟨fun a b => F64.lt a b = true⟩
instance F64.instLE : LE F64 := ⟨fun a b => F64.le a b = true⟩
instance F64.decidableLT : DecidableRel (fun a b : F64 => a < b) :=
  fun a b => inferInstanceAs (Decidable (F64.lt a b = true))
instance F64.decidableLE : DecidableRel (fun a b : F64 => a ≤ b) :=
  fun a b => inferInstanceAs (Decidable (F64.le a b = true))

/-! ## Lemmas on `Variable.CalculateError` -/

section MachineLemmas

variable {K : Type} [Zero K] [One K] [HAdd K K K] [Sub K] [Mul K] [Div K] [Neg K] [NatCast K]
  [IntCast K] [LT K] [DecidableEq K] [DecidableRel (fun a b : K => a < b)]

theorem nativeAsFloat_Error (x : K) : nativeAsFloat (Value.Error x) = none := rfl

theorem accumulate_fold (es : List (Entry K)) (h : ∀ e ∈ es, e.recognized) (err mean : K)
    (n : Nat) :
    CalculateError.accumulate es (err, mean, n) =
      some ((aggregatesOf es).foldl (fun acc x => acc + x) err,
        (samplesOf es).foldl (fun acc x => acc + x) mean, n + (samplesOf es).length) := by
  induction es generalizing err mean n with
  | nil => rfl
  | cons e es ih =>
    have hes : ∀ e ∈ es, e.recognized := fun e he => h e (List.mem_cons_of_mem _ he)
    rcases h e (List.mem_cons_self _ _) with hnum | ⟨x, hx⟩
    · obtain ⟨v, hv⟩ := Option.isSome_iff_exists.mp hnum
      have hagg : aggregatesOf (e :: es) = aggregatesOf es := by
        unfold aggregatesOf
        rw [List.filterMap_cons]
        cases hval : e.Value <;> simp_all [nativeAsFloat]
      have hsam : samplesOf (e :: es) = v :: samplesOf es := by
        simp [samplesOf, List.filterMap_cons, hv]
      rw [CalculateError.accumulate, hv]
      simp only [ih hes, hagg, hsam, List.foldl_cons, List.length_cons]
      rw [Option.some.injEq, Prod.mk.injEq, Prod.mk.injEq]
      exact ⟨rfl, rfl, by omega⟩
    · have hagg : aggregatesOf (e :: es) = x :: aggregatesOf es := by
        simp [aggregatesOf, List.filterMap_cons, hx]
      have hsam : samplesOf (e :: es) = samplesOf es := by
        simp [samplesOf, List.filterMap_cons, hx, nativeAsFloat_Error]
      rw [CalculateError.accumulate, hx, nativeAsFloat_Error]
      simp only [ih hes, hagg, hsam, List.foldl_cons]

theorem squares_fold (m : K) (es : List (Entry K)) (sum2 : K) :
    CalculateError.squares m es sum2 =
      ((samplesOf es).map (fun v => (v - m) * (v - m))).foldl (fun acc x => acc + x) sum2 := by
  induction es generalizing sum2 with
  | nil => rfl
  | cons e es ih =>
    rw [CalculateError.squares]
    cases hv : nativeAsFloat e.Value with
    | none => simp only [ih, samplesOf, List.filterMap_cons, hv]
    | some v =>
      simp only [ih, samplesOf, List.filterMap_cons, hv, List.map_cons, List.foldl_cons]

/-- On recognized entries `CalculateError` returns, and what it returns is the expression
of the source evaluated with the operations of `K`, in entry order. -/
theorem CalculateError_eq_machine (sqrt : K → K) (v : Variable K)
    (h : ∀ e ∈ v.Entries, e.recognized) :
    v.CalculateError sqrt = some (divergenceMachine sqrt v.Entries) := by
  unfold Variable.CalculateError
  rw [accumulate_fold v.Entries h]
  simp only [Nat.zero_add, squares_fold, divergenceMachine, stddevMachine, runningSum]
  by_cases hn : 2 ≤ (samplesOf v.Entries).length
  · simp only [hn, if_true]
  · simp only [hn, if_false]

end MachineLemmas

section CalcLemmas

variable {K : Type} [LinearOrderedField K]

theorem accumulate_eq (es : List (Entry K)) (h : ∀ e ∈ es, e.recognized) (err mean : K)
    (n : Nat) :
    CalculateError.accumulate es (err, mean, n) =
      some (err + (aggregatesOf es).sum, mean + (samplesOf es).sum,
        n + (samplesOf es).length) := by
  induction es generalizing err mean n with
  | nil => simp [CalculateError.accumulate, aggregatesOf, samplesOf]
  | cons e es ih =>
    have hes : ∀ e ∈ es, e.recognized := fun e he => h e (List.mem_cons_of_mem _ he)
    rcases h e (List.mem_cons_self _ _) with hnum | ⟨x, hx⟩
    · obtain ⟨v, hv⟩ := Option.isSome_iff_exists.mp hnum
      have hagg : aggregatesOf (e :: es) = aggregatesOf es := by
        unfold aggregatesOf
        rw [List.filterMap_cons]
        cases hval : e.Value <;> simp_all [nativeAsFloat]
      have hsam : samplesOf (e :: es) = v :: samplesOf es := by
        simp [samplesOf, List.filterMap_cons, hv]
      rw [CalculateError.accumulate, hv]
      simp only [ih hes, hagg, hsam, List.sum_cons, List.length_cons]
      rw [Option.some.injEq, Prod.mk.injEq, Prod.mk.injEq]
      exact ⟨rfl, by ring, by omega⟩
    · have hagg : aggregatesOf (e :: es) = x :: aggregatesOf es := by
        simp [aggregatesOf, List.filterMap_cons, hx]
      have hsam : samplesOf (e :: es) = samplesOf es := by
        simp [samplesOf, List.filterMap_cons, hx, nativeAsFloat_Error]
      rw [CalculateError.accumulate, hx, nativeAsFloat_Error]
      simp only [ih hes, hagg, hsam, List.sum_cons]
      rw [Option.some.injEq, Prod.mk.injEq, Prod.mk.injEq]
      exact ⟨by ring, rfl, rfl⟩

theorem squares_eq (m : K) (es : List (Entry K)) (sum2 : K) :
    CalculateError.squares m es sum2 =
      sum2 + ((samplesOf es).map (fun v => (v - m) ^ 2)).sum := by
  induction es generalizing sum2 with
  | nil => simp [CalculateError.squares, samplesOf]
  | cons e es ih =>
    rw [CalculateError.squares]
    cases hv : nativeAsFloat e.Value with
    | none => simp [ih, samplesOf, List.filterMap_cons, hv]
    | some v =>
      simp only [ih, samplesOf, List.filterMap_cons, hv, List.map_cons, List.sum_cons]
      ring

theorem CalculateError_eq_spec (sqrt : K → K) (v : Variable K)
    (h : ∀ e ∈ v.Entries, e.recognized) :
    v.CalculateError sqrt = some (divergenceSpec sqrt v.Entries) := by
  unfold Variable.CalculateError
  rw [accumulate_eq v.Entries h]
  simp only [zero_add, divergenceSpec, stddevTerm, squares_eq]
  by_cases hn : 2 ≤ (samplesOf v.Entries).length
  · simp only [hn, if_true]
    have h1 : (((samplesOf v.Entries).length - 1 : Nat) : K)
        = ((samplesOf v.Entries).length : K) - 1 := by
      rw [Nat.cast_sub (by omega)]; simp
    rw [h1]
  · simp [hn]

end CalcLemmas

/-! ## Lemmas on states and maps -/

section StateLemmas

variable {K : Type}

theorem Variable_Clone_eq (v : Variable K) : v.Clone = v := by
  cases v; simp [Variable.Clone]

theorem State_Clone_eq (s : State K) : s.Clone = s := by
  cases s with
  | mk vs =>
    have h : ∀ (l acc : List (Variable K)),
        l.foldl (fun clone v => clone ++ [v.Clone]) acc = acc ++ l := by
      intro l
      induction l with
      | nil => intro acc; simp
      | cons v l ih => intro acc; rw [List.foldl_cons, Variable_Clone_eq, ih]; simp
    simp [State.Clone, h]

theorem GoMap.get_set_self {V : Type} (k : String) (v : V) (m : List (String × V)) :
    GoMap.get k (GoMap.set k v m) = some v := by
  induction m with
  | nil => simp [GoMap.set, GoMap.get]
  | cons p m ih =>
    obtain ⟨k', v'⟩ := p
    by_cases h : k' = k
    · simp [GoMap.set, GoMap.get, h]
    · simp [GoMap.set, GoMap.get, h, ih]

theorem GoMap.get_set_ne {V : Type} (k x : String) (v : V) (m : List (String × V)) (hx : k ≠ x) :
    GoMap.get x (GoMap.set k v m) = GoMap.get x m := by
  induction m with
  | nil => simp [GoMap.set, GoMap.get, hx]
  | cons p m ih =>
    obtain ⟨k', v'⟩ := p
    by_cases h : k' = k
    · subst h; simp [GoMap.set, GoMap.get, hx]
    · by_cases h2 : k' = x
      · subst h2; simp [GoMap.set, GoMap.get, h]
      · simp [GoMap.set, GoMap.get, h, h2, ih]

variable [Zero K] [One K] [HAdd K K K] [Sub K] [Mul K] [Div K] [Neg K] [NatCast K]
  [IntCast K] [LT K] [DecidableEq K] [DecidableRel (fun a b : K => a < b)]

/-- When no variable of `vs` is called `x`, the loop leaves the binding of `x` alone. -/
theorem CalculateError_loop_get_absent (sqrt : K → K) (x : String) (vs : List (Variable K))
    (r r' : List (String × K)) (hno : ∀ w ∈ vs, w.Name ≠ x)
    (h : State.CalculateError.loop sqrt vs r = some r') : GoMap.get x r' = GoMap.get x r := by
  induction vs generalizing r with
  | nil => simp [State.CalculateError.loop] at h; rw [← h]
  | cons w vs ih =>
    rw [State.CalculateError.loop] at h
    cases hw : w.CalculateError sqrt with
    | none => simp [hw] at h
    | some d =>
      simp only [hw] at h
      rw [ih _ (fun w' hw' => hno w' (List.mem_cons_of_mem _ hw')) h]
      exact GoMap.get_set_ne _ _ _ _ (hno w (List.mem_cons_self _ _))

theorem CalculateError_loop_get_present (sqrt : K → K) (x : String) (d : K)
    (vs : List (Variable K)) (r r' : List (String × K))
    (hex : ∃ w ∈ vs, w.Name = x)
    (hall : ∀ w ∈ vs, w.Name = x → w.CalculateError sqrt = some d)
    (h : State.CalculateError.loop sqrt vs r = some r') : GoMap.get x r' = some d := by
  induction vs generalizing r with
  | nil => simp at hex
  | cons w vs ih =>
    rw [State.CalculateError.loop] at h
    cases hw : w.CalculateError sqrt with
    | none => simp [hw] at h
    | some d' =>
      simp only [hw] at h
      have hall' : ∀ w' ∈ vs, w'.Name = x → w'.CalculateError sqrt = some d :=
        fun w' hw' => hall w' (List.mem_cons_of_mem _ hw')
      by_cases hvs : ∃ w' ∈ vs, w'.Name = x
      · exact ih _ hvs hall' h
      · have hno : ∀ w' ∈ vs, w'.Name ≠ x := fun w' hw' hn => hvs ⟨w', hw', hn⟩
        obtain ⟨w0, hw0, hn0⟩ := hex
        have hwx : w.Name = x := by
          rcases List.mem_cons.mp hw0 with rfl | hmem
          · exact hn0
          · exact absurd hn0 (hno w0 hmem)
        have hd : d' = d := by
          have := hall w (List.mem_cons_self _ _) hwx
          rw [hw] at this; exact Option.some.inj this
        rw [CalculateError_loop_get_absent sqrt x vs _ _ hno h, hwx, hd]
        exact GoMap.get_set_self _ _ _

theorem CalculateError_loop_isSome (sqrt : K → K) (vs : List (Variable K))
    (r : List (String × K)) (hall : ∀ w ∈ vs, ∀ e ∈ w.Entries, e.recognized) :
    ∃ r', State.CalculateError.loop sqrt vs r = some r' := by
  induction vs generalizing r with
  | nil => exact ⟨r, rfl⟩
  | cons w vs ih =>
    rw [State.CalculateError.loop,
      CalculateError_eq_machine sqrt w (hall w (List.mem_cons_self _ _))]
    exact ih _ (fun w' hw' => hall w' (List.mem_cons_of_mem _ hw'))

theorem UpdateError_leaf (sqrt : K → K) (q n : String) (s : State K) (e : List (String × K))
    (o : List String) :
    (Node.mk q n s e [] o).UpdateError sqrt =
      (s.CalculateError sqrt).map (fun e' => Node.mk q n s e' [] o) := by
  rw [Node.UpdateError, Node.UpdateError.children, State_Clone_eq]
  cases h : s.CalculateError sqrt <;> simp [h]

theorem stddev_two (v1 v2 : ℝ) :
    stddevTerm Real.sqrt [v1, v2] = |v1 - v2| / Real.sqrt 2 := by
  have h : (v1 - (v1 + v2) / 2) ^ 2 + (v2 - (v1 + v2) / 2) ^ 2 = (v1 - v2) ^ 2 / 2 := by ring
  simp only [stddevTerm, List.length_cons, List.length_nil, List.map_cons, List.map_nil,
    List.sum_cons, List.sum_nil, add_zero]
  norm_num
  rw [h, Real.sqrt_div (sq_nonneg _), Real.sqrt_sq_eq_abs]

end StateLemmas

/-! ## Lemmas on `State.addValue` -/

section AddLemmas

variable {K : Type}

theorem Get_loop_none (name : String) (e : Entry K) (vs : List (Variable K)) (i : Nat)
    (h : State.Get.loop name vs i = none) : addEntry name e vs = vs ++ [⟨name, [e]⟩] := by
  induction vs generalizing i with
  | nil => rfl
  | cons w ws ih =>
    rw [State.Get.loop] at h
    by_cases hw : w.Name = name
    · simp [hw] at h
    · simp only [hw, if_false] at h
      simp [addEntry, hw, ih _ h]

theorem Get_loop_some (name : String) (e : Entry K) (vs : List (Variable K)) (i j : Nat)
    (h : State.Get.loop name vs i = some j) :
    vs.modify (fun val => ⟨val.Name, val.Entries ++ [e]⟩) (j - i) = addEntry name e vs ∧ i ≤ j := by
  induction vs generalizing i with
  | nil => simp [State.Get.loop] at h
  | cons w ws ih =>
    rw [State.Get.loop] at h
    by_cases hw : w.Name = name
    · simp only [hw, if_true, Option.some.injEq] at h
      subst h
      simp [addEntry, hw]
    · simp only [hw, if_false] at h
      obtain ⟨h1, h2⟩ := ih _ h
      have hj : j - i = (j - (i + 1)) + 1 := by omega
      rw [hj, List.modify_succ_cons, h1]
      simp [addEntry, hw]
      omega

theorem addValue_Variables (st : State K) (source name : String) (value : Value K) :
    (st.addValue source name value).Variables = addEntry name ⟨source, value⟩ st.Variables := by
  unfold State.addValue State.mustGet State.Get
  cases h : State.Get.loop name st.Variables 0 with
  | none =>
    rw [Get_loop_none name ⟨source, value⟩ _ _ h]
    simp [State.modify, Variable.Add]
    rw [List.modify_eq_take_drop]
    simp [List.modifyHead]
  | some j =>
    have := (Get_loop_some name ⟨source, value⟩ _ _ _ h).1
    simpa [State.modify, Variable.Add] using this

theorem entriesOf_addEntry (x name : String) (e : Entry K) (vs : List (Variable K)) :
    entriesOf x (addEntry name e vs) =
      if name = x then entriesOf x vs ++ [e] else entriesOf x vs := by
  induction vs with
  | nil => by_cases h : name = x <;> simp [addEntry, entriesOf, h]
  | cons w ws ih =>
    by_cases hw : w.Name = name
    · by_cases h : name = x
      · simp [addEntry, entriesOf, hw, h]
      · have : ¬ w.Name = x := fun hx => h (hw ▸ hx)
        simp [addEntry, entriesOf, hw, h]
    · by_cases hx : w.Name = x
      · have hnx : ¬ name = x := fun h => hw (hx.trans h.symm)
        subst hx
        simp [addEntry, entriesOf, hw, hnx]
      · simp [addEntry, entriesOf, hw, hx, ih]

theorem names_addEntry (name : String) (e : Entry K) (vs : List (Variable K)) :
    (addEntry name e vs).map (fun w => w.Name) =
      if name ∈ vs.map (fun w => w.Name) then vs.map (fun w => w.Name)
      else vs.map (fun w => w.Name) ++ [name] := by
  induction vs with
  | nil => simp [addEntry]
  | cons w ws ih =>
    by_cases hw : w.Name = name
    · simp [addEntry, hw]
    · have hne : ¬ name = w.Name := fun h => hw h.symm
      by_cases hmem : name ∈ ws.map (fun w => w.Name)
      · simp only [addEntry, hw, if_false, List.map_cons, ih, hmem, if_true, List.mem_cons, or_true]
      · simp only [addEntry, hw, if_false, List.map_cons, ih, hmem, List.mem_cons, hne, or_self,
          List.cons_append]

theorem nodup_addEntry (name : String) (e : Entry K) (vs : List (Variable K))
    (h : (vs.map (fun w => w.Name)).Nodup) :
    ((addEntry name e vs).map (fun w => w.Name)).Nodup := by
  rw [names_addEntry]
  by_cases hmem : name ∈ vs.map (fun w => w.Name)
  · simpa [hmem] using h
  · simp only [hmem, if_false]
    rw [List.nodup_append]
    refine ⟨h, List.nodup_singleton _, ?_⟩
    intro a ha hb
    rw [List.mem_singleton] at hb
    exact hmem (hb ▸ ha)

end AddLemmas

/-! ## Lemmas on the divergence pass -/

section MapLemmas
variable {K : Type}

theorem GoMap_keys_set {V : Type} (k : String) (v : V) (m : List (String × V)) :
    (GoMap.set k v m).map Prod.fst =
      if k ∈ m.map Prod.fst then m.map Prod.fst else m.map Prod.fst ++ [k] := by
  induction m with
  | nil => simp [GoMap.set]
  | cons p m ih =>
    obtain ⟨k', v'⟩ := p
    by_cases h : k' = k
    · simp [GoMap.set, h]
    · have hne : ¬ k = k' := fun e => h e.symm
      by_cases hmem : k ∈ m.map Prod.fst
      · simp only [GoMap.set, h, if_false, List.map_cons, ih, hmem, if_true, List.mem_cons,
          or_true]
      · simp only [GoMap.set, h, if_false, List.map_cons, ih, hmem, List.mem_cons, hne,
          or_self, List.cons_append]

theorem GoMap_nodup_set {V : Type} (k : String) (v : V) (m : List (String × V))
    (h : (m.map Prod.fst).Nodup) : ((GoMap.set k v m).map Prod.fst).Nodup := by
  rw [GoMap_keys_set]
  by_cases hmem : k ∈ m.map Prod.fst
  · simpa [hmem] using h
  · simp only [hmem, if_false]
    rw [List.nodup_append]
    refine ⟨h, List.nodup_singleton _, ?_⟩
    intro a ha hb
    rw [List.mem_singleton] at hb
    exact hmem (hb ▸ ha)

theorem GoMap_get_none {V : Type} (x : String) (m : List (String × V))
    (h : x ∉ m.map Prod.fst) : GoMap.get x m = none := by
  induction m with
  | nil => rfl
  | cons p m ih =>
    obtain ⟨k, v⟩ := p
    simp only [List.map_cons, List.mem_cons, not_or] at h
    have hk : ¬ k = x := fun e => h.1 e.symm
    simp [GoMap.get, hk, ih h.2]

theorem GoMap_filter_key {V : Type} (x : String) (m : List (String × V))
    (h : (m.map Prod.fst).Nodup) :
    (m.filter (fun p => p.1 = x)).map Prod.snd = (GoMap.get x m).toList := by
  induction m with
  | nil => rfl
  | cons p m ih =>
    obtain ⟨k, v⟩ := p
    simp only [List.map_cons, List.nodup_cons] at h
    by_cases hk : k = x
    · subst hk
      have hnone : m.filter (fun p => p.1 = k) = [] := by
        rw [List.filter_eq_nil_iff]
        intro p hp hpk
        exact h.1 (List.mem_map.mpr ⟨p, hp, by simpa using hpk⟩)
      simp [GoMap.get, hnone]
    · simp [GoMap.get, hk, ih h.2]

theorem entriesOf_absent (x : String) (vs : List (Variable K))
    (h : x ∉ vs.map (fun w => w.Name)) : entriesOf x vs = [] := by
  induction vs with
  | nil => rfl
  | cons w ws ih =>
    simp only [List.map_cons, List.mem_cons, not_or] at h
    have hw : ¬ w.Name = x := fun e => h.1 e.symm
    simp [entriesOf, hw, ih h.2]

theorem entriesOf_present (x : String) (vs : List (Variable K)) (w : Variable K)
    (hnd : (vs.map (fun w => w.Name)).Nodup) (hw : w ∈ vs) (hx : w.Name = x) :
    entriesOf x vs = w.Entries := by
  induction vs with
  | nil => simp at hw
  | cons u us ih =>
    simp only [List.map_cons, List.nodup_cons] at hnd
    rcases List.mem_cons.mp hw with rfl | hmem
    · simp [entriesOf, hx]
    · have hu : ¬ u.Name = x := by
        intro e
        exact hnd.1 (List.mem_map.mpr ⟨w, hmem, by rw [hx, e]⟩)
      simp [entriesOf, hu, ih hnd.2 hmem]

theorem addError_entries (x source : String) (m : List (String × K)) (st : State K) :
    entriesOf x (st.addError source m).Variables =
      entriesOf x st.Variables ++
        (m.filter (fun p => p.1 = x)).map (fun p => ⟨source, Value.Error p.2⟩) := by
  unfold State.addError
  induction m generalizing st with
  | nil => simp
  | cons p m ih =>
    rw [List.foldl_cons, ih, addValue_Variables, entriesOf_addEntry]
    by_cases hp : p.1 = x
    · simp [hp, List.filter_cons]
    · simp [hp, List.filter_cons]

theorem addError_nodup (source : String) (m : List (String × K)) (st : State K)
    (h : (st.Variables.map (fun w => w.Name)).Nodup) :
    ((st.addError source m).Variables.map (fun w => w.Name)).Nodup := by
  unfold State.addError
  induction m generalizing st with
  | nil => simpa using h
  | cons p m ih =>
    rw [List.foldl_cons]
    apply ih
    rw [addValue_Variables]
    exact nodup_addEntry _ _ _ h

theorem aggregatesOf_append (a b : List (Entry K)) :
    aggregatesOf (a ++ b) = aggregatesOf a ++ aggregatesOf b := by
  simp [aggregatesOf, List.filterMap_append]

theorem aggregatesOf_synthetic (source : String) (m : List (String × K)) :
    aggregatesOf (m.map (fun p => (⟨source, Value.Error p.2⟩ : Entry K))) = m.map Prod.snd := by
  induction m with
  | nil => rfl
  | cons p m ih =>
    simp only [aggregatesOf] at ih
    simp [aggregatesOf, List.filterMap_cons, ih]

end MapLemmas

section PassLemmas
variable {K : Type} [Zero K] [One K] [HAdd K K K] [Sub K] [Mul K] [Div K] [Neg K] [NatCast K]
  [IntCast K] [LT K] [DecidableEq K] [DecidableRel (fun a b : K => a < b)]

theorem samplesOf_append (a b : List (Entry K)) :
    samplesOf (a ++ b) = samplesOf a ++ samplesOf b := by
  simp [samplesOf, List.filterMap_append]

theorem samplesOf_synthetic (source : String) (m : List (String × K)) :
    samplesOf (m.map (fun p => (⟨source, Value.Error p.2⟩ : Entry K))) = [] := by
  induction m with
  | nil => rfl
  | cons p m ih =>
    simp only [samplesOf] at ih
    simp only [samplesOf, List.map_cons, List.filterMap_cons, nativeAsFloat_Error, ih]

theorem accumulate_some (es : List (Entry K)) (err mean : K) (n : Nat) (r : K × K × Nat)
    (h : CalculateError.accumulate es (err, mean, n) = some r) : ∀ e ∈ es, e.recognized := by
  induction es generalizing err mean n with
  | nil => simp
  | cons e es ih =>
    rw [CalculateError.accumulate] at h
    intro e' he'
    cases hv : nativeAsFloat e.Value with
    | some v =>
      simp only [hv] at h
      rcases List.mem_cons.mp he' with rfl | hmem
      · exact Or.inl (by simp [hv])
      · exact ih _ _ _ h e' hmem
    | none =>
      simp only [hv] at h
      cases hval : e.Value with
      | Error k =>
        simp only [hval] at h
        rcases List.mem_cons.mp he' with rfl | hmem
        · exact Or.inr ⟨k, hval⟩
        · exact ih _ _ _ h e' hmem
      | _ => simp [hval] at h

theorem CalculateError_some_machine (sqrt : K → K) (v : Variable K) (d : K)
    (h : v.CalculateError sqrt = some d) : d = divergenceMachine sqrt v.Entries := by
  have hrec : ∀ e ∈ v.Entries, e.recognized := by
    cases hacc : CalculateError.accumulate v.Entries (0, 0, 0) with
    | none => rw [Variable.CalculateError, hacc] at h; exact absurd h (by simp)
    | some r => exact accumulate_some _ _ _ _ r hacc
  rw [CalculateError_eq_machine sqrt v hrec] at h
  exact (Option.some.inj h).symm

theorem CalculateError_loop_each_machine (sqrt : K → K) (vs : List (Variable K))
    (r r' : List (String × K)) (h : State.CalculateError.loop sqrt vs r = some r') :
    ∀ w ∈ vs, w.CalculateError sqrt = some (divergenceMachine sqrt w.Entries) := by
  induction vs generalizing r with
  | nil => simp
  | cons u us ih =>
    rw [State.CalculateError.loop] at h
    cases hu : u.CalculateError sqrt with
    | none => simp [hu] at h
    | some d =>
      simp only [hu] at h
      intro w hw
      rcases List.mem_cons.mp hw with rfl | hmem
      · rw [hu, CalculateError_some_machine sqrt _ d hu]
      · exact ih _ h w hmem

theorem CalculateError_loop_keys (sqrt : K → K) (vs : List (Variable K))
    (r r' : List (String × K)) (hr : (r.map Prod.fst).Nodup)
    (h : State.CalculateError.loop sqrt vs r = some r') : (r'.map Prod.fst).Nodup := by
  induction vs generalizing r with
  | nil => simp [State.CalculateError.loop] at h; rw [← h]; exact hr
  | cons u us ih =>
    rw [State.CalculateError.loop] at h
    cases hu : u.CalculateError sqrt with
    | none => simp [hu] at h
    | some d =>
      simp only [hu] at h
      exact ih _ (GoMap_nodup_set _ _ _ hr) h

/-- On a state without repeated names, the binding of `x` in the `Error` map is the
machine divergence of the entries of `x`. -/
theorem CalculateError_get_machine (sqrt : K → K) (x : String) (st : State K)
    (r : List (String × K)) (hnd : (st.Variables.map (fun w => w.Name)).Nodup)
    (h : st.CalculateError sqrt = some r) :
    GoMap.get x r =
      if x ∈ st.Variables.map (fun w => w.Name) then
        some (divergenceMachine sqrt (entriesOf x st.Variables))
      else none := by
  unfold State.CalculateError at h
  by_cases hex : x ∈ st.Variables.map (fun w => w.Name)
  · rw [if_pos hex]
    obtain ⟨w, hw, hx⟩ := List.mem_map.mp hex
    have hall : ∀ u ∈ st.Variables, u.Name = x →
        u.CalculateError sqrt = some (divergenceMachine sqrt (entriesOf x st.Variables)) := by
      intro u hu hux
      rw [CalculateError_loop_each_machine sqrt _ _ _ h u hu,
        entriesOf_present x _ u hnd hu hux]
    exact CalculateError_loop_get_present sqrt x _ _ _ _ ⟨w, hw, hx⟩ hall h
  · rw [if_neg hex]
    have hno : ∀ w ∈ st.Variables, w.Name ≠ x :=
      fun w hw hx => hex (List.mem_map.mpr ⟨w, hw, hx⟩)
    rw [CalculateError_loop_get_absent sqrt x _ _ _ hno h]
    rfl

theorem UpdateError_Error_keys (sqrt : K → K) (node node' : Node K)
    (h : node.UpdateError sqrt = some node') : (node'.Error.map Prod.fst).Nodup := by
  obtain ⟨q, n, s, e, cs, o⟩ := node
  rw [Node.UpdateError] at h
  cases hc : Node.UpdateError.children sqrt cs s.Clone with
  | none => simp [hc] at h
  | some res =>
    obtain ⟨cs', all⟩ := res
    simp only [hc] at h
    cases hr : all.CalculateError sqrt with
    | none => simp [hr] at h
    | some r =>
      simp only [hr, Option.some.injEq] at h
      subst h
      exact CalculateError_loop_keys sqrt _ [] r (by simp) hr

theorem UpdateError_children_entries (sqrt : K → K) (x : String) (cs : List (String × Node K))
    (all : State K) (cs' : List (String × Node K)) (all' : State K)
    (hnd : (all.Variables.map (fun w => w.Name)).Nodup)
    (h : Node.UpdateError.children sqrt cs all = some (cs', all')) :
    (all'.Variables.map (fun w => w.Name)).Nodup
      ∧ samplesOf (entriesOf x all'.Variables) = samplesOf (entriesOf x all.Variables)
      ∧ aggregatesOf (entriesOf x all'.Variables) =
          aggregatesOf (entriesOf x all.Variables) ++
            cs'.filterMap (fun p => GoMap.get x p.2.Error) := by
  induction cs generalizing all cs' with
  | nil =>
    simp only [Node.UpdateError.children, Option.some.injEq, Prod.mk.injEq] at h
    obtain ⟨h1, h2⟩ := h
    subst h1 h2
    simp [hnd]
  | cons p cs ih =>
    obtain ⟨k, child⟩ := p
    rw [Node.UpdateError.children] at h
    cases hch : Node.UpdateError sqrt child with
    | none => simp [hch] at h
    | some child' =>
      simp only [hch] at h
      cases hrest : Node.UpdateError.children sqrt cs
          (all.addError child'.Name child'.Error) with
      | none => simp [hrest] at h
      | some res =>
        obtain ⟨rest', all1⟩ := res
        simp only [hrest, Option.some.injEq, Prod.mk.injEq] at h
        obtain ⟨h1, h2⟩ := h
        subst h1 h2
        obtain ⟨i1, i2, i3⟩ := ih _ _ (addError_nodup _ _ _ hnd) hrest
        refine ⟨i1, ?_, ?_⟩
        · rw [i2, addError_entries, samplesOf_append, samplesOf_synthetic, List.append_nil]
        · rw [i3, addError_entries, aggregatesOf_append, aggregatesOf_synthetic,
            GoMap_filter_key x _ (UpdateError_Error_keys sqrt child child' hch),
            List.filterMap_cons]
          cases GoMap.get x child'.Error <;> simp

end PassLemmas

section PassLemmas2

variable {K : Type} [Zero K] [One K] [HAdd K K K] [Sub K] [Mul K] [Div K] [Neg K] [NatCast K]
  [IntCast K] [LT K] [DecidableEq K] [DecidableRel (fun a b : K => a < b)]

/-- The `Error` map `UpdateError` leaves at a node, read at `x`: the machine divergence of
the node's own entries for `x` followed by the children's values for `x`, in the order the
children were visited. -/
theorem UpdateError_get_machine (sqrt : K → K) (node node' : Node K) (x : String)
    (hwf : (node.State.Variables.map (fun w => w.Name)).Nodup)
    (h : node.UpdateError sqrt = some node') :
    (GoMap.get x node'.Error).getD 0 =
      if 2 ≤ (samplesOf (entriesOf x node.State.Variables)).length then
        runningSum (aggregatesOf (entriesOf x node.State.Variables) ++
            node'.Children.filterMap (fun p => GoMap.get x p.2.Error))
          + stddevMachine sqrt (samplesOf (entriesOf x node.State.Variables))
      else
        runningSum (aggregatesOf (entriesOf x node.State.Variables) ++
          node'.Children.filterMap (fun p => GoMap.get x p.2.Error)) := by
  obtain ⟨q, n, s, e, cs, o⟩ := node
  simp only [Node.State] at hwf ⊢
  rw [Node.UpdateError, State_Clone_eq] at h
  cases hc : Node.UpdateError.children sqrt cs s with
  | none => simp [hc] at h
  | some res =>
    obtain ⟨cs', all⟩ := res
    simp only [hc] at h
    cases hr : all.CalculateError sqrt with
    | none => simp [hr] at h
    | some r =>
      simp only [hr, Option.some.injEq] at h
      subst h
      obtain ⟨hnd, hsam, hagg⟩ := UpdateError_children_entries sqrt x cs s cs' all hwf hc
      show (GoMap.get x r).getD 0 =
        if 2 ≤ (samplesOf (entriesOf x s.Variables)).length then
          runningSum (aggregatesOf (entriesOf x s.Variables) ++
              cs'.filterMap (fun p => GoMap.get x p.2.Error))
            + stddevMachine sqrt (samplesOf (entriesOf x s.Variables))
        else
          runningSum (aggregatesOf (entriesOf x s.Variables) ++
            cs'.filterMap (fun p => GoMap.get x p.2.Error))
      rw [CalculateError_get_machine sqrt x all r hnd hr, ← hsam, ← hagg]
      by_cases hx : x ∈ all.Variables.map (fun w => w.Name)
      · rw [if_pos hx]
        rfl
      · rw [if_neg hx, entriesOf_absent x _ hx]
        rfl

end PassLemmas2

section PassLemmasExact

variable {K : Type} [LinearOrderedField K]

theorem CalculateError_some (sqrt : K → K) (v : Variable K) (d : K)
    (h : v.CalculateError sqrt = some d) : d = divergenceSpec sqrt v.Entries := by
  have hrec : ∀ e ∈ v.Entries, e.recognized := by
    cases hacc : CalculateError.accumulate v.Entries (0, 0, 0) with
    | none => rw [Variable.CalculateError, hacc] at h; exact absurd h (by simp)
    | some r => exact accumulate_some _ _ _ _ r hacc
  rw [CalculateError_eq_spec sqrt v hrec] at h
  exact (Option.some.inj h).symm

theorem CalculateError_loop_each (sqrt : K → K) (vs : List (Variable K))
    (r r' : List (String × K)) (h : State.CalculateError.loop sqrt vs r = some r') :
    ∀ w ∈ vs, w.CalculateError sqrt = some (divergenceSpec sqrt w.Entries) := by
  induction vs generalizing r with
  | nil => simp
  | cons u us ih =>
    rw [State.CalculateError.loop] at h
    cases hu : u.CalculateError sqrt with
    | none => simp [hu] at h
    | some d =>
      simp only [hu] at h
      intro w hw
      rcases List.mem_cons.mp hw with rfl | hmem
      · rw [hu, CalculateError_some sqrt _ d hu]
      · exact ih _ h w hmem

/-- On a state without repeated names, the `Error` map read at `x` (a missing key
reads as `0`) is the spec divergence of the entries of `x`. -/
theorem CalculateError_get (sqrt : K → K) (x : String) (st : State K) (r : List (String × K))
    (hnd : (st.Variables.map (fun w => w.Name)).Nodup)
    (h : st.CalculateError sqrt = some r)
    (hzero : divergenceSpec sqrt ([] : List (Entry K)) = 0) :
    (GoMap.get x r).getD 0 = divergenceSpec sqrt (entriesOf x st.Variables) := by
  unfold State.CalculateError at h
  by_cases hex : ∃ w ∈ st.Variables, w.Name = x
  · obtain ⟨w, hw, hx⟩ := hex
    have hall : ∀ u ∈ st.Variables, u.Name = x →
        u.CalculateError sqrt = some (divergenceSpec sqrt (entriesOf x st.Variables)) := by
      intro u hu hux
      rw [CalculateError_loop_each sqrt _ _ _ h u hu, entriesOf_present x _ u hnd hu hux]
    rw [CalculateError_loop_get_present sqrt x _ _ _ _ ⟨w, hw, hx⟩ hall h]
    rfl
  · have hno : ∀ w ∈ st.Variables, w.Name ≠ x := fun w hw hx => hex ⟨w, hw, hx⟩
    rw [CalculateError_loop_get_absent sqrt x _ _ _ hno h]
    have habs : x ∉ st.Variables.map (fun w => w.Name) := by
      intro hmem
      obtain ⟨w, hw, hx⟩ := List.mem_map.mp hmem
      exact hno w hw hx
    rw [entriesOf_absent x _ habs, hzero]
    rfl

theorem divergenceSpec_nil (sqrt : K → K) : divergenceSpec sqrt ([] : List (Entry K)) = 0 := by
  simp [divergenceSpec, stddevTerm, aggregatesOf, samplesOf]

end PassLemmasExact

section AggLemmas

variable {K : Type}

theorem aggregatesOf_eq_nil (es : List (Entry K))
    (h : ∀ e ∈ es, ∀ k, e.Value ≠ Value.Error k) : aggregatesOf es = [] := by
  induction es with
  | nil => rfl
  | cons e es ih =>
    have hes := ih (fun e' he' => h e' (List.mem_cons_of_mem _ he'))
    have he := h e (List.mem_cons_self _ _)
    simp only [aggregatesOf] at hes
    simp only [aggregatesOf, List.filterMap_cons]
    cases hval : e.Value with
    | Error k => exact absurd hval (he k)
    | _ => simpa using hes

end AggLemmas

/-! ## Idempotence of the pass -/

section IdemLemmas

variable {K : Type} [Zero K] [One K] [HAdd K K K] [Sub K] [Mul K] [Div K] [Neg K] [NatCast K]
  [IntCast K] [LT K] [DecidableEq K] [DecidableRel (fun a b : K => a < b)]

mutual
theorem UpdateError_idem (sqrt : K → K) :
    ∀ (node node' : Node K), node.UpdateError sqrt = some node' →
      node'.UpdateError sqrt = some node' ∧ node'.skeleton = node.skeleton
  | Node.mk q n s e cs o, node', h => by
    rw [Node.UpdateError] at h
    cases hc : Node.UpdateError.children sqrt cs s.Clone with
    | none => simp [hc] at h
    | some res =>
      obtain ⟨cs', all⟩ := res
      simp only [hc] at h
      cases hr : all.CalculateError sqrt with
      | none => simp [hr] at h
      | some r =>
        simp only [hr, Option.some.injEq] at h
        subst h
        obtain ⟨h1, h2, h3⟩ := UpdateError_children_idem sqrt cs s.Clone cs' all hc
        refine ⟨?_, ?_⟩
        · rw [Node.UpdateError, h2 s.Clone, ← h1]
          simp [hr]
        · rw [Node.skeleton, Node.skeleton, h3]
theorem UpdateError_children_idem (sqrt : K → K) :
    ∀ (cs : List (String × Node K)) (all : State K) (cs' : List (String × Node K))
      (all' : State K), Node.UpdateError.children sqrt cs all = some (cs', all') →
      all' = absorb cs' all
        ∧ (∀ a, Node.UpdateError.children sqrt cs' a = some (cs', absorb cs' a))
        ∧ Node.skeleton.children cs' = Node.skeleton.children cs
  | [], all, cs', all', h => by
    simp only [Node.UpdateError.children, Option.some.injEq, Prod.mk.injEq] at h
    obtain ⟨h1, h2⟩ := h
    subst h1 h2
    exact ⟨rfl, fun a => rfl, rfl⟩
  | (k, child) :: rest, all, cs', all', h => by
    rw [Node.UpdateError.children] at h
    cases hch : Node.UpdateError sqrt child with
    | none => simp [hch] at h
    | some child' =>
      simp only [hch] at h
      cases hrest : Node.UpdateError.children sqrt rest
          (all.addError child'.Name child'.Error) with
      | none => simp [hrest] at h
      | some res =>
        obtain ⟨rest', all1⟩ := res
        simp only [hrest, Option.some.injEq, Prod.mk.injEq] at h
        obtain ⟨h1, h2⟩ := h
        subst h1 h2
        obtain ⟨c1, c2⟩ := UpdateError_idem sqrt child child' hch
        obtain ⟨r1, r2, r3⟩ := UpdateError_children_idem sqrt rest _ rest' all1 hrest
        refine ⟨?_, ?_, ?_⟩
        · rw [r1]; rfl
        · intro a
          rw [Node.UpdateError.children, c1]
          simp only [r2]
          rfl
        · rw [Node.skeleton.children, Node.skeleton.children, c2, r3]
end

end IdemLemmas

section SkeletonLemmas

variable {K : Type}

theorem skeleton_children_keys (cs : List (String × Node K)) :
    (Node.skeleton.children cs).map Prod.fst = cs.map Prod.fst := by
  induction cs with
  | nil => rfl
  | cons p cs ih =>
    obtain ⟨k, c⟩ := p
    simp [Node.skeleton.children, ih]

theorem skeleton_fields (a b : Node K) (h : a.skeleton = b.skeleton) :
    a.State = b.State ∧ a.Name = b.Name ∧ a.QualifiedName = b.QualifiedName
      ∧ a.ChildrenOrder = b.ChildrenOrder
      ∧ a.Children.map Prod.fst = b.Children.map Prod.fst := by
  obtain ⟨q, n, s, e, cs, o⟩ := a
  obtain ⟨q', n', s', e', cs', o'⟩ := b
  simp only [Node.skeleton, Node.mk.injEq] at h
  obtain ⟨h1, h2, h3, -, h5, h6⟩ := h
  refine ⟨h3, h2, h1, h6, ?_⟩
  simp only [Node.Children]
  rw [← skeleton_children_keys cs, ← skeleton_children_keys cs', h5]

end SkeletonLemmas

/-! ## Lemmas on the global source and variable lists -/

section ListLemmas

theorem contains_iff (value : String) (xs : List String) :
    contains value xs = true ↔ value ∈ xs := by
  induction xs with
  | nil => simp [contains]
  | cons x xs ih =>
    by_cases h : x = value
    · simp [contains, h]
    · have h' : ¬ value = x := fun e => h e.symm
      simp [contains, h, h', ih]

theorem sortStrings_perm (xs : List String) : (sortStrings xs).Perm xs :=
  List.perm_insertionSort _ xs

theorem sortStrings_sorted (xs : List String) :
    (sortStrings xs).Sorted (fun a b => a ≤ b) := by
  haveI : IsTotal String (fun a b => a.data ≤ b.data) := ⟨fun a b => le_total a.data b.data⟩
  haveI : IsTrans String (fun a b => a.data ≤ b.data) :=
    ⟨fun a b c hab hbc => le_trans (α := List Char) hab hbc⟩
  have h := List.sorted_insertionSort (fun a b : String => a.data ≤ b.data) xs
  exact List.Pairwise.imp (fun hab => String.le_iff_toList_le.mpr hab) h

/-- The loop of `Tree.Add` over the sources, as a fold. -/
theorem firstSeen_fold (l acc : List String) (hacc : acc.Nodup) :
    l.foldl (fun a s => if contains s a then a else a ++ [s]) acc =
      acc ++ (firstSeen l).filter (fun y => y ∉ acc) := by
  induction l generalizing acc with
  | nil => simp [firstSeen]
  | cons x xs ih =>
    rw [List.foldl_cons]
    by_cases hx : x ∈ acc
    · rw [if_pos ((contains_iff x acc).mpr hx), ih acc hacc]
      simp only [firstSeen, List.filter_cons, hx, not_true_eq_false, decide_False,
        Bool.false_eq_true, if_false, List.filter_filter]
      congr 1
      apply List.filter_congr
      intro y _
      by_cases hy : y ∈ acc
      · simp [hy]
      · have : y ≠ x := fun e => hy (e ▸ hx)
        simp [hy, this]
    · have hc : ¬ contains x acc = true := fun h => hx ((contains_iff x acc).mp h)
      rw [if_neg hc, ih (acc ++ [x])]
      · simp only [firstSeen, List.filter_cons, hx, not_false_eq_true, decide_True, if_true,
          List.filter_filter, List.append_assoc, List.singleton_append]
        congr 2
        apply List.filter_congr
        intro y _
        by_cases hy : y ∈ acc
        · simp [hy]
        · by_cases hyx : y = x
          · simp [hyx]
          · simp [hy, hyx]
      · rw [List.nodup_append]
        refine ⟨hacc, List.nodup_singleton _, ?_⟩
        intro a ha hb
        rw [List.mem_singleton] at hb
        exact hx (hb ▸ ha)

theorem firstSeen_mem (l : List String) (y : String) : y ∈ firstSeen l ↔ y ∈ l := by
  induction l with
  | nil => simp [firstSeen]
  | cons x xs ih =>
    by_cases h : y = x
    · simp [firstSeen, h]
    · simp [firstSeen, h, List.mem_filter, ih]

theorem firstSeen_nodup (l : List String) : (firstSeen l).Nodup := by
  induction l with
  | nil => simp [firstSeen]
  | cons x xs ih =>
    rw [firstSeen, List.nodup_cons]
    refine ⟨?_, ih.filter _⟩
    simp [List.mem_filter]

end ListLemmas

section AddLemmas2

variable {K : Type}

theorem Add_Sources (t : Tree K) (source path : String) (vars : List (String × Value K)) :
    (t.Add source path vars).Sources =
      if contains source t.Sources then t.Sources else t.Sources ++ [source] := rfl

theorem Add_Variables (t : Tree K) (source path : String) (vars : List (String × Value K)) :
    (t.Add source path vars).Variables =
      t.Variables ++
        sortStrings ((vars.map Prod.fst).filter (fun name => !contains name t.Variables)) := rfl

theorem AddAll_append (t : Tree K) (calls : List (AddCall K)) (c : AddCall K) :
    t.AddAll (calls ++ [c]) = (t.AddAll calls).Add c.source c.path c.vars := by
  simp [Tree.AddAll, List.foldl_append]

theorem AddAll_Sources (t : Tree K) (calls : List (AddCall K)) :
    (t.AddAll calls).Sources =
      (calls.map (fun c => c.source)).foldl
        (fun a s => if contains s a then a else a ++ [s]) t.Sources := by
  unfold Tree.AddAll
  induction calls generalizing t with
  | nil => rfl
  | cons c cs ih => rw [List.foldl_cons, ih, List.map_cons, List.foldl_cons, Add_Sources]

/-- The batch the call `c` appends to the variable list `seen`. -/
theorem batch_spec (seen : List String) (vars : List (String × Value K))
    (hmap : (vars.map Prod.fst).Nodup) :
    (sortStrings ((vars.map Prod.fst).filter (fun name => !contains name seen))).Sorted
        (fun a b => a < b)
      ∧ ∀ name, name ∈ sortStrings ((vars.map Prod.fst).filter
            (fun name => !contains name seen)) ↔
          name ∈ vars.map Prod.fst ∧ name ∉ seen := by
  constructor
  · apply (sortStrings_sorted _).lt_of_le
    exact (sortStrings_perm _).nodup_iff.mpr (hmap.filter _)
  · intro name
    rw [(sortStrings_perm _).mem_iff, List.mem_filter]
    have := contains_iff name seen
    constructor
    · rintro ⟨h1, h2⟩
      refine ⟨h1, fun hmem => ?_⟩
      rw [this.mpr hmem] at h2
      simp at h2
    · rintro ⟨h1, h2⟩
      refine ⟨h1, ?_⟩
      cases hc : contains name seen with
      | true => exact absurd (this.mp hc) h2
      | false => rfl

end AddLemmas2

section BatchLemmas

variable {K : Type}

theorem AddAll_batches (calls : List (AddCall K))
    (hmap : ∀ c ∈ calls, (c.vars.map Prod.fst).Nodup) :
    ((NewTree : Tree K).AddAll calls).Variables.Nodup
      ∧ ∃ batches : List (List String), batches.length = calls.length
        ∧ ((NewTree : Tree K).AddAll calls).Variables = batches.flatten
        ∧ ∀ (i : Nat) (c : AddCall K) (b : List String),
            calls[i]? = some c → batches[i]? = some b →
              b.Sorted (fun x y => x < y)
                ∧ ∀ name, name ∈ b ↔
                    name ∈ c.vars.map Prod.fst ∧ name ∉ (batches.take i).flatten := by
  induction calls using List.reverseRecOn with
  | nil =>
    refine ⟨by simp [Tree.AddAll, NewTree], [], rfl, by simp [Tree.AddAll, NewTree], ?_⟩
    intro i c b hc
    simp at hc
  | append_singleton calls c ih =>
    obtain ⟨hnd, batches, hlen, hjoin, hidx⟩ :=
      ih (fun c' hc' => hmap c' (List.mem_append_left _ hc'))
    obtain ⟨hsorted, hmem⟩ := batch_spec ((NewTree : Tree K).AddAll calls).Variables c.vars
      (hmap c (by simp))
    rw [AddAll_append, Add_Variables]
    refine ⟨?_, batches ++ [sortStrings ((c.vars.map Prod.fst).filter
      (fun name => !contains name ((NewTree : Tree K).AddAll calls).Variables))], ?_, ?_, ?_⟩
    · rw [List.nodup_append]
      refine ⟨hnd, hsorted.nodup, ?_⟩
      intro a ha hb
      exact ((hmem a).mp hb).2 ha
    · simp [hlen]
    · simp [hjoin]
    · intro i c0 b0 hc0 hb0
      by_cases hi : i < calls.length
      · have hib : i < batches.length := by omega
        rw [List.getElem?_append_left hi] at hc0
        rw [List.getElem?_append_left hib] at hb0
        rw [List.take_append_of_le_length (by omega)]
        exact hidx i c0 b0 hc0 hb0
      · by_cases hi2 : i = calls.length
        · subst hi2
          rw [List.getElem?_append_right (le_refl _)] at hc0
          rw [List.getElem?_append_right (by omega)] at hb0
          simp only [Nat.sub_self, List.getElem?_cons_zero, Option.some.injEq] at hc0
          simp only [hlen, Nat.sub_self, List.getElem?_cons_zero, Option.some.injEq] at hb0
          subst hc0 hb0
          rw [List.take_append_of_le_length (by omega), List.take_of_length_le (by omega),
            ← hjoin]
          exact ⟨hsorted, hmem⟩
        · have : (calls ++ [c]).length ≤ i := by simp; omega
          rw [List.getElem?_eq_none this] at hc0
          simp at hc0

end BatchLemmas

/-! ## Lemmas on `Node.Include` -/

section IncludeLemmas

variable {K : Type}

theorem Add_entries (x source : String) (vars : List (String × Value K)) (st : State K) :
    entriesOf x (st.Add source vars).Variables =
      entriesOf x st.Variables ++
        (vars.filter (fun p => p.1 = x)).map (fun p => ⟨source, p.2⟩) := by
  unfold State.Add
  induction vars generalizing st with
  | nil => simp
  | cons p vars ih =>
    rw [List.foldl_cons, ih, addValue_Variables, entriesOf_addEntry]
    by_cases hp : p.1 = x
    · simp [hp, List.filter_cons]
    · simp [hp, List.filter_cons]

theorem find_NewNode (q n : String) (p : List String) :
    (((NewNode q n : Node K).find p).map Node.State).getD ⟨[]⟩ = ⟨[]⟩ := by
  cases p with
  | nil => rfl
  | cons name rest => rfl

/-- The node `Include` resolves receives the variables through `State.Add`. -/
theorem Include_find_target (source : String) (vars : List (String × Value K))
    (path : List String) :
    ∀ (pre : List String) (node : Node K),
      ∃ target, (Node.Include source vars pre path node).find path = some target
        ∧ target.State = (((node.find path).map Node.State).getD ⟨[]⟩).Add source vars := by
  induction path with
  | nil =>
    intro pre node
    obtain ⟨q, n, s, e, cs, o⟩ := node
    exact ⟨_, rfl, rfl⟩
  | cons name rest ih =>
    intro pre node
    obtain ⟨q, n, s, e, cs, o⟩ := node
    cases hget : GoMap.get name cs with
    | some child =>
      obtain ⟨target, h1, h2⟩ := ih (pre ++ [name]) child
      refine ⟨target, ?_, ?_⟩
      · simp only [Node.Include, hget, Node.find, GoMap.get_set_self]
        exact h1
      · simp only [Node.find, hget]
        exact h2
    | none =>
      obtain ⟨target, h1, h2⟩ := ih (pre ++ [name]) (NewNode (Join (pre ++ [name])) name)
      refine ⟨target, ?_, ?_⟩
      · simp only [Node.Include, hget, Node.find, GoMap.get_set_self]
        exact h1
      · rw [h2, find_NewNode]
        simp [Node.find, hget]

/-- Every node `Include` leaves off its path keeps the state it had; a node the call
creates on the way has the empty state. -/
theorem Include_find_other (source : String) (vars : List (String × Value K))
    (path : List String) :
    ∀ (pre : List String) (node : Node K) (p : List String) (nd' : Node K), p ≠ path →
      (Node.Include source vars pre path node).find p = some nd' →
      nd'.State = ((node.find p).map Node.State).getD ⟨[]⟩ := by
  induction path with
  | nil =>
    intro pre node p nd' hp h
    obtain ⟨q, n, s, e, cs, o⟩ := node
    cases p with
    | nil => exact absurd rfl hp
    | cons name' p' =>
      simp only [Node.Include, Node.find] at h ⊢
      rw [h]
      rfl
  | cons name rest ih =>
    intro pre node p nd' hp h
    obtain ⟨q, n, s, e, cs, o⟩ := node
    cases p with
    | nil =>
      cases hget : GoMap.get name cs <;>
        simp only [Node.Include, hget, Node.find, Option.some.injEq] at h <;>
        subst h <;> rfl
    | cons name' p' =>
      by_cases hn : name = name'
      · subst hn
        have hp' : p' ≠ rest := fun e => hp (by rw [e])
        cases hget : GoMap.get name cs with
        | some child =>
          simp only [Node.Include, hget, Node.find, GoMap.get_set_self] at h ⊢
          exact ih _ child p' nd' hp' h
        | none =>
          simp only [Node.Include, hget, Node.find, GoMap.get_set_self] at h ⊢
          rw [ih _ _ p' nd' hp' h, find_NewNode]
          rfl
      · cases hget : GoMap.get name cs <;>
          simp only [Node.Include, hget, Node.find, GoMap.get_set_ne _ _ _ _ hn] at h ⊢ <;>
          rw [h] <;> rfl

/-- A node that exists off the path of `Include` still exists afterwards. -/
theorem Include_find_kept (source : String) (vars : List (String × Value K))
    (path : List String) :
    ∀ (pre : List String) (node : Node K) (p : List String) (nd : Node K),
      node.find p = some nd →
      ∃ nd', (Node.Include source vars pre path node).find p = some nd' := by
  induction path with
  | nil =>
    intro pre node p nd h
    obtain ⟨q, n, s, e, cs, o⟩ := node
    cases p with
    | nil => exact ⟨_, rfl⟩
    | cons name' p' => exact ⟨nd, by simpa only [Node.Include, Node.find] using h⟩
  | cons name rest ih =>
    intro pre node p nd h
    obtain ⟨q, n, s, e, cs, o⟩ := node
    cases p with
    | nil => exact ⟨_, rfl⟩
    | cons name' p' =>
      by_cases hn : name = name'
      · subst hn
        cases hget : GoMap.get name cs with
        | some child =>
          simp only [Node.find, hget] at h
          obtain ⟨nd', h'⟩ := ih (pre ++ [name]) child p' nd h
          exact ⟨nd', by simp only [Node.Include, hget, Node.find, GoMap.get_set_self]; exact h'⟩
        | none => simp [Node.find, hget] at h
      · refine ⟨nd, ?_⟩
        cases hget : GoMap.get name cs <;>
          simp only [Node.Include, hget, Node.find, GoMap.get_set_ne _ _ _ _ hn] <;>
          simpa only [Node.find] using h

end IncludeLemmas

/-! ## Lemmas on the renderer -/

section OrderLemmas

variable {K : Type}

theorem renderOrder_nil (r : Renderer K) (outs : List (String × (Nat → Option (List Row))))
    (level : Nat) (o : List String)
    (h : ∀ name ∈ o, ∃ out, GoMap.get name outs = some out ∧ out level = some []) :
    renderOrder r outs level o = some [] := by
  induction o with
  | nil => rfl
  | cons name rest ih =>
    obtain ⟨out, h1, h2⟩ := h name (List.mem_cons_self _ _)
    rw [renderOrder, h1]
    simp only [h2]
    rw [ih (fun n hn => h n (List.mem_cons_of_mem _ hn))]
    rfl

end OrderLemmas

section RenderLemmas

variable {K : Type} [LinearOrderedField K]

theorem HTML_children_get (r : Renderer K) (f : Format K) (sources vars : List String)
    (name : String) (cs : List (String × Node K)) :
    GoMap.get name (HTML.render.children r f sources vars cs) =
      (GoMap.get name cs).map (fun child level => HTML.render r f sources vars child level) := by
  induction cs with
  | nil => rfl
  | cons p cs ih =>
    obtain ⟨k, child⟩ := p
    by_cases hk : k = name
    · simp [HTML.render.children, GoMap.get, hk]
    · simp [HTML.render.children, GoMap.get, hk, ih]

theorem Console_children_get (r : Renderer K) (f : Format K) (sources vars : List String)
    (name : String) (cs : List (String × Node K)) :
    GoMap.get name (Console.render.children r f sources vars cs) =
      (GoMap.get name cs).map
        (fun child level => Console.render r f sources vars child level) := by
  induction cs with
  | nil => rfl
  | cons p cs ih =>
    obtain ⟨k, child⟩ := p
    by_cases hk : k = name
    · simp [Console.render.children, GoMap.get, hk]
    · simp [Console.render.children, GoMap.get, hk, ih]

theorem HTML_render_suppressed (r : Renderer K) (f : Format K) (sources vars : List String)
    (node : Node K) (level : Nat)
    (h : (r.ShowZero = false ∧ node.HasErrors = false)
      ∨ (0 ≤ r.LevelLimit ∧ r.LevelLimit < level)) :
    HTML.render r f sources vars node level = some [] := by
  obtain ⟨q, n, s, e, cs, o⟩ := node
  simp only [Node.HasErrors, Node.Error] at h
  rw [HTML.render]
  rcases h with h | h
  · rw [if_pos h]
  · by_cases h1 : r.ShowZero = false ∧ HasErrors.loop e = false
    · rw [if_pos h1]
    · rw [if_neg h1, if_pos ⟨h.2, h.1⟩]

theorem Console_render_suppressed (r : Renderer K) (f : Format K) (sources vars : List String)
    (node : Node K) (level : Nat)
    (h : (r.ShowZero = false ∧ node.HasErrors = false)
      ∨ (0 ≤ r.LevelLimit ∧ r.LevelLimit < level)) :
    Console.render r f sources vars node level = some [] := by
  obtain ⟨q, n, s, e, cs, o⟩ := node
  simp only [Node.HasErrors, Node.Error] at h
  rw [Console.render]
  rcases h with h | h
  · rw [if_pos h]
  · by_cases h1 : r.ShowZero = false ∧ HasErrors.loop e = false
    · rw [if_pos h1]
    · rw [if_neg h1, if_pos ⟨h.2, h.1⟩]

end RenderLemmas

/-! ## The pass completes on recognized values -/

section TotalLemmas

variable {K : Type} [Zero K] [One K] [HAdd K K K] [Sub K] [Mul K] [Div K] [Neg K] [NatCast K]
  [IntCast K] [LT K] [DecidableEq K] [DecidableRel (fun a b : K => a < b)]

theorem addEntry_recognized (name : String) (e : Entry K) (vs : List (Variable K))
    (he : e.recognized) (h : ∀ w ∈ vs, ∀ e' ∈ w.Entries, e'.recognized) :
    ∀ w ∈ addEntry name e vs, ∀ e' ∈ w.Entries, e'.recognized := by
  induction vs with
  | nil =>
    intro w hw e' he'
    simp only [addEntry, List.mem_singleton] at hw
    subst hw
    simp only [List.mem_singleton] at he'
    subst he'
    exact he
  | cons u us ih =>
    intro w hw e' he'
    by_cases hu : u.Name = name
    · simp only [addEntry, hu, if_true, List.mem_cons] at hw
      rcases hw with rfl | hmem
      · simp only [List.mem_append, List.mem_singleton] at he'
        rcases he' with hin | rfl
        · exact h u (List.mem_cons_self _ _) e' hin
        · exact he
      · exact h w (List.mem_cons_of_mem _ hmem) e' he'
    · simp only [addEntry, hu, if_false, List.mem_cons] at hw
      rcases hw with rfl | hmem
      · exact h w (List.mem_cons_self _ _) e' he'
      · exact ih (fun w' hw' => h w' (List.mem_cons_of_mem _ hw')) w hmem e' he'

theorem addError_recognized (source : String) (m : List (String × K)) (st : State K)
    (h : st.allRecognized) : (st.addError source m).allRecognized := by
  unfold State.addError
  induction m generalizing st with
  | nil => exact h
  | cons p m ih =>
    rw [List.foldl_cons]
    apply ih
    unfold State.allRecognized
    rw [addValue_Variables]
    exact addEntry_recognized _ _ _ (Or.inr ⟨p.2, rfl⟩) h

mutual
theorem UpdateError_total (sqrt : K → K) :
    ∀ (node : Node K), node.allRecognized → ∃ node', node.UpdateError sqrt = some node'
  | Node.mk q n s e cs o, h => by
    rw [Node.allRecognized] at h
    obtain ⟨cs', all, hc, hall⟩ :=
      UpdateError_children_total sqrt cs s.Clone h.2 (by rw [State_Clone_eq]; exact h.1)
    obtain ⟨r, hr⟩ := CalculateError_loop_isSome sqrt all.Variables [] hall
    refine ⟨Node.mk q n s r cs' o, ?_⟩
    rw [Node.UpdateError, hc]
    simp only [State.CalculateError, hr]
theorem UpdateError_children_total (sqrt : K → K) :
    ∀ (cs : List (String × Node K)) (all : State K), Node.allRecognized.children cs →
      all.allRecognized →
      ∃ cs' all', Node.UpdateError.children sqrt cs all = some (cs', all')
        ∧ all'.allRecognized
  | [], all, _, hall => ⟨[], all, rfl, hall⟩
  | (k, child) :: rest, all, h, hall => by
    rw [Node.allRecognized.children] at h
    obtain ⟨child', hch⟩ := UpdateError_total sqrt child h.1
    obtain ⟨rest', all', hrest, hall'⟩ :=
      UpdateError_children_total sqrt rest (all.addError child'.Name child'.Error) h.2
        (addError_recognized _ _ _ hall)
    refine ⟨(k, child') :: rest', all', ?_, hall'⟩
    rw [Node.UpdateError.children, hch]
    simp only [hrest]
end

end TotalLemmas

/-! ## Lemmas on paths and on the names of the nodes -/

section PathLemmas

variable {K : Type}

theorem Split_chars_ne_nil (l : List Char) : Split.chars l ≠ [] := by
  induction l with
  | nil => simp [Split.chars]
  | cons c cs ih =>
    rw [Split.chars]
    by_cases hc : c = PathSeparator
    · simp [hc]
    · rw [if_neg hc]
      cases h : Split.chars cs with
      | nil => simp
      | cons seg segs => simp

theorem Split_ne_nil (path : String) : Split path ≠ [] := by
  intro h
  exact Split_chars_ne_nil path.data (List.map_eq_nil_iff.mp h)

theorem trimSeparator_cons (p : String) :
    trimSeparator ("/" ++ p) = p := by
  obtain ⟨l⟩ := p
  rfl

theorem trimSeparator_self (p : String) (hp : p.data.head? ≠ some PathSeparator) :
    trimSeparator p = p := by
  obtain ⟨l⟩ := p
  cases l with
  | nil => rfl
  | cons c rest =>
    have hc : ¬ c = PathSeparator := fun e => hp (by simp [e])
    simp [trimSeparator, hc]

theorem Include_State_of_ne_nil (source : String) (vars : List (String × Value K))
    (pre path : List String) (node : Node K) (hpath : path ≠ []) :
    (Node.Include source vars pre path node).State = node.State := by
  obtain ⟨q, n, s, e, cs, o⟩ := node
  cases path with
  | nil => exact absurd rfl hpath
  | cons name rest =>
    cases hget : GoMap.get name cs <;> simp [Node.Include, hget, Node.State]

theorem Include_Name (source : String) (vars : List (String × Value K))
    (pre path : List String) (node : Node K) :
    (Node.Include source vars pre path node).Name = node.Name
      ∧ (Node.Include source vars pre path node).QualifiedName = node.QualifiedName := by
  obtain ⟨q, n, s, e, cs, o⟩ := node
  cases path with
  | nil => exact ⟨rfl, rfl⟩
  | cons name rest =>
    cases hget : GoMap.get name cs <;>
      simp [Node.Include, hget, Node.Name, Node.QualifiedName]

/-- A property of the root node that `NewNode "" ""` has and `Include` (started with the
empty prefix) keeps holds after any sequence of `Add` calls. -/
theorem AddAll_induction (P : Node K → Prop) (h0 : P (NewNode "" ""))
    (hstep : ∀ (source : String) (vars : List (String × Value K)) (path : List String)
      (node : Node K), path ≠ [] → P node → P (Node.Include source vars [] path node))
    (calls : List (AddCall K)) : P ((NewTree : Tree K).AddAll calls).Node := by
  have hgen : ∀ (calls : List (AddCall K)) (t : Tree K), P t.Node → P (t.AddAll calls).Node := by
    intro calls
    induction calls with
    | nil => intro t ht; exact ht
    | cons c cs ih =>
      intro t ht
      have : t.AddAll (c :: cs) = (t.Add c.source c.path c.vars).AddAll cs := rfl
      rw [this]
      apply ih
      exact hstep c.source c.vars _ t.Node (Split_ne_nil _) ht
  exact hgen calls NewTree h0

theorem find_cons (name : String) (p : List String) (node : Node K) :
    node.find (name :: p) = (GoMap.get name node.Children).bind (fun child => child.find p) := by
  obtain ⟨q, n, s, e, cs, o⟩ := node
  cases h : GoMap.get name cs <;> simp [Node.find, Node.Children, h]

theorem find_append (p : List String) (k : String) (node : Node K) :
    node.find (p ++ [k]) = (node.find p).bind (fun parent => GoMap.get k parent.Children) := by
  induction p generalizing node with
  | nil =>
    rw [List.nil_append, find_cons]
    cases h : GoMap.get k node.Children <;> simp [Node.find, h]
  | cons a p ih =>
    rw [List.cons_append, find_cons, find_cons]
    cases h : GoMap.get a node.Children with
    | none => rfl
    | some child => simp [ih]

theorem namedFrom_NewNode (pre : List String) (q n : String) :
    namedFrom pre (NewNode q n : Node K) := by
  intro p nd hp h
  cases p with
  | nil => exact absurd rfl hp
  | cons a p' => simp [NewNode, Node.find, GoMap.get] at h

theorem namedFrom_child (pre : List String) (node child : Node K) (name : String)
    (h : namedFrom pre node) (hget : GoMap.get name node.Children = some child) :
    namedFrom (pre ++ [name]) child := by
  intro p nd hp hfind
  have hp' : p.getLast? = (name :: p).getLast? := by
    cases p with
    | nil => exact absurd rfl hp
    | cons a p' => simp [List.getLast?_cons_cons]
  have := h (name :: p) nd (by simp) (by rw [find_cons, hget]; exact hfind)
  rw [hp']
  refine ⟨this.1, ?_⟩
  rw [this.2]
  simp

theorem Include_namedFrom (source : String) (vars : List (String × Value K))
    (path : List String) :
    ∀ (pre : List String) (node : Node K), namedFrom pre node →
      namedFrom pre (Node.Include source vars pre path node) := by
  induction path with
  | nil =>
    intro pre node h p nd hp hfind
    obtain ⟨q, n, s, e, cs, o⟩ := node
    cases p with
    | nil => exact absurd rfl hp
    | cons a p' =>
      apply h (a :: p') nd hp
      simpa only [Node.Include, Node.find] using hfind
  | cons name rest ih =>
    intro pre node h p nd hp hfind
    cases p with
    | nil => exact absurd rfl hp
    | cons a p' =>
      by_cases ha : name = a
      · subst ha
        -- the child the call descends into, before the call
        have key : ∀ child0 : Node K, namedFrom (pre ++ [name]) child0 →
            child0.Name = name → child0.QualifiedName = Join (pre ++ [name]) →
            (Node.Include source vars (pre ++ [name]) rest child0).find p' = some nd →
            (name :: p').getLast? = some nd.Name ∧ nd.QualifiedName = Join (pre ++ name :: p') := by
          intro child0 hch hname hqn hf
          cases p' with
          | nil =>
            simp only [Node.find, Option.some.injEq] at hf
            subst hf
            obtain ⟨h1, h2⟩ := Include_Name source vars (pre ++ [name]) rest child0
            simp [h1, h2, hname, hqn]
          | cons b p'' =>
            have := ih (pre ++ [name]) child0 hch (b :: p'') nd (by simp) hf
            refine ⟨by rw [List.getLast?_cons_cons]; exact this.1, ?_⟩
            rw [this.2]
            simp
        obtain ⟨q, n, s, e, cs, o⟩ := node
        cases hget : GoMap.get name cs with
        | some child =>
          simp only [Node.Include, hget, Node.find, GoMap.get_set_self] at hfind
          have hc := h [name] child (by simp)
            (by simp only [Node.find, hget])
          exact key child (namedFrom_child pre _ child name h (by simpa [Node.Children] using hget))
            (by simpa using hc.1.symm) hc.2 hfind
        | none =>
          simp only [Node.Include, hget, Node.find, GoMap.get_set_self] at hfind
          exact key _ (namedFrom_NewNode _ _ _) rfl rfl hfind
      · obtain ⟨q, n, s, e, cs, o⟩ := node
        apply h (a :: p') nd hp
        cases hget : GoMap.get name cs <;>
          simp only [Node.Include, hget, Node.find, GoMap.get_set_ne _ _ _ _ ha] at hfind <;>
          simpa only [Node.find] using hfind

end PathLemmas

/-! ## The pass aborts exactly on an unrecognized value -/

section KeepLemmas

variable {K : Type}

theorem addEntry_keeps (name : String) (e0 : Entry K) (vs : List (Variable K))
    (w : Variable K) (e : Entry K) (hw : w ∈ vs) (he : e ∈ w.Entries) :
    ∃ w' ∈ addEntry name e0 vs, e ∈ w'.Entries := by
  induction vs with
  | nil => simp at hw
  | cons u us ih =>
    by_cases hu : u.Name = name
    · rcases List.mem_cons.mp hw with rfl | hmem
      · exact ⟨⟨w.Name, w.Entries ++ [e0]⟩, by simp [addEntry, hu],
          List.mem_append_left _ he⟩
      · exact ⟨w, by simp [addEntry, hu, hmem], he⟩
    · rcases List.mem_cons.mp hw with rfl | hmem
      · exact ⟨w, by simp [addEntry, hu], he⟩
      · obtain ⟨w', hw', he'⟩ := ih hmem
        exact ⟨w', by simp [addEntry, hu, hw'], he'⟩

theorem addEntry_has (name : String) (e0 : Entry K) (vs : List (Variable K)) :
    ∃ w' ∈ addEntry name e0 vs, e0 ∈ w'.Entries := by
  induction vs with
  | nil => exact ⟨⟨name, [e0]⟩, by simp [addEntry], by simp⟩
  | cons u us ih =>
    by_cases hu : u.Name = name
    · exact ⟨⟨u.Name, u.Entries ++ [e0]⟩, by simp [addEntry, hu], by simp⟩
    · obtain ⟨w', hw', he'⟩ := ih
      exact ⟨w', by simp [addEntry, hu, hw'], he'⟩

theorem Add_has_entry (source : String) (vars : List (String × Value K)) (st : State K)
    (p : String × Value K) (hp : p ∈ vars) :
    ∃ w ∈ (st.Add source vars).Variables, (⟨source, p.2⟩ : Entry K) ∈ w.Entries := by
  unfold State.Add
  induction vars generalizing st with
  | nil => simp at hp
  | cons p0 vars ih =>
    rw [List.foldl_cons]
    rcases List.mem_cons.mp hp with rfl | hmem
    · obtain ⟨w, hw, he⟩ := addEntry_has p.1 (⟨source, p.2⟩ : Entry K) st.Variables
      rw [← addValue_Variables] at hw
      -- the later pairs only extend the variables
      have hkeep : ∀ (l : List (String × Value K)) (s : State K),
          (∃ w ∈ s.Variables, (⟨source, p.2⟩ : Entry K) ∈ w.Entries) →
          ∃ w ∈ (l.foldl (fun st p => st.addValue source p.1 p.2) s).Variables,
            (⟨source, p.2⟩ : Entry K) ∈ w.Entries := by
        intro l
        induction l with
        | nil => intro s hs; exact hs
        | cons p1 l ihl =>
          intro s hs
          rw [List.foldl_cons]
          apply ihl
          obtain ⟨w1, hw1, he1⟩ := hs
          obtain ⟨w2, hw2, he2⟩ := addEntry_keeps p1.1 ⟨source, p1.2⟩ s.Variables w1 _ hw1 he1
          rw [← addValue_Variables] at hw2
          exact ⟨w2, hw2, he2⟩
      exact hkeep vars _ ⟨w, hw, he⟩
    · exact ih _ hmem

end KeepLemmas

section AbortLemmas

variable {K : Type} [Zero K] [One K] [HAdd K K K] [Sub K] [Mul K] [Div K] [Neg K] [NatCast K]
  [IntCast K] [LT K] [DecidableEq K] [DecidableRel (fun a b : K => a < b)]

theorem addError_allRecognized_inv (source : String) (m : List (String × K)) (st : State K)
    (h : (st.addError source m).allRecognized) : st.allRecognized := by
  unfold State.addError at h
  induction m generalizing st with
  | nil => exact h
  | cons p m ih =>
    rw [List.foldl_cons] at h
    have h1 := ih _ h
    intro w hw e he
    obtain ⟨w', hw', he'⟩ := addEntry_keeps p.1 ⟨source, Value.Error p.2⟩ st.Variables w e hw he
    rw [← addValue_Variables] at hw'
    exact h1 w' hw' e he'

theorem Add_allRecognized (source : String) (vars : List (String × Value K)) (st : State K)
    (h : st.allRecognized) (hv : ∀ p ∈ vars, (⟨source, p.2⟩ : Entry K).recognized) :
    (st.Add source vars).allRecognized := by
  unfold State.Add
  induction vars generalizing st with
  | nil => exact h
  | cons p vars ih =>
    rw [List.foldl_cons]
    apply ih
    · unfold State.allRecognized
      rw [addValue_Variables]
      exact addEntry_recognized _ _ _ (hv p (List.mem_cons_self _ _)) h
    · exact fun p' hp' => hv p' (List.mem_cons_of_mem _ hp')

theorem CalculateError_recognized (sqrt : K → K) (v : Variable K) (d : K)
    (h : v.CalculateError sqrt = some d) : ∀ e ∈ v.Entries, e.recognized := by
  cases hacc : CalculateError.accumulate v.Entries (0, 0, 0) with
  | none => rw [Variable.CalculateError, hacc] at h; exact absurd h (by simp)
  | some r => exact accumulate_some _ _ _ _ r hacc

theorem CalculateError_loop_recognized (sqrt : K → K) (vs : List (Variable K))
    (r r' : List (String × K)) (h : State.CalculateError.loop sqrt vs r = some r') :
    ∀ w ∈ vs, ∀ e ∈ w.Entries, e.recognized := by
  intro w hw
  exact CalculateError_recognized sqrt w _ (CalculateError_loop_each_machine sqrt vs r r' h w hw)

theorem UpdateError_children_start (sqrt : K → K) :
    ∀ (cs : List (String × Node K)) (all : State K) (cs' : List (String × Node K))
      (all' : State K), Node.UpdateError.children sqrt cs all = some (cs', all') →
      all'.allRecognized → all.allRecognized := by
  intro cs
  induction cs with
  | nil =>
    intro all cs' all' h hall
    simp only [Node.UpdateError.children, Option.some.injEq, Prod.mk.injEq] at h
    rw [h.2]; exact hall
  | cons p cs ih =>
    intro all cs' all' h hall
    obtain ⟨k, child⟩ := p
    rw [Node.UpdateError.children] at h
    cases hch : Node.UpdateError sqrt child with
    | none => simp [hch] at h
    | some child' =>
      simp only [hch] at h
      cases hrest : Node.UpdateError.children sqrt cs
          (all.addError child'.Name child'.Error) with
      | none => simp [hrest] at h
      | some res =>
        obtain ⟨rest', all1⟩ := res
        simp only [hrest, Option.some.injEq, Prod.mk.injEq] at h
        obtain ⟨-, h2⟩ := h
        subst h2
        exact addError_allRecognized_inv _ _ _ (ih _ _ _ hrest hall)

mutual
theorem UpdateError_some_recognized (sqrt : K → K) :
    ∀ (node node' : Node K), node.UpdateError sqrt = some node' → node.allRecognized
  | Node.mk q n s e cs o, node', h => by
    rw [Node.UpdateError] at h
    cases hc : Node.UpdateError.children sqrt cs s.Clone with
    | none => simp [hc] at h
    | some res =>
      obtain ⟨cs', all⟩ := res
      simp only [hc] at h
      cases hr : all.CalculateError sqrt with
      | none => simp [hr] at h
      | some r =>
        rw [Node.allRecognized]
        refine ⟨?_, UpdateError_children_some_recognized sqrt cs s.Clone cs' all hc⟩
        have hall : all.allRecognized := CalculateError_loop_recognized sqrt _ [] r hr
        have := UpdateError_children_start sqrt cs s.Clone cs' all hc hall
        rwa [State_Clone_eq] at this
theorem UpdateError_children_some_recognized (sqrt : K → K) :
    ∀ (cs : List (String × Node K)) (all : State K) (cs' : List (String × Node K))
      (all' : State K), Node.UpdateError.children sqrt cs all = some (cs', all') →
      Node.allRecognized.children cs
  | [], _, _, _, _ => by rw [Node.allRecognized.children]; trivial
  | (k, child) :: rest, all, cs', all', h => by
    rw [Node.UpdateError.children] at h
    cases hch : Node.UpdateError sqrt child with
    | none => simp [hch] at h
    | some child' =>
      simp only [hch] at h
      cases hrest : Node.UpdateError.children sqrt rest
          (all.addError child'.Name child'.Error) with
      | none => simp [hrest] at h
      | some res =>
        obtain ⟨rest', all1⟩ := res
        rw [Node.allRecognized.children]
        exact ⟨UpdateError_some_recognized sqrt child child' hch,
          UpdateError_children_some_recognized sqrt rest _ rest' all1 hrest⟩
end

theorem UpdateError_none_iff (sqrt : K → K) (node : Node K) :
    node.UpdateError sqrt = none ↔ ¬ node.allRecognized := by
  constructor
  · intro h hrec
    obtain ⟨node', h'⟩ := UpdateError_total sqrt node hrec
    rw [h] at h'
    exact absurd h' (by simp)
  · intro h
    cases hu : node.UpdateError sqrt with
    | none => rfl
    | some node' => exact absurd (UpdateError_some_recognized sqrt node node' hu) h

theorem allRecognized_children_get (cs : List (String × Node K)) (name : String)
    (child : Node K) (h : Node.allRecognized.children cs)
    (hget : GoMap.get name cs = some child) : child.allRecognized := by
  induction cs with
  | nil => simp [GoMap.get] at hget
  | cons p cs ih =>
    obtain ⟨k, c⟩ := p
    rw [Node.allRecognized.children] at h
    by_cases hk : k = name
    · simp only [GoMap.get, hk, if_true, Option.some.injEq] at hget
      subst hget
      exact h.1
    · simp only [GoMap.get, hk, if_false] at hget
      exact ih h.2 hget

theorem allRecognized_children_set (cs : List (String × Node K)) (name : String)
    (child : Node K) (h : Node.allRecognized.children cs) (hc : child.allRecognized) :
    Node.allRecognized.children (GoMap.set name child cs) := by
  induction cs with
  | nil =>
    rw [GoMap.set, Node.allRecognized.children, Node.allRecognized.children]
    exact ⟨hc, trivial⟩
  | cons p cs ih =>
    obtain ⟨k, c⟩ := p
    rw [Node.allRecognized.children] at h
    by_cases hk : k = name
    · rw [GoMap.set, if_pos hk, Node.allRecognized.children]
      exact ⟨hc, h.2⟩
    · rw [GoMap.set, if_neg hk, Node.allRecognized.children]
      exact ⟨h.1, ih h.2⟩

theorem allRecognized_find (p : List String) :
    ∀ (node nd : Node K), node.allRecognized → node.find p = some nd → nd.allRecognized := by
  induction p with
  | nil =>
    intro node nd h hfind
    simp only [Node.find, Option.some.injEq] at hfind
    rw [← hfind]; exact h
  | cons a p ih =>
    intro node nd h hfind
    obtain ⟨q, n, s, e, cs, o⟩ := node
    rw [Node.allRecognized] at h
    cases hget : GoMap.get a cs with
    | none => simp [Node.find, hget] at hfind
    | some child =>
      simp only [Node.find, hget] at hfind
      exact ih child nd (allRecognized_children_get cs a child h.2 hget) hfind

theorem allRecognized_State (node : Node K) (h : node.allRecognized) :
    node.State.allRecognized := by
  obtain ⟨q, n, s, e, cs, o⟩ := node
  rw [Node.allRecognized] at h
  exact h.1

theorem allRecognized_NewNode (q n : String) : (NewNode q n : Node K).allRecognized := by
  rw [NewNode, Node.allRecognized, Node.allRecognized.children]
  exact ⟨fun w hw => by simp at hw, trivial⟩

theorem Include_allRecognized (source : String) (vars : List (String × Value K))
    (hv : ∀ p ∈ vars, (⟨source, p.2⟩ : Entry K).recognized) (path : List String) :
    ∀ (pre : List String) (node : Node K), node.allRecognized →
      (Node.Include source vars pre path node).allRecognized := by
  induction path with
  | nil =>
    intro pre node h
    obtain ⟨q, n, s, e, cs, o⟩ := node
    rw [Node.allRecognized] at h
    rw [Node.Include, Node.allRecognized]
    exact ⟨Add_allRecognized source vars s h.1 hv, h.2⟩
  | cons name rest ih =>
    intro pre node h
    obtain ⟨q, n, s, e, cs, o⟩ := node
    rw [Node.allRecognized] at h
    cases hget : GoMap.get name cs with
    | some child =>
      simp only [Node.Include, hget]
      rw [Node.allRecognized]
      exact ⟨h.1, allRecognized_children_set cs name _ h.2
        (ih _ child (allRecognized_children_get cs name child h.2 hget))⟩
    | none =>
      simp only [Node.Include, hget]
      rw [Node.allRecognized]
      exact ⟨h.1, allRecognized_children_set cs name _ h.2
        (ih _ _ (allRecognized_NewNode _ _))⟩

end AbortLemmas

/-! ## Order independence -/

section PermLemmas

variable {K : Type}

theorem names_addEntry_mem (y name : String) (e : Entry K) (vs : List (Variable K)) :
    y ∈ (addEntry name e vs).map (fun w => w.Name) ↔
      y ∈ vs.map (fun w => w.Name) ∨ y = name := by
  rw [names_addEntry]
  by_cases hmem : name ∈ vs.map (fun w => w.Name)
  · rw [if_pos hmem]
    constructor
    · exact Or.inl
    · rintro (h | h)
      · exact h
      · rw [h]; exact hmem
  · rw [if_neg hmem]
    simp

theorem addError_names_mem (y source : String) (m : List (String × K)) (st : State K) :
    y ∈ (st.addError source m).Variables.map (fun w => w.Name) ↔
      y ∈ st.Variables.map (fun w => w.Name) ∨ y ∈ m.map Prod.fst := by
  unfold State.addError
  induction m generalizing st with
  | nil => simp
  | cons p m ih =>
    rw [List.foldl_cons, ih, addValue_Variables, names_addEntry_mem]
    simp only [List.map_cons, List.mem_cons]
    tauto

theorem absorb_names_mem (y : String) (cs : List (String × Node K)) (all : State K) :
    y ∈ (absorb cs all).Variables.map (fun w => w.Name) ↔
      y ∈ all.Variables.map (fun w => w.Name) ∨ ∃ p ∈ cs, y ∈ p.2.Error.map Prod.fst := by
  unfold absorb
  induction cs generalizing all with
  | nil => simp
  | cons p cs ih =>
    rw [List.foldl_cons, ih, addError_names_mem]
    simp only [List.mem_cons, exists_eq_or_imp]
    tauto

end PermLemmas

section PermLemmas1

variable {K : Type} [Zero K] [One K] [HAdd K K K] [Sub K] [Mul K] [Div K] [Neg K] [NatCast K]
  [IntCast K] [LT K] [DecidableEq K] [DecidableRel (fun a b : K => a < b)]

theorem allRecognized_children_iff (cs : List (String × Node K)) :
    Node.allRecognized.children cs ↔ ∀ p ∈ cs, p.2.allRecognized := by
  induction cs with
  | nil => simp [Node.allRecognized.children]
  | cons p cs ih =>
    obtain ⟨k, c⟩ := p
    rw [Node.allRecognized.children, ih]
    simp

/-- The children after the loop of `UpdateError`: every child replaced by its update. -/
theorem UpdateError_children_map (sqrt : K → K) :
    ∀ (cs : List (String × Node K)) (all : State K) (cs' : List (String × Node K))
      (all' : State K), Node.UpdateError.children sqrt cs all = some (cs', all') →
      cs' = cs.map (fun p => (p.1, (Node.UpdateError sqrt p.2).getD p.2)) := by
  intro cs
  induction cs with
  | nil =>
    intro all cs' all' h
    simp only [Node.UpdateError.children, Option.some.injEq, Prod.mk.injEq] at h
    rw [← h.1]; rfl
  | cons p cs ih =>
    intro all cs' all' h
    obtain ⟨k, child⟩ := p
    rw [Node.UpdateError.children] at h
    cases hch : Node.UpdateError sqrt child with
    | none => simp [hch] at h
    | some child' =>
      simp only [hch] at h
      cases hrest : Node.UpdateError.children sqrt cs
          (all.addError child'.Name child'.Error) with
      | none => simp [hrest] at h
      | some res =>
        obtain ⟨rest', all1⟩ := res
        simp only [hrest, Option.some.injEq, Prod.mk.injEq] at h
        obtain ⟨h1, -⟩ := h
        rw [← h1, ih _ _ _ hrest]
        simp [hch]

end PermLemmas1

section PermLemmas2

variable {K : Type} [LinearOrderedField K]

theorem stddevTerm_perm (sqrt : K → K) (s1 s2 : List K) (h : s1.Perm s2) :
    stddevTerm sqrt s1 = stddevTerm sqrt s2 := by
  unfold stddevTerm
  rw [h.length_eq, h.sum_eq,
    (h.map (fun v => (v - s2.sum / (s2.length : K)) ^ 2)).sum_eq]

theorem divergenceSpec_perm (sqrt : K → K) (l1 l2 : List (Entry K)) (h : l1.Perm l2) :
    divergenceSpec sqrt l1 = divergenceSpec sqrt l2 := by
  unfold divergenceSpec
  have h1 : (aggregatesOf l1).Perm (aggregatesOf l2) := h.filterMap _
  have h2 : (samplesOf l1).Perm (samplesOf l2) := h.filterMap _
  rw [h1.sum_eq, stddevTerm_perm sqrt _ _ h2]

theorem CalculateError_perm (sqrt : K → K) (v1 v2 : Variable K)
    (h : v1.Entries.Perm v2.Entries) : v1.CalculateError sqrt = v2.CalculateError sqrt := by
  by_cases hrec : ∀ e ∈ v1.Entries, e.recognized
  · have hrec2 : ∀ e ∈ v2.Entries, e.recognized := fun e he => hrec e (h.mem_iff.mpr he)
    rw [CalculateError_eq_spec sqrt v1 hrec, CalculateError_eq_spec sqrt v2 hrec2,
      divergenceSpec_perm sqrt _ _ h]
  · have hrec2 : ¬ ∀ e ∈ v2.Entries, e.recognized :=
      fun h2 => hrec (fun e he => h2 e (h.mem_iff.mp he))
    cases h1 : v1.CalculateError sqrt with
    | some d => exact absurd (CalculateError_recognized sqrt v1 d h1) hrec
    | none =>
      cases h2 : v2.CalculateError sqrt with
      | some d => exact absurd (CalculateError_recognized sqrt v2 d h2) hrec2
      | none => rfl

/-- On a state without repeated names, the binding of `x` in the `Error` map. -/
theorem CalculateError_get_opt (sqrt : K → K) (x : String) (st : State K)
    (r : List (String × K)) (hnd : (st.Variables.map (fun w => w.Name)).Nodup)
    (h : st.CalculateError sqrt = some r) :
    GoMap.get x r =
      if x ∈ st.Variables.map (fun w => w.Name) then
        some (divergenceSpec sqrt (entriesOf x st.Variables))
      else none := by
  unfold State.CalculateError at h
  by_cases hex : x ∈ st.Variables.map (fun w => w.Name)
  · rw [if_pos hex]
    obtain ⟨w, hw, hx⟩ := List.mem_map.mp hex
    have hall : ∀ u ∈ st.Variables, u.Name = x →
        u.CalculateError sqrt = some (divergenceSpec sqrt (entriesOf x st.Variables)) := by
      intro u hu hux
      rw [CalculateError_loop_each sqrt _ _ _ h u hu, entriesOf_present x _ u hnd hu hux]
    exact CalculateError_loop_get_present sqrt x _ _ _ _ ⟨w, hw, hx⟩ hall h
  · rw [if_neg hex]
    have hno : ∀ w ∈ st.Variables, w.Name ≠ x :=
      fun w hw hx => hex (List.mem_map.mpr ⟨w, hw, hx⟩)
    rw [CalculateError_loop_get_absent sqrt x _ _ _ hno h]
    rfl

/-- The `Error` map `UpdateError` assigns, read at `x`, for two orders of the children. -/
theorem UpdateError_perm (sqrt : K → K) (q n : String) (s : State K)
    (e : List (String × K)) (o : List String) (cs1 cs2 : List (String × Node K))
    (hcs : cs1.Perm cs2) (hwf : (s.Variables.map (fun w => w.Name)).Nodup) (x : String) :
    ((Node.mk q n s e cs1 o).UpdateError sqrt).map (fun nd => GoMap.get x nd.Error) =
      ((Node.mk q n s e cs2 o).UpdateError sqrt).map (fun nd => GoMap.get x nd.Error) := by
  have hrecs : (Node.mk q n s e cs1 o).allRecognized ↔ (Node.mk q n s e cs2 o).allRecognized := by
    rw [Node.allRecognized, Node.allRecognized, allRecognized_children_iff,
      allRecognized_children_iff]
    constructor
    · exact fun h => ⟨h.1, fun p hp => h.2 p (hcs.mem_iff.mpr hp)⟩
    · exact fun h => ⟨h.1, fun p hp => h.2 p (hcs.mem_iff.mp hp)⟩
  cases h1 : (Node.mk q n s e cs1 o).UpdateError sqrt with
  | none =>
    have : (Node.mk q n s e cs2 o).UpdateError sqrt = none := by
      rw [UpdateError_none_iff] at h1 ⊢
      exact fun h => h1 (hrecs.mpr h)
    rw [this]
  | some n1 =>
    obtain ⟨n2, h2⟩ := UpdateError_total sqrt (Node.mk q n s e cs2 o)
      (hrecs.mp (UpdateError_some_recognized sqrt _ n1 h1))
    rw [h2]
    simp only [Option.map_some', Option.some.injEq]
    -- unfold both runs
    rw [Node.UpdateError, State_Clone_eq] at h1 h2
    cases hc1 : Node.UpdateError.children sqrt cs1 s with
    | none => simp [hc1] at h1
    | some res1 =>
      obtain ⟨cs1', all1⟩ := res1
      simp only [hc1] at h1
      cases hr1 : all1.CalculateError sqrt with
      | none => simp [hr1] at h1
      | some r1 =>
        simp only [hr1, Option.some.injEq] at h1
        cases hc2 : Node.UpdateError.children sqrt cs2 s with
        | none => simp [hc2] at h2
        | some res2 =>
          obtain ⟨cs2', all2⟩ := res2
          simp only [hc2] at h2
          cases hr2 : all2.CalculateError sqrt with
          | none => simp [hr2] at h2
          | some r2 =>
            simp only [hr2, Option.some.injEq] at h2
            subst h1 h2
            simp only [Node.Error]
            have hperm' : cs1'.Perm cs2' := by
              rw [UpdateError_children_map sqrt cs1 s cs1' all1 hc1,
                UpdateError_children_map sqrt cs2 s cs2' all2 hc2]
              exact hcs.map _
            obtain ⟨hnd1, hsam1, hagg1⟩ :=
              UpdateError_children_entries sqrt x cs1 s cs1' all1 hwf hc1
            obtain ⟨hnd2, hsam2, hagg2⟩ :=
              UpdateError_children_entries sqrt x cs2 s cs2' all2 hwf hc2
            have ha1 := (UpdateError_children_idem sqrt cs1 s cs1' all1 hc1).1
            have ha2 := (UpdateError_children_idem sqrt cs2 s cs2' all2 hc2).1
            have hnames : x ∈ all1.Variables.map (fun w => w.Name) ↔
                x ∈ all2.Variables.map (fun w => w.Name) := by
              rw [ha1, ha2, absorb_names_mem, absorb_names_mem]
              constructor
              · rintro (h | ⟨p, hp, hx⟩)
                · exact Or.inl h
                · exact Or.inr ⟨p, hperm'.mem_iff.mp hp, hx⟩
              · rintro (h | ⟨p, hp, hx⟩)
                · exact Or.inl h
                · exact Or.inr ⟨p, hperm'.mem_iff.mpr hp, hx⟩
            have hdiv : divergenceSpec sqrt (entriesOf x all1.Variables) =
                divergenceSpec sqrt (entriesOf x all2.Variables) := by
              unfold divergenceSpec
              rw [hsam1, hsam2, hagg1, hagg2, List.sum_append, List.sum_append,
                (hperm'.filterMap (fun p => GoMap.get x p.2.Error)).sum_eq]
            rw [CalculateError_get_opt sqrt x all1 r1 hnd1 hr1,
              CalculateError_get_opt sqrt x all2 r2 hnd2 hr2, hdiv]
            by_cases hx : x ∈ all1.Variables.map (fun w => w.Name)
            · rw [if_pos hx, if_pos (hnames.mp hx)]
            · rw [if_neg hx, if_neg (fun h => hx (hnames.mpr h))]

end PermLemmas2

/-! ## Lemmas on `ChildrenOrder` -/

section OrderLemmas2

variable {K : Type}

theorem GoMap_get_isSome_iff {V : Type} (k : String) (m : List (String × V)) :
    (GoMap.get k m).isSome ↔ k ∈ m.map Prod.fst := by
  induction m with
  | nil => simp [GoMap.get]
  | cons p m ih =>
    obtain ⟨k', v⟩ := p
    by_cases h : k' = k
    · simp [GoMap.get, h]
    · have h' : ¬ k = k' := fun e => h e.symm
      simp [GoMap.get, h, h', ih]

theorem firstSeen_eq_fold (l : List String) :
    firstSeen l = l.foldl (fun a s => if contains s a then a else a ++ [s]) [] := by
  rw [firstSeen_fold l [] (by simp)]
  simp

theorem firstSeen_concat (l : List String) (s : String) :
    firstSeen (l ++ [s]) = if s ∈ l then firstSeen l else firstSeen l ++ [s] := by
  rw [firstSeen_eq_fold (l ++ [s]), List.foldl_append, ← firstSeen_eq_fold l]
  simp only [List.foldl_cons, List.foldl_nil]
  by_cases h : s ∈ l
  · rw [if_pos h, if_pos ((contains_iff s _).mpr ((firstSeen_mem l s).mpr h))]
  · rw [if_neg h, if_neg]
    intro hc
    exact h ((firstSeen_mem l s).mp ((contains_iff s _).mp hc))

theorem nextSeg_nil_right (p : List String) : nextSeg p [] = none := by
  cases p <;> rfl

theorem find_NewNode_order (q n : String) (p : List String) :
    (((NewNode q n : Node K).find p).map Node.ChildrenOrder).getD [] = []
      ∧ (((NewNode q n : Node K).find p).map
          (fun nd => nd.Children.map Prod.fst)).getD [] = [] := by
  cases p with
  | nil => exact ⟨rfl, rfl⟩
  | cons name rest => exact ⟨rfl, rfl⟩

/-- What `Include` does to `ChildrenOrder` and to the keys of `Children` of the node at
`p`: the name of the child it goes through is added at the end when it is not a key. -/
theorem Include_order (source : String) (vars : List (String × Value K))
    (path : List String) :
    ∀ (pre : List String) (node : Node K) (p : List String) (nd' : Node K),
      (Node.Include source vars pre path node).find p = some nd' →
      nd'.ChildrenOrder =
          ((node.find p).map Node.ChildrenOrder).getD [] ++
            (nextSeg p path).toList.filter
              (fun s => s ∉ ((node.find p).map (fun nd => nd.Children.map Prod.fst)).getD [])
        ∧ nd'.Children.map Prod.fst =
          ((node.find p).map (fun nd => nd.Children.map Prod.fst)).getD [] ++
            (nextSeg p path).toList.filter
              (fun s => s ∉ ((node.find p).map (fun nd => nd.Children.map Prod.fst)).getD []) := by
  induction path with
  | nil =>
    intro pre node p nd' hfind
    obtain ⟨q, n, s, e, cs, o⟩ := node
    rw [nextSeg_nil_right]
    cases p with
    | nil =>
      simp only [Node.Include, Node.find, Option.some.injEq] at hfind
      subst hfind
      simp [Node.find, Node.ChildrenOrder, Node.Children]
    | cons a p' =>
      have : (Node.mk q n s e cs o).find (a :: p') = some nd' := by
        simpa only [Node.Include, Node.find] using hfind
      simp [this]
  | cons name rest ih =>
    intro pre node p nd' hfind
    obtain ⟨q, n, s, e, cs, o⟩ := node
    cases p with
    | nil =>
      cases hget : GoMap.get name cs with
      | some child =>
        have hmem : name ∈ cs.map Prod.fst :=
          (GoMap_get_isSome_iff name cs).mp (by rw [hget]; rfl)
        simp only [Node.Include, hget, Node.find, Option.some.injEq] at hfind
        subst hfind
        simp [Node.find, Node.ChildrenOrder, Node.Children, nextSeg, GoMap_keys_set, hmem]
      | none =>
        have hmem : name ∉ cs.map Prod.fst := by
          intro h
          have := (GoMap_get_isSome_iff name cs).mpr h
          rw [hget] at this
          exact absurd this (by simp)
        simp only [Node.Include, hget, Node.find, Option.some.injEq] at hfind
        subst hfind
        simp [Node.find, Node.ChildrenOrder, Node.Children, nextSeg, GoMap_keys_set, hmem]
    | cons a p' =>
      by_cases ha : name = a
      · subst ha
        have hnext : nextSeg (name :: p') (name :: rest) = nextSeg p' rest := by
          simp [nextSeg]
        rw [hnext]
        cases hget : GoMap.get name cs with
        | some child =>
          simp only [Node.Include, hget, Node.find, GoMap.get_set_self] at hfind
          have := ih (pre ++ [name]) child p' nd' hfind
          simpa only [Node.find, hget] using this
        | none =>
          simp only [Node.Include, hget, Node.find, GoMap.get_set_self] at hfind
          have := ih (pre ++ [name]) _ p' nd' hfind
          rw [(find_NewNode_order _ _ p').1, (find_NewNode_order _ _ p').2] at this
          simpa only [Node.find, hget, Option.map_none', Option.getD_none] using this
      · have hnext : nextSeg (a :: p') (name :: rest) = none := by
          have ha' : ¬ a = name := fun e => ha e.symm
          simp [nextSeg, ha']
        rw [hnext]
        have : (Node.mk q n s e cs o).find (a :: p') = some nd' := by
          cases hget : GoMap.get name cs <;>
            simp only [Node.Include, hget, Node.find, GoMap.get_set_ne _ _ _ _ ha] at hfind <;>
            simpa only [Node.find] using hfind
        simp [this]

/-- A call creates, or finds, a node at every proper prefix of its path. -/
theorem Include_find_prefix (source : String) (vars : List (String × Value K))
    (path : List String) :
    ∀ (pre : List String) (node : Node K) (p : List String) (s : String),
      nextSeg p path = some s →
      ∃ nd, (Node.Include source vars pre path node).find p = some nd := by
  induction path with
  | nil =>
    intro pre node p s h
    rw [nextSeg_nil_right] at h
    exact absurd h (by simp)
  | cons name rest ih =>
    intro pre node p s h
    obtain ⟨q, n, st, e, cs, o⟩ := node
    cases p with
    | nil => exact ⟨_, rfl⟩
    | cons a p' =>
      by_cases ha : a = name
      · subst ha
        have h' : nextSeg p' rest = some s := by simpa [nextSeg] using h
        cases hget : GoMap.get a cs with
        | some child =>
          obtain ⟨nd, hnd⟩ := ih (pre ++ [a]) child p' s h'
          exact ⟨nd, by simp only [Node.Include, hget, Node.find, GoMap.get_set_self]; exact hnd⟩
        | none =>
          obtain ⟨nd, hnd⟩ := ih (pre ++ [a]) (NewNode (Join (pre ++ [a])) a) p' s h'
          exact ⟨nd, by simp only [Node.Include, hget, Node.find, GoMap.get_set_self]; exact hnd⟩
      · simp [nextSeg, ha] at h

/-- The invariant of `ChildrenOrder` after a sequence of calls. -/
theorem AddAll_order (calls : List (AddCall K)) :
    (∀ (p : List String) (nd : Node K),
        ((NewTree : Tree K).AddAll calls).Node.find p = some nd →
        nd.ChildrenOrder = firstSeen (childRequests p calls)
          ∧ nd.Children.map Prod.fst = nd.ChildrenOrder)
      ∧ (∀ p : List String, ((NewTree : Tree K).AddAll calls).Node.find p = none →
          childRequests p calls = []) := by
  induction calls using List.reverseRecOn with
  | nil =>
    refine ⟨?_, fun p _ => rfl⟩
    intro p nd hfind
    cases p with
    | nil =>
      simp only [Tree.AddAll, List.foldl_nil, NewTree, Node.find, Option.some.injEq] at hfind
      subst hfind
      exact ⟨rfl, rfl⟩
    | cons a p' => simp [Tree.AddAll, NewTree, NewNode, Node.find, GoMap.get] at hfind
  | append_singleton calls c ih =>
    obtain ⟨ihA, ihB⟩ := ih
    have hnode : ((NewTree : Tree K).AddAll (calls ++ [c])).Node =
        ((NewTree : Tree K).AddAll calls).Node.Include c.source c.vars [] c.segments := by
      rw [AddAll_append]; rfl
    have hreq : ∀ p, childRequests p (calls ++ [c]) =
        childRequests p calls ++ (nextSeg p c.segments).toList := by
      intro p
      simp only [childRequests, List.filterMap_append, List.filterMap_cons, List.filterMap_nil]
      cases nextSeg p c.segments <;> rfl
    rw [hnode]
    constructor
    · intro p nd' hfind
      obtain ⟨h1, h2⟩ := Include_order c.source c.vars c.segments [] _ p nd' hfind
      cases hold : ((NewTree : Tree K).AddAll calls).Node.find p with
      | some nd =>
        obtain ⟨i1, i2⟩ := ihA p nd hold
        rw [hold] at h1 h2
        simp only [Option.map_some', Option.getD_some] at h1 h2
        rw [hreq]
        cases hnext : nextSeg p c.segments with
        | none =>
          rw [hnext] at h1 h2
          simp only [Option.toList_none, List.filter_nil, List.append_nil] at h1 h2 ⊢
          exact ⟨h1.trans i1, h2.trans (i2.trans h1.symm)⟩
        | some s =>
          rw [hnext] at h1 h2
          rw [Option.toList_some, firstSeen_concat]
          by_cases hs : s ∈ childRequests p calls
          · have hk : s ∈ nd.Children.map Prod.fst := by
              rw [i2, i1]; exact (firstSeen_mem _ s).mpr hs
            simp only [Option.toList_some, List.filter_cons, hk, not_true_eq_false,
              decide_False, Bool.false_eq_true, if_false, List.filter_nil,
              List.append_nil] at h1 h2
            rw [if_pos hs]
            exact ⟨h1.trans i1, h2.trans (i2.trans h1.symm)⟩
          · have hk : s ∉ nd.Children.map Prod.fst := by
              rw [i2, i1]; exact fun h => hs ((firstSeen_mem _ s).mp h)
            simp only [Option.toList_some, List.filter_cons, hk, not_false_eq_true,
              decide_True, if_true, List.filter_nil] at h1 h2
            rw [if_neg hs]
            exact ⟨by rw [h1, i1], by rw [h2, h1, i2]⟩
      | none =>
        have hB := ihB p hold
        rw [hold] at h1 h2
        simp only [Option.map_none', Option.getD_none, List.nil_append, List.not_mem_nil,
          not_false_eq_true, decide_True, List.filter_true] at h1 h2
        rw [hreq, hB, List.nil_append]
        cases hnext : nextSeg p c.segments with
        | none =>
          rw [hnext] at h1 h2
          exact ⟨by rw [h1]; rfl, by rw [h2, h1]⟩
        | some s =>
          rw [hnext] at h1 h2
          exact ⟨by rw [h1]; rfl, by rw [h2, h1]⟩
    · intro p hfind
      have hold : ((NewTree : Tree K).AddAll calls).Node.find p = none := by
        cases h : ((NewTree : Tree K).AddAll calls).Node.find p with
        | none => rfl
        | some nd =>
          obtain ⟨nd', h'⟩ := Include_find_kept c.source c.vars c.segments [] _ p nd h
          rw [hfind] at h'
          exact absurd h' (by simp)
      rw [hreq, ihB p hold]
      cases hnext : nextSeg p c.segments with
      | none => rfl
      | some s =>
        obtain ⟨nd, h'⟩ := Include_find_prefix c.source c.vars c.segments [] _ p s hnext
        rw [hfind] at h'
        exact absurd h' (by simp)

end OrderLemmas2

/-! ## Lemmas on the source rows -/

section SourceRowLemmas

variable {K : Type}

theorem Get_loop_entries (name : String) (vs : List (Variable K)) (i j : Nat)
    (h : State.Get.loop name vs i = some j) :
    ∃ v, vs[j - i]? = some v ∧ v.Name = name ∧ v.Entries = entriesOf name vs := by
  induction vs generalizing i with
  | nil => simp [State.Get.loop] at h
  | cons w ws ih =>
    rw [State.Get.loop] at h
    by_cases hw : w.Name = name
    · simp only [hw, if_true, Option.some.injEq] at h
      subst h
      exact ⟨w, by simp, hw, by simp [entriesOf, hw]⟩
    · simp only [hw, if_false] at h
      obtain ⟨v, h1, h2, h3⟩ := ih _ h
      have hle := (Get_loop_some name ⟨"", .other ""⟩ ws (i + 1) j h).2
      have hj : j - i = (j - (i + 1)) + 1 := by omega
      exact ⟨v, by rw [hj, List.getElem?_cons_succ]; exact h1, h2, by simp [entriesOf, hw, h3]⟩

theorem Get_loop_none_entries (name : String) (vs : List (Variable K)) (i : Nat)
    (h : State.Get.loop name vs i = none) : entriesOf name vs = [] := by
  induction vs generalizing i with
  | nil => rfl
  | cons w ws ih =>
    rw [State.Get.loop] at h
    by_cases hw : w.Name = name
    · simp [hw] at h
    · simp only [hw, if_false] at h
      simp [entriesOf, hw, ih _ h]

theorem Variable_Get_isSome (v : Variable K) (source : String) :
    (v.Get source).isSome ↔ ∃ e ∈ v.Entries, e.Source = source := by
  unfold Variable.Get
  induction v.Entries with
  | nil => simp [Variable.Get.loop]
  | cons e es ih =>
    by_cases he : e.Source = source
    · simp [Variable.Get.loop, he]
    · simp [Variable.Get.loop, he, ih]

theorem presentVars_mem (state : State K) (vars : List String) (v : Variable K)
    (h : v ∈ presentVars state vars) :
    ∃ name ∈ vars, v.Entries = entriesOf name state.Variables := by
  unfold presentVars at h
  obtain ⟨name, hname, hv⟩ := List.mem_filterMap.mp h
  refine ⟨name, hname, ?_⟩
  cases hget : state.Get name with
  | none => simp [hget] at hv
  | some i =>
    simp only [hget, Option.some_bind] at hv
    obtain ⟨v', h1, -, h3⟩ := Get_loop_entries name state.Variables 0 i hget
    rw [Nat.sub_zero, hv] at h1
    rw [Option.some.inj h1]
    exact h3

theorem presentVars_of_entry (state : State K) (vars : List String) (name : String)
    (hname : name ∈ vars) (e : Entry K) (he : e ∈ entriesOf name state.Variables) :
    ∃ v ∈ presentVars state vars, e ∈ v.Entries := by
  cases hget : state.Get name with
  | none =>
    rw [Get_loop_none_entries name state.Variables 0 hget] at he
    simp at he
  | some i =>
    obtain ⟨v, h1, -, h3⟩ := Get_loop_entries name state.Variables 0 i hget
    rw [Nat.sub_zero] at h1
    refine ⟨v, ?_, by rw [h3]; exact he⟩
    unfold presentVars
    exact List.mem_filterMap.mpr ⟨name, hname, by simp [hget, h1]⟩

theorem zipWith_zipWith_same {α β : Type} (f g : α → β → β) (l : List α) (c : List β) :
    List.zipWith f l (List.zipWith g l c) = List.zipWith (fun a b => f a (g a b)) l c := by
  induction l generalizing c with
  | nil => simp
  | cons a l ih =>
    cases c with
    | nil => simp
    | cons b c => simp [ih]

theorem zipWith_append_nil {α β : Type} (l : List α) (c : List (List β))
    (h : c.length = l.length) : List.zipWith (fun _ values => values) l c = c := by
  induction l generalizing c with
  | nil =>
    cases c with
    | nil => rfl
    | cons b c => simp at h
  | cons a l ih =>
    cases c with
    | nil => simp at h
    | cons b c =>
      simp only [List.length_cons, Nat.add_right_cancel_iff] at h
      simp [ih c h]

theorem crossLoop_eq (cell : Value K → String) (sources : List String) (state : State K)
    (vars : List String) :
    ∀ cross : List (List String), cross.length = sources.length →
      crossLoop cell sources state vars cross =
        List.zipWith (fun source values => values ++ crossCells cell state vars source)
          sources cross := by
  induction vars with
  | nil =>
    intro cross hlen
    simp only [crossLoop, crossCells, presentVars, List.filterMap_nil, List.map_nil,
      List.append_nil]
    exact (zipWith_append_nil sources cross hlen).symm
  | cons name rest ih =>
    intro cross hlen
    rw [crossLoop]
    cases hget : state.Get name with
    | none =>
      simp only []
      rw [ih cross hlen]
      simp [crossCells, presentVars, hget]
    | some i =>
      simp only []
      cases hv : state.Variables[i]? with
      | none =>
        simp only []
        rw [ih cross hlen]
        simp [crossCells, presentVars, hget, hv]
      | some v =>
        simp only []
        rw [ih _ (by simp [hlen]), zipWith_zipWith_same]
        congr 1
        funext source values
        simp only [crossCells, presentVars, List.filterMap_cons, hget, Option.some_bind, hv,
          List.map_cons]
        cases v.Get source <;> simp

theorem crossTable_eq (cell : Value K → String) (sources vars : List String)
    (state : State K) :
    crossTable cell sources vars state = sources.map (crossCells cell state vars) := by
  rw [crossTable, crossLoop_eq cell sources state vars _ (by simp)]
  induction sources with
  | nil => rfl
  | cons s sources ih => simp [List.replicate_succ, ih]

theorem sourceRows_eq (label : String → String) (blank : String → String)
    (cells : String → List String) (sources : List String) :
    sourceRows label blank sources (sources.map cells) =
      (sources.filter (fun s => !empty (cells s))).map
        (fun s => ⟨RowKind.source, label s, (cells s).map blank⟩) := by
  induction sources with
  | nil => rfl
  | cons s sources ih =>
    rw [List.map_cons, sourceRows, ih]
    cases h : empty (cells s) <;> simp [h, List.filter_cons]

theorem empty_iff (xs : List String) : empty xs = true ↔ ∀ x ∈ xs, x = "" := by
  induction xs with
  | nil => simp [empty]
  | cons x xs ih =>
    by_cases h : x = ""
    · simp [empty, h, ih]
    · simp [empty, h]

/-- A source gets a row exactly when it has an entry for a selected variable. -/
theorem crossCells_not_empty (cell : Value K → String) (hcell : ∀ val, cell val ≠ "")
    (state : State K) (vars : List String) (source : String) :
    empty (crossCells cell state vars source) = false ↔ sourceHasEntry state vars source := by
  rw [← Bool.not_eq_true, empty_iff]
  unfold sourceHasEntry crossCells
  constructor
  · intro h
    by_contra hno
    apply h
    intro x hx
    obtain ⟨v, hv, rfl⟩ := List.mem_map.mp hx
    cases hg : v.Get source with
    | none => rfl
    | some val =>
      exfalso
      obtain ⟨e, he, hs⟩ := (Variable_Get_isSome v source).mp (by rw [hg]; rfl)
      obtain ⟨name, hname, hent⟩ := presentVars_mem state vars v hv
      exact hno ⟨name, hname, e, by rw [← hent]; exact he, hs⟩
  · rintro ⟨name, hname, e, he, hs⟩ hall
    obtain ⟨v, hv, hev⟩ := presentVars_of_entry state vars name hname e he
    have hsome : (v.Get source).isSome := (Variable_Get_isSome v source).mpr ⟨e, hev, hs⟩
    obtain ⟨val, hval⟩ := Option.isSome_iff_exists.mp hsome
    have := hall _ (List.mem_map.mpr ⟨v, hv, rfl⟩)
    simp only [hval] at this
    exact hcell val this

end SourceRowLemmas

section SourceRowLemmas1

variable {K : Type}

theorem td_ne_empty (s : String) : "<td>" ++ s ++ "</td>" ≠ "" := by
  intro h
  have := congrArg String.length h
  simp only [String.length_append] at this
  have h4 : ("<td>" : String).length = 4 := by decide
  have h0 : ("" : String).length = 0 := by decide
  omega

theorem Console_rows_eq (r : Renderer K) (f : Format K) (sources vars : List String)
    (q : String) (state : State K) (err : List (String × K)) (hshow : r.ShowSource = true) :
    (Console.rows r f sources vars q state err).tail =
      (sources.filter (fun s =>
          !empty (crossCells (fun val => f.value val) state vars s))).map
        (fun s => ⟨RowKind.source, q ++ ":" ++ s,
          (crossCells (fun val => f.value val) state vars s).map
            (fun value => if value ≠ "" then "\t" ++ value else "\t")⟩) := by
  rw [Console.rows, List.tail_cons, if_pos hshow, crossTable_eq, sourceRows_eq]

theorem filter_hasEntry (cell : Value K → String) (hcell : ∀ val, cell val ≠ "")
    (state : State K) (vars sources : List String) :
    sources.filter (fun s => !empty (crossCells cell state vars s)) =
      sources.filter (fun s => decide (sourceHasEntry state vars s)) := by
  apply List.filter_congr
  intro s _
  have := crossCells_not_empty cell hcell state vars s
  by_cases h : sourceHasEntry state vars s
  · simp [h, this.mpr h]
  · have he : empty (crossCells cell state vars s) = true := by
      cases hc : empty (crossCells cell state vars s) with
      | true => rfl
      | false => exact absurd (this.mp hc) h
    simp [h, he]

end SourceRowLemmas1

section SourceRowLemmas2

variable {K : Type} [LinearOrderedField K]

theorem HTML_rows_eq (r : Renderer K) (f : Format K) (sources vars : List String)
    (q : String) (state : State K) (err : List (String × K)) (hshow : r.ShowSource = true) :
    (HTML.rows r f sources vars q state err).tail =
      (sources.filter (fun s =>
          !empty (crossCells (fun val => "<td>" ++ f.value val ++ "</td>") state vars s))).map
        (fun s => ⟨RowKind.source, "<td>" ++ f.escape (q ++ ":" ++ s) ++ "</td>",
          (crossCells (fun val => "<td>" ++ f.value val ++ "</td>") state vars s).map
            (fun value => if value ≠ "" then value else "<td></td>")⟩) := by
  rw [HTML.rows, List.tail_cons, if_pos hshow, crossTable_eq, sourceRows_eq]

theorem HTML_render_rows (r : Renderer K) (f : Format K) (sources vars : List String)
    (node : Node K) (level : Nat) (out : List Row)
    (h : HTML.render r f sources vars node level = some out) :
    out = [] ∨ ∃ below,
      out = HTML.rows r f sources vars node.QualifiedName node.State node.Error ++ below := by
  obtain ⟨q, n, s, e, cs, o⟩ := node
  rw [HTML.render] at h
  by_cases h1 : r.ShowZero = false ∧ HasErrors.loop e = false
  · rw [if_pos h1] at h
    exact Or.inl (Option.some.inj h).symm
  · rw [if_neg h1] at h
    by_cases h2 : (level : Int) > r.LevelLimit ∧ r.LevelLimit ≥ 0
    · rw [if_pos h2] at h
      exact Or.inl (Option.some.inj h).symm
    · rw [if_neg h2] at h
      cases hb : renderOrder r (HTML.render.children r f sources vars cs) (level + 1) o with
      | none => simp [hb] at h
      | some below =>
        simp only [hb, Option.some.injEq] at h
        exact Or.inr ⟨below, h.symm⟩

theorem Console_render_rows (r : Renderer K) (f : Format K) (sources vars : List String)
    (node : Node K) (level : Nat) (out : List Row)
    (h : Console.render r f sources vars node level = some out) :
    out = [] ∨ ∃ below,
      out = Console.rows r f sources vars node.QualifiedName node.State node.Error ++ below := by
  obtain ⟨q, n, s, e, cs, o⟩ := node
  rw [Console.render] at h
  by_cases h1 : r.ShowZero = false ∧ HasErrors.loop e = false
  · rw [if_pos h1] at h
    exact Or.inl (Option.some.inj h).symm
  · rw [if_neg h1] at h
    by_cases h2 : (level : Int) > r.LevelLimit ∧ r.LevelLimit ≥ 0
    · rw [if_pos h2] at h
      exact Or.inl (Option.some.inj h).symm
    · rw [if_neg h2] at h
      cases hb : renderOrder r (Console.render.children r f sources vars cs) (level + 1) o with
      | none => simp [hb] at h
      | some below =>
        simp only [hb, Option.some.injEq] at h
        exact Or.inr ⟨below, h.symm⟩

end SourceRowLemmas2

/-! ## Lemmas on properties of every node of a subtree -/

section SubtreeLemmas

variable {K : Type}

theorem all_self (P : Node K → Prop) (node : Node K) (h : node.all P) : P node := by
  obtain ⟨q, n, s, e, cs, o⟩ := node
  rw [Node.all] at h
  exact h.1

theorem all_children_iff (P : Node K → Prop) (cs : List (String × Node K)) :
    Node.all.children P cs ↔ ∀ c ∈ cs, c.2.all P := by
  induction cs with
  | nil => simp [Node.all.children]
  | cons p cs ih =>
    obtain ⟨k, c⟩ := p
    rw [Node.all.children, ih]
    simp

theorem all_Children (P : Node K → Prop) (node : Node K) (h : node.all P) :
    ∀ c ∈ node.Children, c.2.all P := by
  obtain ⟨q, n, s, e, cs, o⟩ := node
  rw [Node.all] at h
  exact (all_children_iff P cs).mp h.2

theorem all_mk (P : Node K → Prop) (node : Node K) (h1 : P node)
    (h2 : ∀ c ∈ node.Children, c.2.all P) : node.all P := by
  obtain ⟨q, n, s, e, cs, o⟩ := node
  rw [Node.all]
  exact ⟨h1, (all_children_iff P cs).mpr h2⟩

theorem GoMap_get_mem {V : Type} (k : String) (v : V) (m : List (String × V))
    (h : GoMap.get k m = some v) : (k, v) ∈ m := by
  induction m with
  | nil => simp [GoMap.get] at h
  | cons p m ih =>
    obtain ⟨k', v'⟩ := p
    by_cases hk : k' = k
    · simp only [GoMap.get, hk, if_true, Option.some.injEq] at h
      simp [hk, h]
    · simp only [GoMap.get, hk, if_false] at h
      exact List.mem_cons_of_mem _ (ih h)

theorem GoMap_mem_get {V : Type} (k : String) (v : V) (m : List (String × V))
    (hnd : (m.map Prod.fst).Nodup) (h : (k, v) ∈ m) : GoMap.get k m = some v := by
  induction m with
  | nil => simp at h
  | cons p m ih =>
    obtain ⟨k', v'⟩ := p
    simp only [List.map_cons, List.nodup_cons] at hnd
    rcases List.mem_cons.mp h with heq | hmem
    · simp only [Prod.mk.injEq] at heq
      simp [GoMap.get, heq.1, heq.2]
    · have hk : ¬ k' = k := by
        intro e
        exact hnd.1 (List.mem_map.mpr ⟨(k, v), hmem, e.symm⟩)
      simp only [GoMap.get, hk, if_false]
      exact ih hnd.2 hmem

theorem all_find (P : Node K → Prop) (p : List String) :
    ∀ (node nd : Node K), node.all P → node.find p = some nd → nd.all P := by
  induction p with
  | nil =>
    intro node nd h hfind
    simp only [Node.find, Option.some.injEq] at hfind
    rw [← hfind]; exact h
  | cons a p ih =>
    intro node nd h hfind
    rw [find_cons] at hfind
    cases hget : GoMap.get a node.Children with
    | none => simp [hget] at hfind
    | some child =>
      simp only [hget, Option.some_bind] at hfind
      exact ih child nd (all_Children P node h _ (GoMap_get_mem a child _ hget)) hfind

theorem entriesOf_mem (x : String) (vs : List (Variable K)) (e : Entry K)
    (h : e ∈ entriesOf x vs) : ∃ w ∈ vs, e ∈ w.Entries := by
  induction vs with
  | nil => simp [entriesOf] at h
  | cons w ws ih =>
    by_cases hw : w.Name = x
    · simp only [entriesOf, hw, if_true] at h
      exact ⟨w, List.mem_cons_self _ _, h⟩
    · simp only [entriesOf, hw, if_false] at h
      obtain ⟨w', hw', he⟩ := ih h
      exact ⟨w', List.mem_cons_of_mem _ hw', he⟩

end SubtreeLemmas

section MonotoneLemmas

variable {K : Type} [LinearOrderedField K]

theorem HasErrors_loop_false_iff (m : List (String × K)) :
    HasErrors.loop m = false ↔ ∀ p ∈ m, p.2 = 0 := by
  induction m with
  | nil => simp [HasErrors.loop]
  | cons p m ih =>
    obtain ⟨k, err⟩ := p
    by_cases he : err = 0
    · simp [HasErrors.loop, he, ih]
    · simp [HasErrors.loop, he]

theorem stddevTerm_nonneg (sqrt : K → K) (hsqrt : ∀ y, 0 ≤ sqrt y) (l : List K) :
    0 ≤ stddevTerm sqrt l := by
  unfold stddevTerm
  by_cases h : 2 ≤ l.length
  · rw [if_pos h]; exact hsqrt _
  · rw [if_neg h]

theorem numericHere_recognized (node : Node K) (h : node.numericHere) :
    node.State.allRecognized :=
  fun w hw e he => Or.inl (h.2 w hw e he)

mutual
theorem numeric_allRecognized :
    ∀ (node : Node K), node.all Node.numericHere → node.allRecognized
  | Node.mk q n s e cs o, h => by
    rw [Node.all] at h
    rw [Node.allRecognized]
    exact ⟨numericHere_recognized _ h.1, numeric_allRecognized_children cs h.2⟩
theorem numeric_allRecognized_children :
    ∀ (cs : List (String × Node K)), Node.all.children Node.numericHere cs →
      Node.allRecognized.children cs
  | [], _ => by rw [Node.allRecognized.children]; trivial
  | (k, child) :: rest, h => by
    rw [Node.all.children] at h
    rw [Node.allRecognized.children]
    exact ⟨numeric_allRecognized child h.1, numeric_allRecognized_children rest h.2⟩
end

/-- The heart of C19: the `Error` map computed at a node from children whose maps are
maps with non-negative values. -/
theorem UpdateError_monotoneHere (sqrt : K → K) (hsqrt : ∀ y, 0 ≤ sqrt y)
    (q n : String) (s : State K) (e : List (String × K)) (cs : List (String × Node K))
    (o : List String) (node' : Node K)
    (hnum : (Node.mk q n s e cs o).numericHere)
    (h : (Node.mk q n s e cs o).UpdateError sqrt = some node')
    (hchildren : ∀ c ∈ node'.Children, ∀ p ∈ c.2.Error, (0 : K) ≤ p.2) :
    node'.monotoneHere := by
  obtain ⟨hwf, hvals⟩ := hnum
  simp only [Node.State] at hwf hvals
  rw [Node.UpdateError, State_Clone_eq] at h
  cases hc : Node.UpdateError.children sqrt cs s with
  | none => simp [hc] at h
  | some res =>
    obtain ⟨cs', all⟩ := res
    simp only [hc] at h
    cases hr : all.CalculateError sqrt with
    | none => simp [hr] at h
    | some r =>
      simp only [hr, Option.some.injEq] at h
      subst h
      simp only [Node.Children] at hchildren
      have hkeys : (r.map Prod.fst).Nodup := CalculateError_loop_keys sqrt _ [] r (by simp) hr
      have hall := (UpdateError_children_idem sqrt cs s cs' all hc).1
      -- the value bound to a variable of the blended state
      have hvalue : ∀ x, divergenceSpec sqrt (entriesOf x all.Variables) =
          (cs'.filterMap (fun p => GoMap.get x p.2.Error)).sum +
            stddevTerm sqrt (samplesOf (entriesOf x s.Variables)) := by
        intro x
        obtain ⟨-, hsam, hagg⟩ := UpdateError_children_entries sqrt x cs s cs' all hwf hc
        have hown : aggregatesOf (entriesOf x s.Variables) = [] := by
          apply aggregatesOf_eq_nil
          intro en hen k hk
          obtain ⟨w, hw, hew⟩ := entriesOf_mem x s.Variables en hen
          have := hvals w hw en hew
          rw [hk, nativeAsFloat_Error] at this
          exact absurd this (by simp)
        rw [divergenceSpec, hsam, hagg, hown, List.nil_append]
      have hnn : ∀ x, ∀ d ∈ cs'.filterMap (fun p => GoMap.get x p.2.Error), (0 : K) ≤ d := by
        intro x d hd
        obtain ⟨c, hc', hget⟩ := List.mem_filterMap.mp hd
        exact hchildren c hc' (x, d) (GoMap_get_mem x d _ hget)
      have hnd := (UpdateError_children_entries sqrt "" cs s cs' all hwf hc).1
      refine ⟨hkeys, ?_, ?_⟩
      · intro p hp
        have hget : GoMap.get p.1 r = some p.2 := GoMap_mem_get p.1 p.2 r hkeys hp
        rw [CalculateError_get_opt sqrt p.1 all r hnd hr] at hget
        by_cases hx : p.1 ∈ all.Variables.map (fun w => w.Name)
        · rw [if_pos hx, Option.some.injEq] at hget
          rw [← hget, hvalue]
          exact add_nonneg (List.sum_nonneg (hnn p.1)) (stddevTerm_nonneg sqrt hsqrt _)
        · rw [if_neg hx] at hget
          exact absurd hget (by simp)
      · intro c hc' x d hget
        have hx : x ∈ all.Variables.map (fun w => w.Name) := by
          rw [hall, absorb_names_mem]
          exact Or.inr ⟨c, hc', (GoMap_get_isSome_iff x _).mp (by rw [hget]; rfl)⟩
        refine ⟨divergenceSpec sqrt (entriesOf x all.Variables), ?_, ?_⟩
        · show GoMap.get x r = _
          rw [CalculateError_get_opt sqrt x all r hnd hr, if_pos hx]
        rw [hvalue]
        have hmem : d ∈ cs'.filterMap (fun p => GoMap.get x p.2.Error) :=
          List.mem_filterMap.mpr ⟨c, hc', hget⟩
        calc d ≤ (cs'.filterMap (fun p => GoMap.get x p.2.Error)).sum :=
              List.single_le_sum (hnn x) d hmem
          _ ≤ _ := le_add_of_nonneg_right (stddevTerm_nonneg sqrt hsqrt _)

theorem UpdateError_Children (sqrt : K → K) (node node' : Node K)
    (h : node.UpdateError sqrt = some node') :
    ∃ all, Node.UpdateError.children sqrt node.Children node.State = some (node'.Children, all) := by
  obtain ⟨q, n, s, e, cs, o⟩ := node
  rw [Node.UpdateError, State_Clone_eq] at h
  cases hc : Node.UpdateError.children sqrt cs s with
  | none => simp [hc] at h
  | some res =>
    obtain ⟨cs', all⟩ := res
    simp only [hc] at h
    cases hr : all.CalculateError sqrt with
    | none => simp [hr] at h
    | some r =>
      simp only [hr, Option.some.injEq] at h
      subst h
      exact ⟨all, hc⟩

mutual
theorem UpdateError_monotone (sqrt : K → K) (hsqrt : ∀ y, 0 ≤ sqrt y) :
    ∀ (node node' : Node K), node.all Node.numericHere → node.UpdateError sqrt = some node' →
      node'.all Node.monotoneHere
  | Node.mk q n s e cs o, node', hnum, h => by
    rw [Node.all] at hnum
    obtain ⟨all, hc⟩ := UpdateError_Children sqrt _ node' h
    simp only [Node.Children, Node.State] at hc
    have hcs := UpdateError_children_monotone sqrt hsqrt cs s node'.Children all hnum.2 hc
    have hcs' := (all_children_iff _ _).mp hcs
    refine all_mk _ node' ?_ hcs'
    apply UpdateError_monotoneHere sqrt hsqrt q n s e cs o node' hnum.1 h
    intro c hc' p hp
    exact (all_self _ _ (hcs' c hc')).2.1 p hp
theorem UpdateError_children_monotone (sqrt : K → K) (hsqrt : ∀ y, 0 ≤ sqrt y) :
    ∀ (cs : List (String × Node K)) (all : State K) (cs' : List (String × Node K))
      (all' : State K), Node.all.children Node.numericHere cs →
      Node.UpdateError.children sqrt cs all = some (cs', all') →
      Node.all.children Node.monotoneHere cs'
  | [], all, cs', all', _, h => by
    simp only [Node.UpdateError.children, Option.some.injEq, Prod.mk.injEq] at h
    rw [← h.1, Node.all.children]
    trivial
  | (k, child) :: rest, all, cs', all', hnum, h => by
    rw [Node.all.children] at hnum
    rw [Node.UpdateError.children] at h
    cases hch : Node.UpdateError sqrt child with
    | none => simp [hch] at h
    | some child' =>
      simp only [hch] at h
      cases hrest : Node.UpdateError.children sqrt rest
          (all.addError child'.Name child'.Error) with
      | none => simp [hrest] at h
      | some res =>
        obtain ⟨rest', all1⟩ := res
        simp only [hrest, Option.some.injEq, Prod.mk.injEq] at h
        rw [← h.1, Node.all.children]
        exact ⟨UpdateError_monotone sqrt hsqrt child child' hnum.1 hch,
          UpdateError_children_monotone sqrt hsqrt rest _ rest' all1 hnum.2 hrest⟩
end

/-- A child of a node without errors has no errors. -/
theorem monotoneHere_child_quiet (node : Node K) (c : String × Node K)
    (hm : node.monotoneHere) (hc : c ∈ node.Children) (hcm : c.2.monotoneHere)
    (hq : node.HasErrors = false) : c.2.HasErrors = false := by
  rw [Node.HasErrors, HasErrors_loop_false_iff] at hq ⊢
  intro p hp
  have hget : GoMap.get p.1 c.2.Error = some p.2 := GoMap_mem_get p.1 p.2 _ hcm.1 hp
  obtain ⟨D, hD, hle⟩ := hm.2.2 c hc p.1 p.2 hget
  have hD0 : D = 0 := hq (p.1, D) (GoMap_get_mem p.1 D _ hD)
  rw [hD0] at hle
  exact le_antisymm hle (hcm.2.1 p hp)

mutual
theorem monotone_quiet :
    ∀ (node : Node K), node.all Node.monotoneHere → node.HasErrors = false →
      node.all Node.quietHere
  | Node.mk q n s e cs o, hm, hq => by
    have hm' := hm
    rw [Node.all] at hm'
    rw [Node.all]
    refine ⟨hq, monotone_quiet_children cs hm'.2 ?_⟩
    intro c hc
    exact monotoneHere_child_quiet _ c hm'.1 hc
      (all_self _ _ ((all_children_iff _ cs).mp hm'.2 c hc)) hq
theorem monotone_quiet_children :
    ∀ (cs : List (String × Node K)), Node.all.children Node.monotoneHere cs →
      (∀ c ∈ cs, c.2.HasErrors = false) → Node.all.children Node.quietHere cs
  | [], _, _ => by rw [Node.all.children]; trivial
  | (k, child) :: rest, hm, hq => by
    rw [Node.all.children] at hm
    rw [Node.all.children]
    exact ⟨monotone_quiet child hm.1 (hq (k, child) (List.mem_cons_self _ _)),
      monotone_quiet_children rest hm.2 (fun c hc => hq c (List.mem_cons_of_mem _ hc))⟩
end

mutual
theorem flagged_quiet :
    ∀ (node : Node K), node.all Node.quietHere → node.flagged = []
  | Node.mk q n s e cs o, h => by
    rw [Node.all] at h
    have h1 : HasErrors.loop e = false := h.1
    rw [Node.flagged, h1, flagged_quiet_children cs h.2]
    rfl
theorem flagged_quiet_children :
    ∀ (cs : List (String × Node K)), Node.all.children Node.quietHere cs →
      Node.flagged.children cs = []
  | [], _ => rfl
  | (k, child) :: rest, h => by
    rw [Node.all.children] at h
    rw [Node.flagged.children, flagged_quiet child h.1, flagged_quiet_children rest h.2]
    rfl
end

end MonotoneLemmas

/-! ## Lemmas on the invariants of a tree built by `Add` -/

section InvariantLemmas1

variable {K : Type}

theorem GoMap_mem_set {V : Type} (k : String) (v : V) (m : List (String × V))
    (c : String × V) (h : c ∈ GoMap.set k v m) : c ∈ m ∨ c = (k, v) := by
  induction m with
  | nil =>
    simp only [GoMap.set, List.mem_singleton] at h
    exact Or.inr h
  | cons p m ih =>
    obtain ⟨k', v'⟩ := p
    by_cases hk : k' = k
    · simp only [GoMap.set, hk, if_true, List.mem_cons] at h
      rcases h with h | h
      · exact Or.inr h
      · exact Or.inl (List.mem_cons_of_mem _ h)
    · simp only [GoMap.set, hk, if_false, List.mem_cons] at h
      rcases h with h | h
      · exact Or.inl (h ▸ List.mem_cons_self _ _)
      · rcases ih h with h | h
        · exact Or.inl (List.mem_cons_of_mem _ h)
        · exact Or.inr h

theorem all_children_set (P : Node K → Prop) (cs : List (String × Node K)) (name : String)
    (child : Node K) (h : Node.all.children P cs) (hc : child.all P) :
    Node.all.children P (GoMap.set name child cs) := by
  rw [all_children_iff] at h ⊢
  intro c hmem
  rcases GoMap_mem_set name child cs c hmem with h1 | h1
  · exact h c h1
  · rw [h1]; exact hc

theorem all_NewNode (P : Node K → Prop) (q n : String) (h : P (NewNode q n)) :
    (NewNode q n : Node K).all P := by
  rw [NewNode, Node.all, Node.all.children]
  exact ⟨h, trivial⟩

theorem addEntry_forall (Q : Entry K → Prop) (name : String) (e : Entry K)
    (vs : List (Variable K)) (he : Q e) (h : ∀ w ∈ vs, ∀ e' ∈ w.Entries, Q e') :
    ∀ w ∈ addEntry name e vs, ∀ e' ∈ w.Entries, Q e' := by
  induction vs with
  | nil =>
    intro w hw e' he'
    simp only [addEntry, List.mem_singleton] at hw
    subst hw
    simp only [List.mem_singleton] at he'
    subst he'
    exact he
  | cons u us ih =>
    intro w hw e' he'
    by_cases hu : u.Name = name
    · simp only [addEntry, hu, if_true, List.mem_cons] at hw
      rcases hw with rfl | hmem
      · simp only [List.mem_append, List.mem_singleton] at he'
        rcases he' with hin | rfl
        · exact h u (List.mem_cons_self _ _) e' hin
        · exact he
      · exact h w (List.mem_cons_of_mem _ hmem) e' he'
    · simp only [addEntry, hu, if_false, List.mem_cons] at hw
      rcases hw with rfl | hmem
      · exact h w (List.mem_cons_self _ _) e' he'
      · exact ih (fun w' hw' => h w' (List.mem_cons_of_mem _ hw')) w hmem e' he'

theorem renderOrder_skip (r : Renderer K) (k : String) (out : Nat → Option (List Row))
    (outs : List (String × (Nat → Option (List Row)))) (level : Nat) (names : List String)
    (h : k ∉ names) :
    renderOrder r ((k, out) :: outs) level names = renderOrder r outs level names := by
  induction names with
  | nil => rfl
  | cons name rest ih =>
    simp only [List.mem_cons, not_or] at h
    have hk : ¬ k = name := h.1
    rw [renderOrder, renderOrder, ih h.2]
    simp only [GoMap.get, hk, if_false]

theorem nodeLabels_append (a b : List Row) :
    nodeLabels (a ++ b) = nodeLabels a ++ nodeLabels b := by
  simp [nodeLabels]

theorem nodeLabels_cons_node (row : Row) (rest : List Row) (h : row.kind = RowKind.node) :
    nodeLabels (row :: rest) = row.label :: nodeLabels rest := by
  simp [nodeLabels, h]

theorem nodeLabels_sourceRows (label blank : String → String) (sources : List String) :
    ∀ cross : List (List String), nodeLabels (sourceRows label blank sources cross) = [] := by
  induction sources with
  | nil => intro cross; rfl
  | cons s sources ih =>
    intro cross
    cases cross with
    | nil => rfl
    | cons values cross =>
      rw [sourceRows]
      by_cases h : empty values = true
      · rw [if_pos h]; exact ih cross
      · rw [if_neg h]
        have := ih cross
        simp only [nodeLabels] at this ⊢
        rw [List.filter_cons_of_neg (by simp)]
        exact this

/-- `Include` keeps a property of every node that a new node has and that the three
updates of `Include` keep. -/
theorem Include_all (P : Node K → Prop) (source : String) (vars : List (String × Value K))
    (hnew : ∀ q n, P (NewNode q n))
    (hstate : ∀ q n s e cs o, P (Node.mk q n s e cs o) →
      P (Node.mk q n (s.Add source vars) e cs o))
    (hset : ∀ q n s e cs o name child (child' : Node K), P (Node.mk q n s e cs o) →
      GoMap.get name cs = some child → P (Node.mk q n s e (GoMap.set name child' cs) o))
    (hadd : ∀ q n s e cs o name (child' : Node K), P (Node.mk q n s e cs o) →
      GoMap.get name cs = none →
      P (Node.mk q n s e (GoMap.set name child' cs) (o ++ [name])))
    (path : List String) :
    ∀ (pre : List String) (node : Node K), node.all P →
      (Node.Include source vars pre path node).all P := by
  induction path with
  | nil =>
    intro pre node h
    obtain ⟨q, n, s, e, cs, o⟩ := node
    rw [Node.all] at h
    rw [Node.Include, Node.all]
    exact ⟨hstate q n s e cs o h.1, h.2⟩
  | cons name rest ih =>
    intro pre node h
    obtain ⟨q, n, s, e, cs, o⟩ := node
    rw [Node.all] at h
    cases hget : GoMap.get name cs with
    | some child =>
      simp only [Node.Include, hget]
      rw [Node.all]
      exact ⟨hset q n s e cs o name child _ h.1 hget, all_children_set P cs name _ h.2
        (ih _ child ((all_children_iff P cs).mp h.2 _ (GoMap_get_mem name child cs hget)))⟩
    | none =>
      simp only [Node.Include, hget]
      rw [Node.all]
      exact ⟨hadd q n s e cs o name _ h.1 hget, all_children_set P cs name _ h.2
        (ih _ _ (all_NewNode P _ _ (hnew _ _)))⟩

theorem AddAll_all (P : Node K → Prop) (calls : List (AddCall K))
    (hstep : ∀ c ∈ calls, ∀ (path : List String) (node : Node K), node.all P →
      (Node.Include c.source c.vars [] path node).all P) :
    ∀ t : Tree K, t.Node.all P → (t.AddAll calls).Node.all P := by
  induction calls with
  | nil => intro t ht; exact ht
  | cons c cs ih =>
    intro t ht
    have : t.AddAll (c :: cs) = (t.Add c.source c.path c.vars).AddAll cs := rfl
    rw [this]
    apply ih (fun c' hc' => hstep c' (List.mem_cons_of_mem _ hc'))
    exact hstep c (List.mem_cons_self _ _) _ t.Node ht

theorem Include_orderly (source : String) (vars : List (String × Value K))
    (path pre : List String) (node : Node K) (h : node.all Node.orderlyHere) :
    (Node.Include source vars pre path node).all Node.orderlyHere := by
  apply Include_all Node.orderlyHere source vars _ _ _ _ path pre node h
  · intro q n
    exact ⟨rfl, List.nodup_nil⟩
  · intro q n s e cs o h
    exact h
  · intro q n s e cs o name child child' h hget
    obtain ⟨h1, h2⟩ := h
    simp only [Node.ChildrenOrder, Node.Children] at h1 h2
    have hmem : name ∈ cs.map Prod.fst :=
      (GoMap_get_isSome_iff name cs).mp (by rw [hget]; rfl)
    refine ⟨?_, GoMap_nodup_set name child' cs h2⟩
    simp only [Node.ChildrenOrder, Node.Children]
    rw [GoMap_keys_set, if_pos hmem]
    exact h1
  · intro q n s e cs o name child' h hget
    obtain ⟨h1, h2⟩ := h
    simp only [Node.ChildrenOrder, Node.Children] at h1 h2
    have hmem : name ∉ cs.map Prod.fst := by
      intro hm
      have := (GoMap_get_isSome_iff name cs).mpr hm
      rw [hget] at this
      exact absurd this (by simp)
    refine ⟨?_, GoMap_nodup_set name child' cs h2⟩
    simp only [Node.ChildrenOrder, Node.Children]
    rw [GoMap_keys_set, if_neg hmem, h1]

theorem nodeLabels_Console_rows (r : Renderer K) (f : Format K) (sources vars : List String)
    (q : String) (s : State K) (e : List (String × K)) :
    nodeLabels (Console.rows r f sources vars q s e) = [q] := by
  rw [Console.rows, nodeLabels_cons_node _ _ rfl]
  cases r.ShowSource
  · rfl
  · simp only [if_true, nodeLabels_sourceRows]

end InvariantLemmas1

section InvariantLemmas2

variable {K : Type} [LinearOrderedField K]

theorem Add_numeric (source : String) (vars : List (String × Value K)) (st : State K)
    (hv : ∀ p ∈ vars, (nativeAsFloat p.2).isSome)
    (h1 : (st.Variables.map (fun w => w.Name)).Nodup)
    (h2 : ∀ w ∈ st.Variables, ∀ e ∈ w.Entries, (nativeAsFloat e.Value).isSome) :
    ((st.Add source vars).Variables.map (fun w => w.Name)).Nodup
      ∧ ∀ w ∈ (st.Add source vars).Variables, ∀ e ∈ w.Entries,
          (nativeAsFloat e.Value).isSome := by
  unfold State.Add
  induction vars generalizing st with
  | nil => exact ⟨h1, h2⟩
  | cons p vars ih =>
    rw [List.foldl_cons]
    apply ih _ (fun p' hp' => hv p' (List.mem_cons_of_mem _ hp'))
    · rw [addValue_Variables]
      exact nodup_addEntry _ _ _ h1
    · rw [addValue_Variables]
      exact addEntry_forall (fun e => (nativeAsFloat e.Value).isSome) _ _ _
        (hv p (List.mem_cons_self _ _)) h2

theorem Include_numeric (source : String) (vars : List (String × Value K))
    (hv : ∀ p ∈ vars, (nativeAsFloat p.2).isSome)
    (path pre : List String) (node : Node K) (h : node.all Node.numericHere) :
    (Node.Include source vars pre path node).all Node.numericHere := by
  apply Include_all Node.numericHere source vars _ _ _ _ path pre node h
  · intro q n
    exact ⟨List.nodup_nil, fun w hw => by simp [NewNode, Node.State] at hw⟩
  · intro q n s e cs o h
    exact Add_numeric source vars s hv h.1 h.2
  · intro q n s e cs o name child child' h _
    exact h
  · intro q n s e cs o name child' h _
    exact h

/-- A tree built by `Add` calls with numeric values: every state is a map of numeric
samples, and `ChildrenOrder` lists the keys of `Children`. -/
theorem AddAll_invariants (calls : List (AddCall K))
    (hnum : ∀ c ∈ calls, ∀ p ∈ c.vars, (nativeAsFloat p.2).isSome) :
    ((NewTree : Tree K).AddAll calls).Node.all Node.numericHere
      ∧ ((NewTree : Tree K).AddAll calls).Node.all Node.orderlyHere := by
  constructor
  · apply AddAll_all Node.numericHere calls _ NewTree
    · apply all_NewNode
      exact ⟨List.nodup_nil, fun w hw => by simp [NewNode, Node.State] at hw⟩
    · intro c hc path node h
      exact Include_numeric c.source c.vars (hnum c hc) path [] node h
  · apply AddAll_all Node.orderlyHere calls _ NewTree
    · apply all_NewNode
      exact ⟨rfl, List.nodup_nil⟩
    · intro c _ path node h
      exact Include_orderly c.source c.vars path [] node h

theorem UpdateError_shape (sqrt : K → K) (q n : String) (s : State K)
    (e : List (String × K)) (cs : List (String × Node K)) (o : List String) (node' : Node K)
    (h : (Node.mk q n s e cs o).UpdateError sqrt = some node') :
    ∃ cs' all r, Node.UpdateError.children sqrt cs s = some (cs', all)
      ∧ node' = Node.mk q n s r cs' o := by
  rw [Node.UpdateError, State_Clone_eq] at h
  cases hc : Node.UpdateError.children sqrt cs s with
  | none => simp [hc] at h
  | some res =>
    obtain ⟨cs', all⟩ := res
    simp only [hc] at h
    cases hr : all.CalculateError sqrt with
    | none => simp [hr] at h
    | some r =>
      simp only [hr, Option.some.injEq] at h
      exact ⟨cs', all, r, rfl, h.symm⟩

mutual
theorem UpdateError_orderly (sqrt : K → K) :
    ∀ (node node' : Node K), node.all Node.orderlyHere → node.UpdateError sqrt = some node' →
      node'.all Node.orderlyHere
  | Node.mk q n s e cs o, node', ho, h => by
    rw [Node.all] at ho
    obtain ⟨cs', all, r, hc, rfl⟩ := UpdateError_shape sqrt q n s e cs o node' h
    have hkeys : cs'.map Prod.fst = cs.map Prod.fst := by
      rw [UpdateError_children_map sqrt cs s cs' all hc, List.map_map]
      rfl
    rw [Node.all]
    refine ⟨?_, UpdateError_children_orderly sqrt cs s cs' all ho.2 hc⟩
    obtain ⟨h1, h2⟩ := ho.1
    simp only [Node.ChildrenOrder, Node.Children] at h1 h2
    exact ⟨by simp only [Node.ChildrenOrder, Node.Children]; rw [hkeys]; exact h1,
      by simp only [Node.Children]; rw [hkeys]; exact h2⟩
theorem UpdateError_children_orderly (sqrt : K → K) :
    ∀ (cs : List (String × Node K)) (all : State K) (cs' : List (String × Node K))
      (all' : State K), Node.all.children Node.orderlyHere cs →
      Node.UpdateError.children sqrt cs all = some (cs', all') →
      Node.all.children Node.orderlyHere cs'
  | [], all, cs', all', _, h => by
    simp only [Node.UpdateError.children, Option.some.injEq, Prod.mk.injEq] at h
    rw [← h.1, Node.all.children]
    trivial
  | (k, child) :: rest, all, cs', all', ho, h => by
    rw [Node.all.children] at ho
    rw [Node.UpdateError.children] at h
    cases hch : Node.UpdateError sqrt child with
    | none => simp [hch] at h
    | some child' =>
      simp only [hch] at h
      cases hrest : Node.UpdateError.children sqrt rest
          (all.addError child'.Name child'.Error) with
      | none => simp [hrest] at h
      | some res =>
        obtain ⟨rest', all1⟩ := res
        simp only [hrest, Option.some.injEq, Prod.mk.injEq] at h
        rw [← h.1, Node.all.children]
        exact ⟨UpdateError_orderly sqrt child child' ho.1 hch,
          UpdateError_children_orderly sqrt rest _ rest' all1 ho.2 hrest⟩
end

theorem flagged_find (p : List String) :
    ∀ (node nd : Node K), node.find p = some nd → nd.HasErrors = true →
      nd.QualifiedName ∈ node.flagged := by
  induction p with
  | nil =>
    intro node nd hfind hq
    simp only [Node.find, Option.some.injEq] at hfind
    subst hfind
    obtain ⟨q, n, s, e, cs, o⟩ := node
    have hq' : HasErrors.loop e = true := hq
    rw [Node.flagged, hq']
    simp [Node.QualifiedName]
  | cons a p ih =>
    intro node nd hfind hq
    rw [find_cons] at hfind
    cases hget : GoMap.get a node.Children with
    | none => simp [hget] at hfind
    | some child =>
      simp only [hget, Option.some_bind] at hfind
      have hin := ih child nd hfind hq
      have hmem := GoMap_get_mem a child _ hget
      obtain ⟨q, n, s, e, cs, o⟩ := node
      simp only [Node.Children] at hmem
      rw [Node.flagged]
      apply List.mem_append_right
      clear hget hfind
      induction cs with
      | nil => simp at hmem
      | cons c cs ihc =>
        obtain ⟨k, c0⟩ := c
        rw [Node.flagged.children]
        rcases List.mem_cons.mp hmem with heq | hmem'
        · simp only [Prod.mk.injEq] at heq
          rw [← heq.2]
          exact List.mem_append_left _ hin
        · exact List.mem_append_right _ (ihc hmem')

theorem nodeLabels_HTML_rows (r : Renderer K) (f : Format K) (sources vars : List String)
    (q : String) (s : State K) (e : List (String × K)) :
    nodeLabels (HTML.rows r f sources vars q s e) = ["<td>" ++ f.escape q ++ "</td>"] := by
  rw [HTML.rows, nodeLabels_cons_node _ _ rfl]
  cases r.ShowSource
  · rfl
  · simp only [if_true, nodeLabels_sourceRows]

theorem HTML_render_eq (r : Renderer K) (f : Format K) (sources vars : List String)
    (q n : String) (s : State K) (e : List (String × K)) (cs : List (String × Node K))
    (o : List String) (level : Nat) :
    HTML.render r f sources vars (Node.mk q n s e cs o) level =
      if r.ShowZero = false ∧ HasErrors.loop e = false then some []
      else if (level : Int) > r.LevelLimit ∧ r.LevelLimit ≥ 0 then some []
      else (renderOrder r (HTML.render.children r f sources vars cs) (level + 1) o).map
        (fun below => HTML.rows r f sources vars q s e ++ below) := by
  rw [HTML.render]
  cases renderOrder r (HTML.render.children r f sources vars cs) (level + 1) o <;> rfl

theorem Console_render_eq (r : Renderer K) (f : Format K) (sources vars : List String)
    (q n : String) (s : State K) (e : List (String × K)) (cs : List (String × Node K))
    (o : List String) (level : Nat) :
    Console.render r f sources vars (Node.mk q n s e cs o) level =
      if r.ShowZero = false ∧ HasErrors.loop e = false then some []
      else if (level : Int) > r.LevelLimit ∧ r.LevelLimit ≥ 0 then some []
      else (renderOrder r (Console.render.children r f sources vars cs) (level + 1) o).map
        (fun below => Console.rows r f sources vars q s e ++ below) := by
  rw [Console.render]
  cases renderOrder r (Console.render.children r f sources vars cs) (level + 1) o <;> rfl

mutual
/-- With `ShowZero` unset and no level limit, a closure `render` of the shape of the two
renderers writes a node row for exactly the nodes with errors, in pre-order. -/
theorem render_flagged (r : Renderer K) (hzero : r.ShowZero = false)
    (hlimit : r.LevelLimit < 0)
    (rows : String → State K → List (String × K) → List Row)
    (rend : Node K → Nat → Option (List Row))
    (outs : List (String × Node K) → List (String × (Nat → Option (List Row))))
    (wrap : String → String)
    (hrend : ∀ q n s e cs o level, rend (Node.mk q n s e cs o) level =
      if r.ShowZero = false ∧ HasErrors.loop e = false then some []
      else if (level : Int) > r.LevelLimit ∧ r.LevelLimit ≥ 0 then some []
      else (renderOrder r (outs cs) (level + 1) o).map (fun below => rows q s e ++ below))
    (houts : ∀ k c rest, outs ((k, c) :: rest) = (k, fun level => rend c level) :: outs rest)
    (hrows : ∀ q s e, nodeLabels (rows q s e) = [wrap q]) :
    ∀ (node : Node K) (level : Nat), node.all Node.monotoneHere →
      node.all Node.orderlyHere →
      ∃ out, rend node level = some out ∧ nodeLabels out = node.flagged.map wrap
  | Node.mk q n s e cs o, level, hm, ho => by
    have hm' := hm
    have ho' := ho
    rw [Node.all] at hm' ho'
    rw [hrend]
    by_cases he : HasErrors.loop e = false
    · rw [if_pos ⟨hzero, he⟩]
      refine ⟨[], rfl, ?_⟩
      rw [flagged_quiet _ (monotone_quiet _ hm he)]
      rfl
    · have h1 : ¬ (r.ShowZero = false ∧ HasErrors.loop e = false) := fun h => he h.2
      have h2 : ¬ ((level : Int) > r.LevelLimit ∧ r.LevelLimit ≥ 0) := by
        intro h
        exact absurd h.2 (not_le.mpr hlimit)
      rw [if_neg h1, if_neg h2]
      obtain ⟨ho1, ho2⟩ := ho'.1
      simp only [Node.ChildrenOrder, Node.Children] at ho1 ho2
      obtain ⟨below, hb, hl⟩ := render_flagged_children r hzero hlimit rows rend outs wrap
        hrend houts hrows cs (level + 1) hm'.2 ho'.2 ho2
      rw [ho1, hb]
      refine ⟨_, rfl, ?_⟩
      have he' : HasErrors.loop e = true := by
        cases h : HasErrors.loop e with
        | true => rfl
        | false => exact absurd h he
      rw [nodeLabels_append, hrows, hl, Node.flagged, he']
      simp
theorem render_flagged_children (r : Renderer K) (hzero : r.ShowZero = false)
    (hlimit : r.LevelLimit < 0)
    (rows : String → State K → List (String × K) → List Row)
    (rend : Node K → Nat → Option (List Row))
    (outs : List (String × Node K) → List (String × (Nat → Option (List Row))))
    (wrap : String → String)
    (hrend : ∀ q n s e cs o level, rend (Node.mk q n s e cs o) level =
      if r.ShowZero = false ∧ HasErrors.loop e = false then some []
      else if (level : Int) > r.LevelLimit ∧ r.LevelLimit ≥ 0 then some []
      else (renderOrder r (outs cs) (level + 1) o).map (fun below => rows q s e ++ below))
    (houts : ∀ k c rest, outs ((k, c) :: rest) = (k, fun level => rend c level) :: outs rest)
    (hrows : ∀ q s e, nodeLabels (rows q s e) = [wrap q]) :
    ∀ (cs : List (String × Node K)) (level : Nat), Node.all.children Node.monotoneHere cs →
      Node.all.children Node.orderlyHere cs → (cs.map Prod.fst).Nodup →
      ∃ out, renderOrder r (outs cs) level (cs.map Prod.fst) = some out
        ∧ nodeLabels out = (Node.flagged.children cs).map wrap
  | [], level, _, _, _ => ⟨[], rfl, rfl⟩
  | (k, c) :: rest, level, hm, ho, hnd => by
    rw [Node.all.children] at hm ho
    simp only [List.map_cons, List.nodup_cons] at hnd
    obtain ⟨out1, hr1, hl1⟩ := render_flagged r hzero hlimit rows rend outs wrap
      hrend houts hrows c level hm.1 ho.1
    obtain ⟨out2, hr2, hl2⟩ := render_flagged_children r hzero hlimit rows rend outs wrap
      hrend houts hrows rest level hm.2 ho.2 hnd.2
    refine ⟨out1 ++ out2, ?_, ?_⟩
    · rw [houts, List.map_cons, renderOrder, renderOrder_skip r k _ _ level _ hnd.1, hr2]
      simp only [GoMap.get, if_true, hr1]
    · rw [nodeLabels_append, hl1, hl2, Node.flagged.children, List.map_append]
end

end InvariantLemmas2

/-! ## Theorems -/

section Theorems

variable {K : Type} [LinearOrderedField K]

/-- C9: `HasErrors` returns false exactly when every value of the node's `Error` map is
zero, true exactly when some value is nonzero, and false for an empty map. -/
theorem C9_HasErrors_iff (node : Node K) :
    (node.HasErrors = false ↔ ∀ p ∈ node.Error, p.2 = 0)
      ∧ (node.HasErrors = true ↔ ∃ p ∈ node.Error, p.2 ≠ 0)
      ∧ HasErrors.loop ([] : List (String × K)) = false := by
  have h : ∀ m : List (String × K), HasErrors.loop m = false ↔ ∀ p ∈ m, p.2 = 0 := by
    intro m
    induction m with
    | nil => simp [HasErrors.loop]
    | cons p m ih =>
      obtain ⟨k, err⟩ := p
      by_cases he : err = 0
      · simp [HasErrors.loop, he, ih]
      · simp [HasErrors.loop, he]
  refine ⟨h node.Error, ?_, rfl⟩
  rw [← Bool.not_eq_false, Node.HasErrors, h node.Error]
  push_neg
  rfl

/-- C4: end to end, sources `A` and `B` report `x = 1` and `x = 3` at path `a/b`; after
the divergence pass the nodes `a/b`, `a` and the root all have `Error[x] = sqrt 2`. -/
theorem C4_end_to_end :
    (((NewTree : Tree ℝ).Add "A" "a/b" [("x", .float64 1)]).Add "B" "a/b"
        [("x", .float64 3)]).UpdateError Real.sqrt
      = some ⟨["A", "B"], ["x"], Node.mk "" "" ⟨[]⟩ [("x", Real.sqrt 2)]
          [("a", Node.mk "a" "a" ⟨[]⟩ [("x", Real.sqrt 2)]
            [("b", Node.mk "a/b" "b" ⟨[⟨"x", [⟨"A", .float64 1⟩, ⟨"B", .float64 3⟩]⟩]⟩
              [("x", Real.sqrt 2)] [] [])]
            ["b"])]
          ["a"]⟩ := by
  have hadd : ((NewTree : Tree ℝ).Add "A" "a/b" [("x", .float64 1)]).Add "B" "a/b"
      [("x", .float64 3)]
      = ⟨["A", "B"], ["x"], Node.mk "" "" ⟨[]⟩ []
          [("a", Node.mk "a" "a" ⟨[]⟩ []
            [("b", Node.mk "a/b" "b" ⟨[⟨"x", [⟨"A", .float64 1⟩, ⟨"B", .float64 3⟩]⟩]⟩ [] [] [])]
            ["b"])]
          ["a"]⟩ := rfl
  rw [hadd]
  simp [Tree.UpdateError, Node.UpdateError, Node.UpdateError.children, State_Clone_eq,
    State.CalculateError, State.CalculateError.loop, Variable.CalculateError,
    CalculateError.accumulate, CalculateError.squares, nativeAsFloat, GoMap.set,
    State.addError, State.addValue, State.mustGet, State.Get, State.Get.loop, State.modify,
    Variable.Add, Node.Name, Node.Error]
  norm_num

/-- C7: with `ShowZero = false`, the call `render(N, level)` for a node `N` for which
`HasErrors` is false, or whose level exceeds a non-negative `LevelLimit`, returns without
writing a row and without visiting a child, whatever the descendants of `N` are; this
holds for the HTML and for the console renderer. -/
theorem C7_suppressed_node_hides_subtree (r : Renderer K) (f : Format K)
    (sources vars : List String) (node : Node K) (level : Nat)
    (hzero : r.ShowZero = false)
    (h : node.HasErrors = false ∨ (0 ≤ r.LevelLimit ∧ r.LevelLimit < level)) :
    HTML.render r f sources vars node level = some []
      ∧ Console.render r f sources vars node level = some [] := by
  have h' : (r.ShowZero = false ∧ node.HasErrors = false)
      ∨ (0 ≤ r.LevelLimit ∧ r.LevelLimit < level) := h.imp (fun h1 => ⟨hzero, h1⟩) id
  exact ⟨HTML_render_suppressed r f sources vars node level h',
    Console_render_suppressed r f sources vars node level h'⟩

/-- Witness of C7: a node whose `Error` map is all zero hides its child `a/b`, although
`HasErrors` is true for that child. -/
theorem C7_suppressed_node_hides_subtree_witness :
    (Node.mk "a/b" "b" ⟨[]⟩ [("x", (1 : ℚ))] [] []).HasErrors = true
      ∧ (Node.mk "a" "a" ⟨[]⟩ [("x", (0 : ℚ))]
          [("b", Node.mk "a/b" "b" ⟨[]⟩ [("x", 1)] [] [])] ["b"]).HasErrors = false
      ∧ HTML.render { NewRenderer with LevelLimit := -1 } Format.sample ["A"] ["x"]
          (Node.mk "a" "a" ⟨[]⟩ [("x", (0 : ℚ))]
            [("b", Node.mk "a/b" "b" ⟨[]⟩ [("x", 1)] [] [])] ["b"]) 1 = some []
      ∧ Console.render { NewRenderer with LevelLimit := -1 } Format.sample ["A"] ["x"]
          (Node.mk "a" "a" ⟨[]⟩ [("x", (0 : ℚ))]
            [("b", Node.mk "a/b" "b" ⟨[]⟩ [("x", 1)] [] [])] ["b"]) 1 = some [] :=
  ⟨by decide, by decide,
    C7_suppressed_node_hides_subtree { NewRenderer with LevelLimit := -1 } Format.sample
      ["A"] ["x"] _ 1 rfl (Or.inl (by decide))⟩

/-- Counterexample to C8: with `LevelLimit = 0` the report of a tree whose root and
whose child `a` both have a nonzero divergence has, after the header, the row of the root
(label `""`) and no row for `a`, a direct child of the root that qualifies. -/
theorem C8_counterexample :
    (Node.mk "a" "a" ⟨[]⟩ [("x", (1 : ℚ))] [] []).HasErrors = true
      ∧ Renderer.Console { NewRenderer with LevelLimit := 0 } Format.sample
          ⟨["A"], ["x"], Node.mk "" "" ⟨[]⟩ [("x", (1 : ℚ))]
            [("a", Node.mk "a" "a" ⟨[]⟩ [("x", 1)] [] [])] ["a"]⟩
        = some [⟨RowKind.header, "", ["\tx"]⟩, ⟨RowKind.node, "", ["\t#"]⟩]
      ∧ Renderer.HTML { NewRenderer with LevelLimit := 0 } Format.sample
          ⟨["A"], ["x"], Node.mk "" "" ⟨[]⟩ [("x", (1 : ℚ))]
            [("a", Node.mk "a" "a" ⟨[]⟩ [("x", 1)] [] [])] ["a"]⟩
        = some [⟨RowKind.header, "<th></th>", ["<th>x</th>"]⟩,
            ⟨RowKind.node, "<td></td>", ["<td>#</td>"]⟩] := by
  refine ⟨by decide, by decide, ?_⟩
  simp [Renderer.HTML, NewRenderer, Epsilon, HTML.render, HasErrors.loop, renderOrder,
    HTML.render.children, GoMap.get, HTML.rows, Format.sample]
  norm_num
  rfl

/-- C8 as amended: with `LevelLimit = 0` the call `render(node, level)` writes nothing
at any level `≥ 1`, and the body of the report is the rows of the root node alone (the
root is level 0) when the root passes the test `ShowZero || HasErrors`, and empty when it
does not; every name of the root's `ChildrenOrder` is a key of its `Children`. -/
theorem C8_level_limit_zero_renders_root_only (r : Renderer K) (f : Format K)
    (sources vars : List String) (root : Node K) (hlimit : r.LevelLimit = 0)
    (hkeys : ∀ name ∈ root.ChildrenOrder, (GoMap.get name root.Children).isSome) :
    (∀ (node : Node K) (level : Nat), 1 ≤ level →
        HTML.render r f sources vars node level = some []
          ∧ Console.render r f sources vars node level = some [])
      ∧ HTML.render r f sources vars root 0 =
          some (if r.ShowZero = false ∧ root.HasErrors = false then []
            else HTML.rows r f sources vars root.QualifiedName root.State root.Error)
      ∧ Console.render r f sources vars root 0 =
          some (if r.ShowZero = false ∧ root.HasErrors = false then []
            else Console.rows r f sources vars root.QualifiedName root.State root.Error) := by
  have hdeep : ∀ (node : Node K) (level : Nat), 1 ≤ level →
      HTML.render r f sources vars node level = some []
        ∧ Console.render r f sources vars node level = some [] := by
    intro node level hl
    have h' : (r.ShowZero = false ∧ node.HasErrors = false)
        ∨ (0 ≤ r.LevelLimit ∧ r.LevelLimit < level) := Or.inr (by rw [hlimit]; omega)
    exact ⟨HTML_render_suppressed r f sources vars node level h',
      Console_render_suppressed r f sources vars node level h'⟩
  refine ⟨hdeep, ?_, ?_⟩
  · obtain ⟨q, n, s, e, cs, o⟩ := root
    simp only [Node.ChildrenOrder, Node.Children] at hkeys
    simp only [Node.HasErrors, Node.Error, Node.QualifiedName, Node.State]
    rw [HTML.render]
    by_cases h1 : r.ShowZero = false ∧ HasErrors.loop e = false
    · rw [if_pos h1, if_pos h1]
    · have h2 : ¬ (((0 : Nat) : Int) > r.LevelLimit ∧ r.LevelLimit ≥ 0) := by
        rw [hlimit]; simp
      rw [if_neg h1, if_neg h2, if_neg h1, renderOrder_nil]
      · simp
      · intro name hname
        obtain ⟨child, hchild⟩ := Option.isSome_iff_exists.mp (hkeys name hname)
        refine ⟨_, by rw [HTML_children_get, hchild]; rfl, ?_⟩
        exact (hdeep child 1 (le_refl _)).1
  · obtain ⟨q, n, s, e, cs, o⟩ := root
    simp only [Node.ChildrenOrder, Node.Children] at hkeys
    simp only [Node.HasErrors, Node.Error, Node.QualifiedName, Node.State]
    rw [Console.render]
    by_cases h1 : r.ShowZero = false ∧ HasErrors.loop e = false
    · rw [if_pos h1, if_pos h1]
    · have h2 : ¬ (((0 : Nat) : Int) > r.LevelLimit ∧ r.LevelLimit ≥ 0) := by
        rw [hlimit]; simp
      rw [if_neg h1, if_neg h2, if_neg h1, renderOrder_nil]
      · simp
      · intro name hname
        obtain ⟨child, hchild⟩ := Option.isSome_iff_exists.mp (hkeys name hname)
        refine ⟨_, by rw [Console_children_get, hchild]; rfl, ?_⟩
        exact (hdeep child 1 (le_refl _)).2

/-- Witness of C8 as amended: the root row is written, the row of the child `a` is not. -/
theorem C8_level_limit_zero_renders_root_only_witness :
    ({ NewRenderer with LevelLimit := 0 } : Renderer ℚ).LevelLimit = 0
      ∧ (∀ name ∈ (Node.mk "" "" ⟨[]⟩ [("x", (1 : ℚ))]
            [("a", Node.mk "a" "a" ⟨[]⟩ [("x", 1)] [] [])] ["a"]).ChildrenOrder,
          (GoMap.get name (Node.mk "" "" ⟨[]⟩ [("x", (1 : ℚ))]
            [("a", Node.mk "a" "a" ⟨[]⟩ [("x", 1)] [] [])] ["a"]).Children).isSome)
      ∧ Console.render { NewRenderer with LevelLimit := 0 } Format.sample ["A"] ["x"]
          (Node.mk "" "" ⟨[]⟩ [("x", (1 : ℚ))]
            [("a", Node.mk "a" "a" ⟨[]⟩ [("x", 1)] [] [])] ["a"]) 0
        = some [⟨RowKind.node, "", ["\t#"]⟩] := by
  have hkeys : ∀ name ∈ (Node.mk "" "" ⟨[]⟩ [("x", (1 : ℚ))]
      [("a", Node.mk "a" "a" ⟨[]⟩ [("x", 1)] [] [])] ["a"]).ChildrenOrder,
      (GoMap.get name (Node.mk "" "" ⟨[]⟩ [("x", (1 : ℚ))]
        [("a", Node.mk "a" "a" ⟨[]⟩ [("x", 1)] [] [])] ["a"]).Children).isSome := by
    intro name hname
    simp only [Node.ChildrenOrder, List.mem_singleton] at hname
    subst hname
    rfl
  refine ⟨rfl, hkeys, ?_⟩
  rw [(C8_level_limit_zero_renders_root_only { NewRenderer with LevelLimit := 0 }
    Format.sample ["A"] ["x"] _ rfl hkeys).2.2]
  decide

end Theorems

section TreeTheorems

variable {K : Type}

/-- C6: after any sequence of `Tree.Add` calls on a new tree (each call's `variables` a
map, so without repeated keys), `Sources` and `Variables` have no duplicates; `Sources`
lists the sources in the order of their first call; `Variables` is the concatenation, in
call order, of one batch per call, the batch of a call being its not previously seen
variable names in increasing alphabetical order. -/
theorem C6_Sources_Variables_first_seen (calls : List (AddCall K))
    (hmap : ∀ c ∈ calls, (c.vars.map Prod.fst).Nodup) :
    ((NewTree : Tree K).AddAll calls).Sources.Nodup
      ∧ ((NewTree : Tree K).AddAll calls).Variables.Nodup
      ∧ ((NewTree : Tree K).AddAll calls).Sources = firstSeen (calls.map (fun c => c.source))
      ∧ ∃ batches : List (List String), batches.length = calls.length
        ∧ ((NewTree : Tree K).AddAll calls).Variables = batches.flatten
        ∧ ∀ (i : Nat) (c : AddCall K) (b : List String),
            calls[i]? = some c → batches[i]? = some b →
              b.Sorted (fun x y => x < y)
                ∧ ∀ name, name ∈ b ↔
                    name ∈ c.vars.map Prod.fst ∧ name ∉ (batches.take i).flatten := by
  have hsrc : ((NewTree : Tree K).AddAll calls).Sources =
      firstSeen (calls.map (fun c => c.source)) := by
    rw [AddAll_Sources, firstSeen_fold _ _ (by simp [NewTree])]
    simp [NewTree]
  obtain ⟨hnd, hb⟩ := AddAll_batches calls hmap
  exact ⟨hsrc ▸ firstSeen_nodup _, hnd, hsrc, hb⟩

/-- Witness of C6: three calls from sources `B`, `A`, `B`. -/
theorem C6_Sources_Variables_first_seen_witness :
    (∀ c ∈ ([⟨"B", "a/b", [("y", .float64 1), ("x", .float64 1)]⟩,
          ⟨"A", "a", [("z", .float64 1), ("x", .float64 1), ("a", .float64 1)]⟩,
          ⟨"B", "/c", [("y", .float64 2)]⟩] : List (AddCall ℚ)),
        (c.vars.map Prod.fst).Nodup)
      ∧ ((NewTree : Tree ℚ).AddAll
        [⟨"B", "a/b", [("y", .float64 1), ("x", .float64 1)]⟩,
         ⟨"A", "a", [("z", .float64 1), ("x", .float64 1), ("a", .float64 1)]⟩,
         ⟨"B", "/c", [("y", .float64 2)]⟩]).Sources = ["B", "A"]
      ∧ ((NewTree : Tree ℚ).AddAll
        [⟨"B", "a/b", [("y", .float64 1), ("x", .float64 1)]⟩,
         ⟨"A", "a", [("z", .float64 1), ("x", .float64 1), ("a", .float64 1)]⟩,
         ⟨"B", "/c", [("y", .float64 2)]⟩]).Variables = ["x", "y", "a", "z"] := by
  have hmap : ∀ c ∈ ([⟨"B", "a/b", [("y", .float64 1), ("x", .float64 1)]⟩,
      ⟨"A", "a", [("z", .float64 1), ("x", .float64 1), ("a", .float64 1)]⟩,
      ⟨"B", "/c", [("y", .float64 2)]⟩] : List (AddCall ℚ)), (c.vars.map Prod.fst).Nodup := by
    intro c hc
    simp only [List.mem_cons, List.mem_singleton, List.not_mem_nil, or_false] at hc
    rcases hc with rfl | rfl | rfl <;> decide
  have h := C6_Sources_Variables_first_seen _ hmap
  exact ⟨hmap, h.2.2.1.trans (by decide), rfl⟩

/-- C10: `Tree.Add(source, path, variables)` appends, at the node the path resolves to,
one `Entry(source, value)` for each pair of `variables`, after the entries the variable
already has and whether or not the source already has one there; every other node keeps
the state it had (an intermediate node the call creates has the empty state). -/
theorem C10_Add_appends_entries (tree : Tree K) (source path : String)
    (vars : List (String × Value K)) :
    (∃ target, (tree.Add source path vars).Node.find (Split (trimSeparator path)) = some target
        ∧ target.State =
          (((tree.Node.find (Split (trimSeparator path))).map Node.State).getD ⟨[]⟩).Add
            source vars
        ∧ ∀ x, entriesOf x target.State.Variables =
            entriesOf x
                (((tree.Node.find (Split (trimSeparator path))).map Node.State).getD
                  ⟨[]⟩).Variables ++
              (vars.filter (fun p => p.1 = x)).map (fun p => ⟨source, p.2⟩))
      ∧ (∀ p nd, p ≠ Split (trimSeparator path) → tree.Node.find p = some nd →
          ∃ nd', (tree.Add source path vars).Node.find p = some nd' ∧ nd'.State = nd.State)
      ∧ (∀ p nd', p ≠ Split (trimSeparator path) →
          (tree.Add source path vars).Node.find p = some nd' →
          nd'.State = ((tree.Node.find p).map Node.State).getD ⟨[]⟩) := by
  have hnode : (tree.Add source path vars).Node =
      tree.Node.Include source vars [] (Split (trimSeparator path)) := rfl
  rw [hnode]
  refine ⟨?_, ?_, ?_⟩
  · obtain ⟨target, h1, h2⟩ :=
      Include_find_target source vars (Split (trimSeparator path)) [] tree.Node
    refine ⟨target, h1, h2, ?_⟩
    intro x
    rw [h2, Add_entries]
  · intro p nd hp hfind
    obtain ⟨nd', h'⟩ := Include_find_kept source vars _ [] tree.Node p nd hfind
    refine ⟨nd', h', ?_⟩
    rw [Include_find_other source vars _ [] tree.Node p nd' hp h', hfind]
    rfl
  · intro p nd' hp h'
    exact Include_find_other source vars _ [] tree.Node p nd' hp h'

end TreeTheorems

section PathTheorems

variable {K : Type}

/-- C14: in the tree built by any sequence of `Tree.Add` calls on a new tree, the node
stored under key `k` in the `Children` of the node at path `p` has `Name = k`, and its
`QualifiedName` is the names on the path from the root (the root excluded) down to it,
`p` followed by `k`, joined by `/`. -/
theorem C14_Name_and_QualifiedName (calls : List (AddCall K)) (p : List String)
    (parent child : Node K) (k : String)
    (hparent : ((NewTree : Tree K).AddAll calls).Node.find p = some parent)
    (hchild : GoMap.get k parent.Children = some child) :
    child.Name = k ∧ child.QualifiedName = Join (p ++ [k]) := by
  have hinv : namedFrom [] ((NewTree : Tree K).AddAll calls).Node :=
    AddAll_induction (namedFrom []) (namedFrom_NewNode [] "" "")
      (fun source vars path node _ h => Include_namedFrom source vars path [] node h) calls
  have hfind : ((NewTree : Tree K).AddAll calls).Node.find (p ++ [k]) = some child := by
    rw [find_append, hparent]
    exact hchild
  have := hinv (p ++ [k]) child (by simp) hfind
  refine ⟨?_, by simpa using this.2⟩
  have h1 := this.1
  rw [List.getLast?_append] at h1
  simpa using h1.symm

/-- Witness of C14: after calls at `a/b` and `a/c`, the node under key `c` of the node at
path `a` is named `c` and qualified `a/c`. -/
theorem C14_Name_and_QualifiedName_witness :
    ((NewTree : Tree ℚ).AddAll
        [⟨"A", "a/b", [("x", .float64 1)]⟩, ⟨"B", "/a/c", [("x", .float64 2)]⟩]).Node.find ["a"]
      = some (Node.mk "a" "a" ⟨[]⟩ []
          [("b", Node.mk "a/b" "b" ⟨[⟨"x", [⟨"A", .float64 1⟩]⟩]⟩ [] [] []),
           ("c", Node.mk "a/c" "c" ⟨[⟨"x", [⟨"B", .float64 2⟩]⟩]⟩ [] [] [])] ["b", "c"])
      ∧ (Node.mk "a/c" "c" ⟨[⟨"x", [⟨"B", .float64 2⟩]⟩]⟩ [] [] [] : Node ℚ).Name = "c"
      ∧ (Node.mk "a/c" "c" ⟨[⟨"x", [⟨"B", .float64 2⟩]⟩]⟩ [] [] [] : Node ℚ).QualifiedName
          = Join (["a"] ++ ["c"]) := by
  have hparent : ((NewTree : Tree ℚ).AddAll
      [⟨"A", "a/b", [("x", .float64 1)]⟩, ⟨"B", "/a/c", [("x", .float64 2)]⟩]).Node.find ["a"]
      = some (Node.mk "a" "a" ⟨[]⟩ []
          [("b", Node.mk "a/b" "b" ⟨[⟨"x", [⟨"A", .float64 1⟩]⟩]⟩ [] [] []),
           ("c", Node.mk "a/c" "c" ⟨[⟨"x", [⟨"B", .float64 2⟩]⟩]⟩ [] [] [])] ["b", "c"]) := rfl
  exact ⟨hparent, C14_Name_and_QualifiedName _ ["a"] _ _ "c" hparent rfl⟩

/-- C15: a leading separator is stripped: for a path `p` that does not itself begin
with `/`, `Tree.Add(source, "/" + p, variables)` is the tree `Tree.Add(source, p, variables)`. -/
theorem C15_leading_separator_stripped (tree : Tree K) (source p : String)
    (vars : List (String × Value K)) (hp : p.data.head? ≠ some PathSeparator) :
    tree.Add source ("/" ++ p) vars = tree.Add source p vars := by
  unfold Tree.Add
  rw [trimSeparator_cons, trimSeparator_self p hp]

/-- Witness of C15: the paths `/a/b` and `a/b`. -/
theorem C15_leading_separator_stripped_witness :
    ("a/b" : String).data.head? ≠ some PathSeparator
      ∧ (NewTree : Tree ℚ).Add "A" ("/" ++ "a/b") [("x", .float64 1)]
        = (NewTree : Tree ℚ).Add "A" "a/b" [("x", .float64 1)] :=
  ⟨by decide, C15_leading_separator_stripped NewTree "A" "a/b" [("x", .float64 1)] (by decide)⟩

/-- C20: after any sequence of `Tree.Add` calls on a new tree the state of the root is
empty. Splitting a path always gives at least one segment, the empty path gives the single
segment `""`, so `Add(source, "", variables)` records its values at the child of the root
named `""`, created or reused, and leaves the state of the root alone. -/
theorem C20_root_State_stays_empty (calls : List (AddCall K)) (tree : Tree K)
    (source path : String) (vars : List (String × Value K)) :
    ((NewTree : Tree K).AddAll calls).Node.State = ⟨[]⟩
      ∧ 1 ≤ (Split (trimSeparator path)).length
      ∧ (tree.Add source path vars).Node.State = tree.Node.State
      ∧ Split (trimSeparator "") = [""]
      ∧ ∃ child, GoMap.get "" (tree.Add source "" vars).Node.Children = some child
          ∧ child.State =
            (((GoMap.get "" tree.Node.Children).map Node.State).getD ⟨[]⟩).Add source vars := by
  refine ⟨?_, ?_, ?_, rfl, ?_⟩
  · exact AddAll_induction (fun node => node.State = ⟨[]⟩) rfl
      (fun source vars path node hpath h => by
        show (Node.Include source vars [] path node).State = _
        rw [Include_State_of_ne_nil source vars [] path node hpath]; exact h) calls
  · have := Split_ne_nil (trimSeparator path)
    cases h : Split (trimSeparator path) with
    | nil => exact absurd h this
    | cons a l => simp
  · exact Include_State_of_ne_nil source vars [] _ tree.Node (Split_ne_nil _)
  · obtain ⟨target, h1, h2⟩ := Include_find_target source vars [""] [] tree.Node
    have hnode : (tree.Add source "" vars).Node = tree.Node.Include source vars [] [""] := rfl
    rw [hnode]
    rw [find_cons] at h1
    cases hget : GoMap.get "" (Node.Include source vars [] [""] tree.Node).Children with
    | none => simp [hget] at h1
    | some child =>
      simp only [hget, Option.some_bind, Node.find, Option.some.injEq] at h1
      subst h1
      refine ⟨child, rfl, ?_⟩
      rw [h2, find_cons]
      cases hold : GoMap.get "" tree.Node.Children <;> simp [Node.find]

end PathTheorems

section AbortTheorems

variable {K : Type} [LinearOrderedField K]

/-- Counterexample to C11: `Tree.Add` with a string value does not reject it; the value
is recorded at the node `a`, and it is the later `UpdateError` that aborts. -/
theorem C11_counterexample :
    (NewTree : Tree ℚ).Add "A" "a" [("x", .other "text")]
        = ⟨["A"], ["x"], Node.mk "" "" ⟨[]⟩ []
            [("a", Node.mk "a" "a" ⟨[⟨"x", [⟨"A", .other "text"⟩]⟩]⟩ [] [] [])] ["a"]⟩
      ∧ ((NewTree : Tree ℚ).Add "A" "a" [("x", .other "text")]).UpdateError (fun x => x)
        = none := by
  refine ⟨rfl, ?_⟩
  simp [Tree.UpdateError, Tree.Add, NewTree, NewNode, trimSeparator, Split, Split.chars,
    PathSeparator, Node.Include, GoMap.get, GoMap.set, Join, State.Add, State.addValue,
    State.mustGet, State.Get, State.Get.loop, State.modify, Variable.Add,
    Node.UpdateError, Node.UpdateError.children, State_Clone_eq, State.addError,
    State.CalculateError, State.CalculateError.loop, Variable.CalculateError,
    CalculateError.accumulate, nativeAsFloat]

/-- C11 as amended: `Tree.Add` does not look at the kind of a value: it records every
pair at the node the path resolves to. A value that is neither a recognized numeric kind
nor an `Error` makes the later `UpdateError` on the tree abort; when the tree and the new
values are all recognized, `UpdateError` on the result completes. -/
theorem C11_Add_records_any_value (sqrt : K → K) (tree : Tree K) (source path : String)
    (vars : List (String × Value K)) :
    (∃ target, (tree.Add source path vars).Node.find (Split (trimSeparator path)) = some target
        ∧ ∀ p ∈ vars, ∃ w ∈ target.State.Variables, (⟨source, p.2⟩ : Entry K) ∈ w.Entries)
      ∧ ((∃ p ∈ vars, ¬ (⟨source, p.2⟩ : Entry K).recognized) →
          (tree.Add source path vars).UpdateError sqrt = none)
      ∧ (tree.Node.allRecognized → (∀ p ∈ vars, (⟨source, p.2⟩ : Entry K).recognized) →
          ∃ t, (tree.Add source path vars).UpdateError sqrt = some t) := by
  have hnode : (tree.Add source path vars).Node =
      tree.Node.Include source vars [] (Split (trimSeparator path)) := rfl
  obtain ⟨target, h1, h2⟩ :=
    Include_find_target source vars (Split (trimSeparator path)) [] tree.Node
  have hrec : ∀ p ∈ vars, ∃ w ∈ target.State.Variables,
      (⟨source, p.2⟩ : Entry K) ∈ w.Entries := by
    intro p hp
    rw [h2]
    exact Add_has_entry source vars _ p hp
  refine ⟨⟨target, by rw [hnode]; exact h1, hrec⟩, ?_, ?_⟩
  · rintro ⟨p, hp, hbad⟩
    have hnone : (tree.Add source path vars).Node.UpdateError sqrt = none := by
      rw [UpdateError_none_iff]
      intro hall
      rw [hnode] at hall
      have ht := allRecognized_State target (allRecognized_find _ _ target hall h1)
      obtain ⟨w, hw, he⟩ := hrec p hp
      exact hbad (ht w hw _ he)
    simp [Tree.UpdateError, hnone]
  · intro hall hv
    have : (tree.Add source path vars).Node.allRecognized := by
      rw [hnode]
      exact Include_allRecognized source vars hv _ [] tree.Node hall
    obtain ⟨node', h'⟩ := UpdateError_total sqrt _ this
    exact ⟨_, by rw [Tree.UpdateError, h']⟩

/-- C12: `UpdateError` aborts exactly when some node of the subtree holds an entry that
is neither a numeric kind `nativeAsFloat` recognizes nor an `Error`. The type switch of
`nativeAsFloat` has no case for `int16` and `uint16`: a tree whose only recorded value is
an `int16`, or a `uint16`, makes the pass abort. -/
theorem C12_int16_uint16_abort (sqrt : K → K) (node : Node K) :
    (node.UpdateError sqrt = none ↔ ¬ node.allRecognized)
      ∧ ((NewTree : Tree K).Add "A" "a" [("x", .int16 5)]).UpdateError sqrt = none
      ∧ ((NewTree : Tree K).Add "A" "a" [("x", .uint16 5)]).UpdateError sqrt = none := by
  refine ⟨UpdateError_none_iff sqrt node, ?_, ?_⟩
  · simp [Tree.UpdateError, Tree.Add, NewTree, NewNode, trimSeparator, Split, Split.chars,
      PathSeparator, Node.Include, GoMap.get, GoMap.set, Join, State.Add, State.addValue,
      State.mustGet, State.Get, State.Get.loop, State.modify, Variable.Add,
      Node.UpdateError, Node.UpdateError.children, State_Clone_eq, State.addError,
      State.CalculateError, State.CalculateError.loop, Variable.CalculateError,
      CalculateError.accumulate, nativeAsFloat]
  · simp [Tree.UpdateError, Tree.Add, NewTree, NewNode, trimSeparator, Split, Split.chars,
      PathSeparator, Node.Include, GoMap.get, GoMap.set, Join, State.Add, State.addValue,
      State.mustGet, State.Get, State.Get.loop, State.modify, Variable.Add,
      Node.UpdateError, Node.UpdateError.children, State_Clone_eq, State.addError,
      State.CalculateError, State.CalculateError.loop, Variable.CalculateError,
      CalculateError.accumulate, nativeAsFloat]

end AbortTheorems


section OrderTheorems

variable {K : Type}

/-- C13: for every node reachable after any sequence of `Tree.Add` calls on a new tree,
`ChildrenOrder` has no duplicates, lists exactly the keys of `Children`, and is in the
order in which the children were first created: it is the first-seen order of the child
names that the calls, in call order, asked of that node. -/
theorem C13_ChildrenOrder_is_creation_order (calls : List (AddCall K)) (p : List String)
    (nd : Node K) (hfind : ((NewTree : Tree K).AddAll calls).Node.find p = some nd) :
    nd.ChildrenOrder.Nodup
      ∧ (∀ k, k ∈ nd.ChildrenOrder ↔ (GoMap.get k nd.Children).isSome)
      ∧ nd.Children.map Prod.fst = nd.ChildrenOrder
      ∧ nd.ChildrenOrder = firstSeen (childRequests p calls) := by
  obtain ⟨h1, h2⟩ := (AddAll_order calls).1 p nd hfind
  refine ⟨by rw [h1]; exact firstSeen_nodup _, ?_, h2, h1⟩
  intro k
  rw [GoMap_get_isSome_iff, h2]

/-- Witness of C13: calls at `b/x`, `a`, `/b/y`, `c/z` and `b/x` give the root the order
`b`, `a`, `c` and the node `b` the order `x`, `y`. -/
theorem C13_ChildrenOrder_is_creation_order_witness :
    ((NewTree : Tree ℚ).AddAll
        [⟨"A", "b/x", []⟩, ⟨"A", "a", []⟩, ⟨"B", "/b/y", []⟩, ⟨"B", "c/z", []⟩,
         ⟨"B", "b/x", []⟩]).Node.find ["b"]
      = some (Node.mk "b" "b" ⟨[]⟩ []
          [("x", Node.mk "b/x" "x" ⟨[]⟩ [] [] []), ("y", Node.mk "b/y" "y" ⟨[]⟩ [] [] [])]
          ["x", "y"])
      ∧ (["x", "y"] : List String).Nodup
      ∧ (["x", "y"] : List String) = firstSeen (childRequests ["b"]
          ([⟨"A", "b/x", []⟩, ⟨"A", "a", []⟩, ⟨"B", "/b/y", []⟩, ⟨"B", "c/z", []⟩,
            ⟨"B", "b/x", []⟩] : List (AddCall ℚ))) := by
  have hfind : ((NewTree : Tree ℚ).AddAll
      [⟨"A", "b/x", []⟩, ⟨"A", "a", []⟩, ⟨"B", "/b/y", []⟩, ⟨"B", "c/z", []⟩,
       ⟨"B", "b/x", []⟩]).Node.find ["b"]
      = some (Node.mk "b" "b" ⟨[]⟩ []
          [("x", Node.mk "b/x" "x" ⟨[]⟩ [] [] []), ("y", Node.mk "b/y" "y" ⟨[]⟩ [] [] [])]
          ["x", "y"]) := rfl
  have h := C13_ChildrenOrder_is_creation_order _ ["b"] _ hfind
  exact ⟨hfind, h.1, h.2.2.2⟩

end OrderTheorems

section SourceRowTheorems

variable {K : Type} [LinearOrderedField K]

/-- C17: with `ShowSource` set, the rows a rendered node gets after its own row are
one row for each source of the selected list that has an entry for at least one selected
variable in the node's own state, in list order, and no row for any other source; the
children of the node play no part. A node that passes the `ShowZero` and `LevelLimit`
tests is rendered as exactly these rows followed by the output of its children, and a node
that fails one of them is rendered as nothing. This holds for both renderers; `%.2f` of a
value is never the empty string. -/
theorem C17_one_row_per_source_with_entry (r : Renderer K) (f : Format K)
    (sources vars : List String) (q : String) (state : State K) (err : List (String × K))
    (hshow : r.ShowSource = true) (hval : ∀ val, f.value val ≠ "") :
    (HTML.rows r f sources vars q state err).head?.map (fun row => row.kind) = some RowKind.node
      ∧ (HTML.rows r f sources vars q state err).tail.map (fun row => (row.kind, row.label)) =
        (sources.filter (fun s => decide (sourceHasEntry state vars s))).map
          (fun s => (RowKind.source, "<td>" ++ f.escape (q ++ ":" ++ s) ++ "</td>"))
      ∧ (Console.rows r f sources vars q state err).head?.map (fun row => row.kind)
          = some RowKind.node
      ∧ (Console.rows r f sources vars q state err).tail.map (fun row => (row.kind, row.label)) =
        (sources.filter (fun s => decide (sourceHasEntry state vars s))).map
          (fun s => (RowKind.source, q ++ ":" ++ s))
      ∧ (∀ (node : Node K) (level : Nat) (out : List Row),
          HTML.render r f sources vars node level = some out →
          out = [] ∨ ∃ below,
            out = HTML.rows r f sources vars node.QualifiedName node.State node.Error ++ below)
      ∧ (∀ (node : Node K) (level : Nat) (out : List Row),
          Console.render r f sources vars node level = some out →
          out = [] ∨ ∃ below,
            out = Console.rows r f sources vars node.QualifiedName node.State node.Error
              ++ below)
      ∧ (∀ (node : Node K) (level : Nat),
          HTML.render r f sources vars node level =
            if r.ShowZero = false ∧ node.HasErrors = false then some []
            else if (level : Int) > r.LevelLimit ∧ r.LevelLimit ≥ 0 then some []
            else (renderOrder r (HTML.render.children r f sources vars node.Children)
                (level + 1) node.ChildrenOrder).map
              (fun below =>
                HTML.rows r f sources vars node.QualifiedName node.State node.Error ++ below))
      ∧ (∀ (node : Node K) (level : Nat),
          Console.render r f sources vars node level =
            if r.ShowZero = false ∧ node.HasErrors = false then some []
            else if (level : Int) > r.LevelLimit ∧ r.LevelLimit ≥ 0 then some []
            else (renderOrder r (Console.render.children r f sources vars node.Children)
                (level + 1) node.ChildrenOrder).map
              (fun below =>
                Console.rows r f sources vars node.QualifiedName node.State node.Error
                  ++ below)) := by
  refine ⟨rfl, ?_, rfl, ?_, HTML_render_rows r f sources vars,
    Console_render_rows r f sources vars, ?_, ?_⟩
  · rw [HTML_rows_eq r f sources vars q state err hshow,
      filter_hasEntry _ (fun val => td_ne_empty (f.value val)) state vars sources,
      List.map_map]
    rfl
  · rw [Console_rows_eq r f sources vars q state err hshow,
      filter_hasEntry _ hval state vars sources, List.map_map]
    rfl
  · rintro ⟨q, n, s, e, cs, o⟩ level
    exact HTML_render_eq r f sources vars q n s e cs o level
  · rintro ⟨q, n, s, e, cs, o⟩ level
    exact Console_render_eq r f sources vars q n s e cs o level

/-- Witness of C17: at a node where `A` recorded `x` and `C` recorded `y`, the selected
sources `A`, `B`, `C` give a row for `A` and a row for `C`, and rendering that node writes
its own row followed by these two rows. -/
theorem C17_one_row_per_source_with_entry_witness :
    ({ NewRenderer with ShowSource := true } : Renderer ℚ).ShowSource = true
      ∧ (∀ val : Value ℚ, (Format.sample : Format ℚ).value val ≠ "")
      ∧ (Console.rows { NewRenderer with ShowSource := true } Format.sample ["A", "B", "C"]
          ["x", "y"] "a"
          (⟨[⟨"x", [⟨"A", .float64 1⟩]⟩, ⟨"y", [⟨"C", .float64 2⟩]⟩]⟩ : State ℚ)
          []).tail.map (fun row => (row.kind, row.label))
        = [(RowKind.source, "a:A"), (RowKind.source, "a:C")]
      ∧ (Console.render { NewRenderer with ShowSource := true } Format.sample ["A", "B", "C"]
          ["x", "y"]
          (Node.mk "a" "a"
            (⟨[⟨"x", [⟨"A", .float64 1⟩]⟩, ⟨"y", [⟨"C", .float64 2⟩]⟩]⟩ : State ℚ)
            [("x", 1)] [] []) 0).map (fun out => out.map (fun row => (row.kind, row.label)))
        = some [(RowKind.node, "a"), (RowKind.source, "a:A"), (RowKind.source, "a:C")] := by
  have hval : ∀ val : Value ℚ, (Format.sample : Format ℚ).value val ≠ "" := by
    intro val
    show ("#" : String) ≠ ""
    decide
  refine ⟨rfl, hval, ?_, ?_⟩
  · rw [(C17_one_row_per_source_with_entry { NewRenderer with ShowSource := true }
      Format.sample ["A", "B", "C"] ["x", "y"] "a" _ [] rfl hval).2.2.2.1]
    decide
  · decide

/-- C18: the report is not column-aligned at a node that lacks a selected variable.
Source `A` records `y` at `a` and `x` at `b`, so the columns are `y`, `x`. With
`ShowSource` (and `ShowZero`, no level limit) the source row `b:A` has a single cell, the
value of `x`, written in the column of `y`, where the header and the node rows have two
cells; the same happens in the HTML report. -/
theorem C18_source_row_not_aligned :
    ((((NewTree : Tree ℚ).Add "A" "a" [("y", .float64 1)]).Add "A" "b"
        [("x", .float64 2)]).UpdateError (fun x => x)).bind
        (fun tree => Renderer.Console
          { NewRenderer with LevelLimit := -1, ShowSource := true, ShowZero := true }
          Format.sample tree)
      = some [⟨RowKind.header, "", ["\ty", "\tx"]⟩,
          ⟨RowKind.node, "", ["\t#", "\t#"]⟩,
          ⟨RowKind.node, "a", ["\t#", "\t"]⟩,
          ⟨RowKind.source, "a:A", ["\t#"]⟩,
          ⟨RowKind.node, "b", ["\t", "\t#"]⟩,
          ⟨RowKind.source, "b:A", ["\t#"]⟩]
      ∧ (HTML.rows { NewRenderer with LevelLimit := -1, ShowSource := true, ShowZero := true }
          Format.sample ["A"] ["y", "x"] "b"
          (⟨[⟨"x", [⟨"A", .float64 2⟩]⟩]⟩ : State ℚ) []).tail
        = [⟨RowKind.source, "<td>b:A</td>", ["<td>#</td>"]⟩] := by
  refine ⟨by decide, by decide⟩

end SourceRowTheorems

section MonotoneTheorems

variable {K : Type} [LinearOrderedField K]

/-- C19: take any tree built by `Add` calls whose values are all of a numeric kind that
`nativeAsFloat` recognizes, exact arithmetic and a square root that is never negative.
`UpdateError` completes, and in its result: every value of every node's `Error` map is
non-negative; every variable of a child's `Error` map is in the parent's `Error` map, with
a value that is not smaller; a node for which `HasErrors` is false has no descendant for
which it is true. Hence with `ShowZero` unset and a negative `LevelLimit` both renderers
complete and write a node row for exactly the nodes for which `HasErrors` is true (in
particular for every reachable one), parent before child. -/
theorem C19_divergence_is_monotone_up_the_tree (sqrt : K → K) (hsqrt : ∀ y, 0 ≤ sqrt y)
    (calls : List (AddCall K))
    (hnum : ∀ c ∈ calls, ∀ p ∈ c.vars, (nativeAsFloat p.2).isSome)
    (r : Renderer K) (f : Format K) (hzero : r.ShowZero = false)
    (hlimit : r.LevelLimit < 0) :
    ∃ tree, ((NewTree : Tree K).AddAll calls).UpdateError sqrt = some tree
      ∧ (∀ (p : List String) (nd : Node K), tree.Node.find p = some nd →
          (∀ x ∈ nd.Error, 0 ≤ x.2)
            ∧ (∀ (k : String) (c : Node K), GoMap.get k nd.Children = some c →
                ∀ (x : String) (d : K), GoMap.get x c.Error = some d →
                  ∃ D, GoMap.get x nd.Error = some D ∧ d ≤ D)
            ∧ (nd.HasErrors = false →
                ∀ (p' : List String) (nd' : Node K), nd.find p' = some nd' →
                  nd'.HasErrors = false))
      ∧ (∃ out, Renderer.Console r f tree = some out
          ∧ nodeLabels out = tree.Node.flagged
          ∧ ∀ (p : List String) (nd : Node K), tree.Node.find p = some nd →
              nd.HasErrors = true → nd.QualifiedName ∈ nodeLabels out)
      ∧ (∃ out, Renderer.HTML r f tree = some out
          ∧ nodeLabels out = tree.Node.flagged.map (fun q => "<td>" ++ f.escape q ++ "</td>")
          ∧ ∀ (p : List String) (nd : Node K), tree.Node.find p = some nd →
              nd.HasErrors = true →
              "<td>" ++ f.escape nd.QualifiedName ++ "</td>" ∈ nodeLabels out) := by
  obtain ⟨hN, hO⟩ := AddAll_invariants calls hnum
  obtain ⟨root, hroot⟩ := UpdateError_total sqrt _ (numeric_allRecognized _ hN)
  have hM := UpdateError_monotone sqrt hsqrt _ root hN hroot
  have hO' := UpdateError_orderly sqrt _ root hO hroot
  refine ⟨{ (NewTree : Tree K).AddAll calls with Node := root }, ?_, ?_, ?_, ?_⟩
  · rw [Tree.UpdateError, hroot]
  · intro p nd hfind
    have hnd := all_find _ p root nd hM hfind
    have hhere := all_self _ nd hnd
    refine ⟨hhere.2.1, ?_, ?_⟩
    · intro k c hget
      exact hhere.2.2 (k, c) (GoMap_get_mem k c _ hget)
    · intro hq p' nd' hfind'
      exact all_self _ nd' (all_find _ p' nd nd' (monotone_quiet nd hnd hq) hfind')
  · obtain ⟨out, hout, hl⟩ := render_flagged r hzero hlimit
      (Console.rows r f
        (if r.Sources.length = 0 then ((NewTree : Tree K).AddAll calls).Sources else r.Sources)
        (if r.Variables.length = 0 then ((NewTree : Tree K).AddAll calls).Variables
          else r.Variables))
      (Console.render r f _ _) (Console.render.children r f _ _)
      (fun q => q) (Console_render_eq r f _ _)
      (fun k c rest => by rw [Console.render.children])
      (nodeLabels_Console_rows r f _ _) root 0 hM hO'
    rw [show List.map (fun q : String => q) root.flagged = root.flagged from List.map_id _]
      at hl
    refine ⟨⟨RowKind.header, "",
      (if r.Variables.length = 0 then ((NewTree : Tree K).AddAll calls).Variables
        else r.Variables).map (fun v => "\t" ++ v)⟩ :: out, ?_, ?_, ?_⟩
    · unfold Renderer.Console
      simp only [hout]
    · rw [← hl]
      simp [nodeLabels]
    · intro p nd hfind hq
      have := flagged_find p root nd hfind hq
      rw [← hl] at this
      simpa [nodeLabels] using this
  · obtain ⟨out, hout, hl⟩ := render_flagged r hzero hlimit
      (HTML.rows r f
        (if r.Sources.length = 0 then ((NewTree : Tree K).AddAll calls).Sources else r.Sources)
        (if r.Variables.length = 0 then ((NewTree : Tree K).AddAll calls).Variables
          else r.Variables))
      (HTML.render r f _ _) (HTML.render.children r f _ _)
      (fun q => "<td>" ++ f.escape q ++ "</td>") (HTML_render_eq r f _ _)
      (fun k c rest => by rw [HTML.render.children])
      (nodeLabels_HTML_rows r f _ _) root 0 hM hO'
    refine ⟨⟨RowKind.header, "<th></th>",
      (if r.Variables.length = 0 then ((NewTree : Tree K).AddAll calls).Variables
        else r.Variables).map (fun v => "<th>" ++ f.escape v ++ "</th>")⟩ :: out, ?_, ?_, ?_⟩
    · unfold Renderer.HTML
      simp only [hout]
    · rw [← hl]
      simp [nodeLabels]
    · intro p nd hfind hq
      have := List.mem_map_of_mem (fun q => "<td>" ++ f.escape q ++ "</td>")
        (flagged_find p root nd hfind hq)
      rw [← hl] at this
      simpa [nodeLabels] using this

/-- Witness of C19: three calls with numeric values, the square root of the reals and a
renderer without level limit. -/
theorem C19_divergence_is_monotone_up_the_tree_witness :
    (∀ y : ℝ, 0 ≤ Real.sqrt y)
      ∧ (∀ c ∈ ([⟨"A", "a/b", [("x", .float64 1)]⟩, ⟨"B", "a/b", [("x", .float64 3)]⟩,
            ⟨"A", "c", [("x", .int 2)]⟩] : List (AddCall ℝ)),
          ∀ p ∈ c.vars, (nativeAsFloat p.2).isSome)
      ∧ ({ NewRenderer with LevelLimit := -1 } : Renderer ℝ).ShowZero = false
      ∧ ({ NewRenderer with LevelLimit := -1 } : Renderer ℝ).LevelLimit < 0
      ∧ ∃ tree, ((NewTree : Tree ℝ).AddAll
            [⟨"A", "a/b", [("x", .float64 1)]⟩, ⟨"B", "a/b", [("x", .float64 3)]⟩,
              ⟨"A", "c", [("x", .int 2)]⟩]).UpdateError Real.sqrt = some tree
          ∧ (∀ (p : List String) (nd : Node ℝ), tree.Node.find p = some nd →
              ∀ x ∈ nd.Error, 0 ≤ x.2)
          ∧ ∃ out, Renderer.Console { NewRenderer with LevelLimit := -1 } Format.sample tree
                = some out
              ∧ nodeLabels out = tree.Node.flagged := by
  have hnum : ∀ c ∈ ([⟨"A", "a/b", [("x", .float64 1)]⟩, ⟨"B", "a/b", [("x", .float64 3)]⟩,
      ⟨"A", "c", [("x", .int 2)]⟩] : List (AddCall ℝ)),
      ∀ p ∈ c.vars, (nativeAsFloat p.2).isSome := by
    intro c hc p hp
    simp only [List.mem_cons, List.mem_singleton, List.not_mem_nil, or_false] at hc
    rcases hc with rfl | rfl | rfl <;>
      (simp only [List.mem_singleton] at hp; subst hp; rfl)
  obtain ⟨tree, h1, h2, ⟨out, h3, h4, -⟩, -⟩ :=
    C19_divergence_is_monotone_up_the_tree Real.sqrt Real.sqrt_nonneg _ hnum
      { NewRenderer with LevelLimit := -1 } Format.sample rfl (by decide)
  exact ⟨Real.sqrt_nonneg, hnum, rfl, by decide, tree, h1, fun p nd h => (h2 p nd h).1,
    out, h3, h4⟩

end MonotoneTheorems

section MachineTheorems

variable {K : Type} [Zero K] [One K] [HAdd K K K] [Sub K] [Mul K] [Div K] [Neg K] [NatCast K]
  [IntCast K] [LT K] [DecidableEq K] [DecidableRel (fun a b : K => a < b)]

set_option maxRecDepth 100000

/-- Counterexample to C1: the `int64` samples `2^53 + 1` and `2^53` both convert to the
`float64` `2^53`, so `CalculateError` returns `0`, where the formula of the claim, over the
recorded values, gives `sqrt (1/2)`. -/
theorem C1_counterexample :
    (⟨"x", [⟨"A", .int64 (2 ^ 53 + 1)⟩, ⟨"B", .int64 (2 ^ 53)⟩]⟩ :
        Variable F64).CalculateError F64.sqrt = some 0
      ∧ divergenceSpec Real.sqrt
          ([⟨"A", .int64 (2 ^ 53 + 1)⟩, ⟨"B", .int64 (2 ^ 53)⟩] : List (Entry ℝ)) ≠ 0 := by
  refine ⟨by decide, ?_⟩
  have h : divergenceSpec Real.sqrt
      ([⟨"A", .int64 (2 ^ 53 + 1)⟩, ⟨"B", .int64 (2 ^ 53)⟩] : List (Entry ℝ))
      = 0 + stddevTerm Real.sqrt [((2 ^ 53 + 1 : Int) : ℝ), ((2 ^ 53 : Int) : ℝ)] := by
    simp [divergenceSpec, aggregatesOf, samplesOf, nativeAsFloat]
  rw [h, stddev_two]
  norm_num

/-- C1, in `float64`: for a variable whose entries are all numeric samples or
pre-aggregated `Error` values, `Variable.CalculateError` returns the running sum of the
`Error`-valued entries, in entry order, plus, when there are `n ≥ 2` numeric samples, the
term `sqrt (sum2 / float64(n - 1))`, where `mean` is the running sum of the samples divided
by `float64(n)` and `sum2` the running sum of the products `(vᵢ - mean) * (vᵢ - mean)`;
every operation is the one of the number type, rounded as that type rounds, and nothing is
added when `n < 2`. In particular a variable with exactly one numeric entry and no `Error`
entry has divergence `0`. The statement assumes nothing about the arithmetic. -/
theorem C1_CalculateError_formula (sqrt : K → K) (v : Variable K)
    (h : ∀ e ∈ v.Entries, e.recognized) :
    v.CalculateError sqrt =
        some (if 2 ≤ (samplesOf v.Entries).length then
            runningSum (aggregatesOf v.Entries) +
              sqrt (runningSum ((samplesOf v.Entries).map (fun x =>
                  (x - runningSum (samplesOf v.Entries) / ((samplesOf v.Entries).length : K))
                    * (x - runningSum (samplesOf v.Entries)
                      / ((samplesOf v.Entries).length : K))))
                / (((samplesOf v.Entries).length - 1 : Nat) : K))
          else runningSum (aggregatesOf v.Entries))
      ∧ (∀ e, v.Entries = [e] → (nativeAsFloat e.Value).isSome →
          v.CalculateError sqrt = some 0) := by
  refine ⟨CalculateError_eq_machine sqrt v h, ?_⟩
  intro e he hnum
  rw [CalculateError_eq_machine sqrt v h, he]
  obtain ⟨x, hx⟩ := Option.isSome_iff_exists.mp hnum
  have hagg : aggregatesOf [e] = [] := by
    unfold aggregatesOf
    cases hval : e.Value <;> simp_all [nativeAsFloat]
  have hsam : samplesOf [e] = [x] := by
    simp [samplesOf, List.filterMap_cons, hx]
  rw [divergenceMachine, hagg, hsam]
  rfl

/-- Witness of C1 in `float64`: samples `1` and `3` with one pre-aggregated `2` give the
`float64` nearest to `2 + s`, where `s` is the `float64` nearest to `sqrt 2`. -/
theorem C1_CalculateError_formula_witness :
    (∀ e ∈ (⟨"x", [⟨"A", .float64 1⟩, ⟨"B", .int 3⟩, ⟨"child", .Error 2⟩]⟩ :
        Variable F64).Entries, e.recognized)
      ∧ (⟨"x", [⟨"A", .float64 1⟩, ⟨"B", .int 3⟩, ⟨"child", .Error 2⟩]⟩ :
          Variable F64).CalculateError F64.sqrt
        = some (F64.fin (Int.ofNat (3844062731816691 * 2 ^ 1024))) := by
  have hrec : ∀ e ∈ (⟨"x", [⟨"A", .float64 1⟩, ⟨"B", .int 3⟩, ⟨"child", .Error 2⟩]⟩ :
      Variable F64).Entries, e.recognized := by
    intro e he
    simp only [List.mem_cons, List.mem_singleton, List.not_mem_nil, or_false] at he
    rcases he with rfl | rfl | rfl
    · exact Or.inl rfl
    · exact Or.inl rfl
    · exact Or.inr ⟨2, rfl⟩
  refine ⟨hrec, ?_⟩
  rw [(C1_CalculateError_formula F64.sqrt _ hrec).1]
  decide

/-- Counterexample to C2: a leaf whose two samples are both the `float64` `2^1023` gets
`Error[x] = +Inf`, because the sum of the samples overflows, where `|v1 - v2| / sqrt 2`
is `0`. -/
theorem C2_counterexample :
    ((Node.mk "a" "a" ⟨[⟨"x", [⟨"A", .float64 ((2 ^ 1023 : Nat) : F64)⟩,
          ⟨"B", .float64 ((2 ^ 1023 : Nat) : F64)⟩]⟩]⟩ [] [] [] : Node F64).UpdateError
        F64.sqrt).map (fun nd => GoMap.get "x" nd.Error) = some (some (F64.inf false))
      ∧ ((2 ^ 1023 : Nat) : F64) = F64.fin (Int.ofNat (2 ^ 2097))
      ∧ |((2 : ℝ) ^ 1023) - (2 : ℝ) ^ 1023| / Real.sqrt 2 = 0 := by
  refine ⟨by decide, by decide, by simp⟩

/-- C2, in `float64`: for a leaf node whose state holds, for a variable `x`, exactly the
two numeric entries `v1` and `v2`, the `Error` map left by `UpdateError` binds `x` to
`0 + sqrt (((0 + d1 * d1) + d2 * d2) / float64(1))` with `dᵢ = vᵢ - mean` and
`mean = ((0 + v1) + v2) / float64(2)`, every operation being the one of the number type;
the pass completes whenever every recorded value is recognized. The statement assumes
nothing about the arithmetic. -/
theorem C2_leaf_two_entries (sqrt : K → K) (q n : String) (s : State K) (e : List (String × K))
    (o : List String) (x s1 s2 : String) (a b : Value K) (v1 v2 : K)
    (hex : ∃ w ∈ s.Variables, w.Name = x)
    (hall : ∀ w ∈ s.Variables, w.Name = x → w.Entries = [⟨s1, a⟩, ⟨s2, b⟩])
    (ha : nativeAsFloat a = some v1) (hb : nativeAsFloat b = some v2) :
    (∀ node, (Node.mk q n s e [] o).UpdateError sqrt = some node →
        GoMap.get x node.Error =
          some (0 + sqrt (((0 + (v1 - ((0 + v1) + v2) / ((2 : Nat) : K))
                  * (v1 - ((0 + v1) + v2) / ((2 : Nat) : K)))
                + (v2 - ((0 + v1) + v2) / ((2 : Nat) : K))
                  * (v2 - ((0 + v1) + v2) / ((2 : Nat) : K)))
              / ((1 : Nat) : K))))
      ∧ ((∀ w ∈ s.Variables, ∀ en ∈ w.Entries, en.recognized) →
          ∃ node, (Node.mk q n s e [] o).UpdateError sqrt = some node) := by
  constructor
  · intro node hnode
    rw [UpdateError_leaf] at hnode
    cases hr : s.CalculateError sqrt with
    | none => simp [hr] at hnode
    | some r =>
      simp only [hr, Option.map_some', Option.some.injEq] at hnode
      subst hnode
      refine CalculateError_loop_get_present sqrt x _ s.Variables [] r hex ?_ hr
      intro w hw hwx
      have hent := hall w hw hwx
      have hrec : ∀ en ∈ w.Entries, en.recognized := by
        intro en hen
        rw [hent] at hen
        simp only [List.mem_cons, List.mem_singleton, List.not_mem_nil, or_false] at hen
        rcases hen with rfl | rfl
        · exact Or.inl (by simp [ha])
        · exact Or.inl (by simp [hb])
      rw [CalculateError_eq_machine sqrt w hrec, hent]
      have hagg : aggregatesOf ([⟨s1, a⟩, ⟨s2, b⟩] : List (Entry K)) = [] := by
        unfold aggregatesOf
        cases a <;> cases b <;> simp_all [nativeAsFloat]
      have hsam : samplesOf ([⟨s1, a⟩, ⟨s2, b⟩] : List (Entry K)) = [v1, v2] := by
        simp [samplesOf, List.filterMap_cons, ha, hb]
      rw [divergenceMachine, hagg, hsam]
      rfl
  · intro hrec
    rw [UpdateError_leaf]
    obtain ⟨r, hr⟩ := CalculateError_loop_isSome sqrt s.Variables [] hrec
    exact ⟨_, by rw [State.CalculateError, hr]; rfl⟩

/-- Witness of C2 in `float64`: the leaf `a/b` with samples `1` and `3` gets the `float64`
nearest to `sqrt 2`. -/
theorem C2_leaf_two_entries_witness :
    (∃ w ∈ (⟨[⟨"x", [⟨"A", .float64 1⟩, ⟨"B", .float64 3⟩]⟩]⟩ : State F64).Variables,
        w.Name = "x")
      ∧ GoMap.get "x" (Node.mk "a/b" "b"
            (⟨[⟨"x", [⟨"A", .float64 1⟩, ⟨"B", .float64 3⟩]⟩]⟩ : State F64) [] [] []
          |>.UpdateError F64.sqrt |>.map Node.Error |>.getD [])
        = some (F64.fin (Int.ofNat (6369051672525773 * 2 ^ 1022))) := by
  have hex : ∃ w ∈ (⟨[⟨"x", [⟨"A", .float64 1⟩, ⟨"B", .float64 3⟩]⟩]⟩ : State F64).Variables,
      w.Name = "x" := ⟨_, List.mem_singleton.mpr rfl, rfl⟩
  have hall : ∀ w ∈ (⟨[⟨"x", [⟨"A", .float64 1⟩, ⟨"B", .float64 3⟩]⟩]⟩ : State F64).Variables,
      w.Name = "x" → w.Entries = [⟨"A", .float64 1⟩, ⟨"B", .float64 3⟩] := by
    intro w hw _
    rw [List.mem_singleton.mp hw]
  have hthm := C2_leaf_two_entries F64.sqrt "a/b" "b" _ [] [] "x" "A" "B" _ _ 1 3 hex hall rfl rfl
  refine ⟨hex, ?_⟩
  obtain ⟨node, hnode⟩ := hthm.2 (by
    intro w hw en hen
    rw [List.mem_singleton.mp hw] at hen
    simp only [List.mem_cons, List.mem_singleton, List.not_mem_nil, or_false] at hen
    rcases hen with rfl | rfl <;> exact Or.inl rfl)
  rw [hnode]
  show GoMap.get "x" node.Error = _
  rw [hthm.1 node hnode]
  decide

/-- Counterexample to C3: the children `big`, `p`, `q` have `Error[x]` equal to `2^53`, `1`
and `1` (samples `-d`, `0`, `d` give divergence `d`). Visited in this order, the root gets
`Error[x] = 2^53`, not the sum `2^53 + 2`, which is a `float64` too. -/
theorem C3_counterexample :
    ((Node.mk "" "" ⟨[]⟩ []
        [("big", Node.mk "big" "big" ⟨[⟨"x", [⟨"A", .float64 ((-(2 ^ 53) : Int) : F64)⟩,
            ⟨"B", .float64 0⟩, ⟨"C", .float64 ((2 ^ 53 : Nat) : F64)⟩]⟩]⟩ [] [] []),
         ("p", Node.mk "p" "p" ⟨[⟨"x", [⟨"A", .float64 ((-1 : Int) : F64)⟩,
            ⟨"B", .float64 0⟩, ⟨"C", .float64 1⟩]⟩]⟩ [] [] []),
         ("q", Node.mk "q" "q" ⟨[⟨"x", [⟨"A", .float64 ((-1 : Int) : F64)⟩,
            ⟨"B", .float64 0⟩, ⟨"C", .float64 1⟩]⟩]⟩ [] [] [])]
        ["big", "p", "q"] : Node F64).UpdateError F64.sqrt).map
        (fun nd => (GoMap.get "x" nd.Error,
          nd.Children.filterMap (fun p => GoMap.get "x" p.2.Error)))
      = some (some ((2 ^ 53 : Nat) : F64), [((2 ^ 53 : Nat) : F64), 1, 1])
      ∧ ((2 ^ 53 : Nat) : F64) ≠ ((2 ^ 53 + 2 : Nat) : F64)
      ∧ ((2 ^ 53 + 2 : Nat) : F64) = F64.fin (Int.ofNat ((2 ^ 53 + 2) * 2 ^ 1074)) := by
  refine ⟨by decide, by decide, by decide⟩

/-- C3, in `float64`: after `UpdateError`, a node's `Error[x]` (a missing key reads as `0`)
is the running sum, in the order the children were visited, of the `Error[x]` of the
children whose `Error` map contains `x`, plus, when the node has two or more numeric samples
of its own for `x`, their standard-deviation term; for a node without direct entries it is
the running sum alone. Every addition rounds, so the value depends on the visiting order,
which is the order of the `Children` bindings. The node's state has no repeated variable
name and holds no `Error`-valued entry of its own for `x`; the pass completes whenever every
recorded value of the subtree is recognized. The statement assumes nothing about the
arithmetic. -/
theorem C3_UpdateError_adds_children (sqrt : K → K) (node : Node K) (x : String)
    (hwf : (node.State.Variables.map (fun w => w.Name)).Nodup)
    (hown : ∀ e ∈ entriesOf x node.State.Variables, ∀ k, e.Value ≠ Value.Error k) :
    (∀ node', node.UpdateError sqrt = some node' →
        (GoMap.get x node'.Error).getD 0 =
            (if 2 ≤ (samplesOf (entriesOf x node.State.Variables)).length then
              runningSum (node'.Children.filterMap (fun p => GoMap.get x p.2.Error))
                + stddevMachine sqrt (samplesOf (entriesOf x node.State.Variables))
            else runningSum (node'.Children.filterMap (fun p => GoMap.get x p.2.Error)))
          ∧ (node.State.Variables = [] →
              (GoMap.get x node'.Error).getD 0 =
                runningSum (node'.Children.filterMap (fun p => GoMap.get x p.2.Error))))
      ∧ (node.allRecognized → ∃ node', node.UpdateError sqrt = some node') := by
  refine ⟨?_, UpdateError_total sqrt node⟩
  intro node' h
  have hmain := UpdateError_get_machine sqrt node node' x hwf h
  rw [aggregatesOf_eq_nil _ hown, List.nil_append] at hmain
  refine ⟨hmain, ?_⟩
  intro hempty
  rw [hmain, hempty]
  rfl

/-- Witness of C3 in `float64`: a node without direct entries whose two children both have
divergence `2` for `x` (samples `0`, `2`, `4`) gets `Error[x] = (0 + 2) + 2`. -/
theorem C3_UpdateError_adds_children_witness :
    (Node.mk "" "" ⟨[]⟩ []
        [("l", Node.mk "l" "l"
            ⟨[⟨"x", [⟨"A", .float64 0⟩, ⟨"B", .float64 2⟩, ⟨"C", .float64 4⟩]⟩]⟩ [] [] []),
         ("r", Node.mk "r" "r"
            ⟨[⟨"x", [⟨"A", .float64 0⟩, ⟨"B", .float64 2⟩, ⟨"C", .float64 4⟩]⟩]⟩ [] [] [])]
        ["l", "r"] : Node F64).UpdateError F64.sqrt
      = some (Node.mk "" "" ⟨[]⟩ [("x", 4)]
        [("l", Node.mk "l" "l"
            ⟨[⟨"x", [⟨"A", .float64 0⟩, ⟨"B", .float64 2⟩, ⟨"C", .float64 4⟩]⟩]⟩ [("x", 2)] [] []),
         ("r", Node.mk "r" "r"
            ⟨[⟨"x", [⟨"A", .float64 0⟩, ⟨"B", .float64 2⟩, ⟨"C", .float64 4⟩]⟩]⟩ [("x", 2)] [] [])]
        ["l", "r"])
      ∧ (GoMap.get "x" [("x", (4 : F64))]).getD 0 = (0 + 2) + 2 := by
  have hrun : (Node.mk "" "" ⟨[]⟩ []
        [("l", Node.mk "l" "l"
            ⟨[⟨"x", [⟨"A", .float64 0⟩, ⟨"B", .float64 2⟩, ⟨"C", .float64 4⟩]⟩]⟩ [] [] []),
         ("r", Node.mk "r" "r"
            ⟨[⟨"x", [⟨"A", .float64 0⟩, ⟨"B", .float64 2⟩, ⟨"C", .float64 4⟩]⟩]⟩ [] [] [])]
        ["l", "r"] : Node F64).UpdateError F64.sqrt
      = some (Node.mk "" "" ⟨[]⟩ [("x", 4)]
        [("l", Node.mk "l" "l"
            ⟨[⟨"x", [⟨"A", .float64 0⟩, ⟨"B", .float64 2⟩, ⟨"C", .float64 4⟩]⟩]⟩ [("x", 2)] [] []),
         ("r", Node.mk "r" "r"
            ⟨[⟨"x", [⟨"A", .float64 0⟩, ⟨"B", .float64 2⟩, ⟨"C", .float64 4⟩]⟩]⟩ [("x", 2)] [] [])]
        ["l", "r"]) := by
    rfl
  have hthm := ((C3_UpdateError_adds_children F64.sqrt _ "x" (by simp [Node.State])
    (by simp [Node.State, entriesOf])).1 _ hrun).1
  exact ⟨hrun, hthm⟩

/-- Counterexample to C5: on the tree of the counterexample to C3 the first run, visiting
`big`, `p`, `q`, leaves `Error[x] = 2^53` at the root; a second run on the result that
visits the same children as `q`, `p`, `big` leaves `2^53 + 2`. Go does not fix the order in
which `range` visits a map, so both orders are runs of the program. -/
theorem C5_counterexample :
    ((Node.mk "" "" ⟨[]⟩ []
        [("big", Node.mk "big" "big" ⟨[⟨"x", [⟨"A", .float64 ((-(2 ^ 53) : Int) : F64)⟩,
            ⟨"B", .float64 0⟩, ⟨"C", .float64 ((2 ^ 53 : Nat) : F64)⟩]⟩]⟩ [] [] []),
         ("p", Node.mk "p" "p" ⟨[⟨"x", [⟨"A", .float64 ((-1 : Int) : F64)⟩,
            ⟨"B", .float64 0⟩, ⟨"C", .float64 1⟩]⟩]⟩ [] [] []),
         ("q", Node.mk "q" "q" ⟨[⟨"x", [⟨"A", .float64 ((-1 : Int) : F64)⟩,
            ⟨"B", .float64 0⟩, ⟨"C", .float64 1⟩]⟩]⟩ [] [] [])]
        ["big", "p", "q"] : Node F64).UpdateError F64.sqrt).map
        (fun first => (GoMap.get "x" first.Error,
          ((Node.mk first.QualifiedName first.Name first.State first.Error
            first.Children.reverse first.ChildrenOrder).UpdateError F64.sqrt).map
              (fun second => GoMap.get "x" second.Error)))
      = some (some ((2 ^ 53 : Nat) : F64), some (some ((2 ^ 53 + 2 : Nat) : F64)))
      ∧ ((2 ^ 53 : Nat) : F64) ≠ ((2 ^ 53 + 2 : Nat) : F64) := by
  refine ⟨by decide, by decide⟩

/-- C5, for a second run that visits the children in the order of the first: when
`UpdateError` has run on a node, running it again over the same `Children` bindings returns
the very same node, so every `Error` map of the subtree is unchanged; and a run changes
nothing but `Error` maps: the skeleton of the subtree (every `State`, `Children`,
`ChildrenOrder`, `Name` and `QualifiedName`) is the one before the run. The first run
completes whenever every recorded value of the subtree is recognized. The statement
assumes nothing about the arithmetic. -/
theorem C5_UpdateError_idempotent_in_one_order (sqrt : K → K) (node : Node K) :
    (∀ node', node.UpdateError sqrt = some node' →
        node'.UpdateError sqrt = some node'
          ∧ node'.skeleton = node.skeleton
          ∧ node'.State = node.State ∧ node'.Name = node.Name
          ∧ node'.QualifiedName = node.QualifiedName
          ∧ node'.ChildrenOrder = node.ChildrenOrder
          ∧ node'.Children.map Prod.fst = node.Children.map Prod.fst)
      ∧ (node.allRecognized → ∃ node', node.UpdateError sqrt = some node') := by
  refine ⟨?_, UpdateError_total sqrt node⟩
  intro node' h
  obtain ⟨h1, h2⟩ := UpdateError_idem sqrt node node' h
  exact ⟨h1, h2, skeleton_fields node' node h2⟩

/-- Witness of C5 in `float64`: the tree with the single path `a/b`, samples `1` and `3`. -/
theorem C5_UpdateError_idempotent_in_one_order_witness :
    (Node.mk "" "" ⟨[]⟩ []
        [("a", Node.mk "a" "a" ⟨[]⟩ []
          [("b", Node.mk "a/b" "b" ⟨[⟨"x", [⟨"A", .float64 1⟩, ⟨"B", .float64 3⟩]⟩]⟩ [] [] [])]
          ["b"])] ["a"] : Node F64).UpdateError F64.sqrt
      = some (Node.mk "" "" ⟨[]⟩ [("x", F64.fin (Int.ofNat (6369051672525773 * 2 ^ 1022)))]
        [("a", Node.mk "a" "a" ⟨[]⟩ [("x", F64.fin (Int.ofNat (6369051672525773 * 2 ^ 1022)))]
          [("b", Node.mk "a/b" "b" ⟨[⟨"x", [⟨"A", .float64 1⟩, ⟨"B", .float64 3⟩]⟩]⟩
            [("x", F64.fin (Int.ofNat (6369051672525773 * 2 ^ 1022)))] [] [])]
          ["b"])] ["a"])
      ∧ (Node.mk "" "" ⟨[]⟩ [("x", F64.fin (Int.ofNat (6369051672525773 * 2 ^ 1022)))]
        [("a", Node.mk "a" "a" ⟨[]⟩ [("x", F64.fin (Int.ofNat (6369051672525773 * 2 ^ 1022)))]
          [("b", Node.mk "a/b" "b" ⟨[⟨"x", [⟨"A", .float64 1⟩, ⟨"B", .float64 3⟩]⟩]⟩
            [("x", F64.fin (Int.ofNat (6369051672525773 * 2 ^ 1022)))] [] [])]
          ["b"])] ["a"] : Node F64).UpdateError F64.sqrt
      = some (Node.mk "" "" ⟨[]⟩ [("x", F64.fin (Int.ofNat (6369051672525773 * 2 ^ 1022)))]
        [("a", Node.mk "a" "a" ⟨[]⟩ [("x", F64.fin (Int.ofNat (6369051672525773 * 2 ^ 1022)))]
          [("b", Node.mk "a/b" "b" ⟨[⟨"x", [⟨"A", .float64 1⟩, ⟨"B", .float64 3⟩]⟩]⟩
            [("x", F64.fin (Int.ofNat (6369051672525773 * 2 ^ 1022)))] [] [])]
          ["b"])] ["a"]) := by
  have hrun : (Node.mk "" "" ⟨[]⟩ []
        [("a", Node.mk "a" "a" ⟨[]⟩ []
          [("b", Node.mk "a/b" "b" ⟨[⟨"x", [⟨"A", .float64 1⟩, ⟨"B", .float64 3⟩]⟩]⟩ [] [] [])]
          ["b"])] ["a"] : Node F64).UpdateError F64.sqrt
      = some (Node.mk "" "" ⟨[]⟩ [("x", F64.fin (Int.ofNat (6369051672525773 * 2 ^ 1022)))]
        [("a", Node.mk "a" "a" ⟨[]⟩ [("x", F64.fin (Int.ofNat (6369051672525773 * 2 ^ 1022)))]
          [("b", Node.mk "a/b" "b" ⟨[⟨"x", [⟨"A", .float64 1⟩, ⟨"B", .float64 3⟩]⟩]⟩
            [("x", F64.fin (Int.ofNat (6369051672525773 * 2 ^ 1022)))] [] [])]
          ["b"])] ["a"]) := by
    rfl
  exact ⟨hrun, ((C5_UpdateError_idempotent_in_one_order F64.sqrt _).1 _ hrun).1⟩

/-- Counterexample to C16: the `Error` entries `2^53`, `1`, `1` give `2^53`, and the
permutation `1`, `1`, `2^53` gives `2^53 + 2`. -/
theorem C16_counterexample :
    ([⟨"a", .Error ((2 ^ 53 : Nat) : F64)⟩, ⟨"b", .Error 1⟩, ⟨"c", .Error 1⟩] :
        List (Entry F64)).Perm
        [⟨"b", .Error 1⟩, ⟨"c", .Error 1⟩, ⟨"a", .Error ((2 ^ 53 : Nat) : F64)⟩]
      ∧ (⟨"x", [⟨"a", .Error ((2 ^ 53 : Nat) : F64)⟩, ⟨"b", .Error 1⟩, ⟨"c", .Error 1⟩]⟩ :
          Variable F64).CalculateError F64.sqrt = some ((2 ^ 53 : Nat) : F64)
      ∧ (⟨"x", [⟨"b", .Error 1⟩, ⟨"c", .Error 1⟩, ⟨"a", .Error ((2 ^ 53 : Nat) : F64)⟩]⟩ :
          Variable F64).CalculateError F64.sqrt = some ((2 ^ 53 + 2 : Nat) : F64)
      ∧ ((2 ^ 53 : Nat) : F64) ≠ ((2 ^ 53 + 2 : Nat) : F64) := by
  refine ⟨?_, by decide, by decide, by decide⟩
  have h : ∀ a b c : Entry F64, [a, b, c].Perm [b, c, a] :=
    fun a b c => (List.perm_append_comm : ([a] ++ [b, c]).Perm ([b, c] ++ [a]))
  exact h _ _ _

/-- C16, what is independent of the order: `Variable.CalculateError` reads the `Error`
entries and the numeric samples in two separate running sums, so two variables with the
same sequence of `Error` entries and the same sequence of samples, however interleaved, have
the same divergence; and the `Error[x]` that `UpdateError` leaves at a node depends on the
order of the children only through the sequence of their `Error[x]` values, so two runs
over the same state in which the children that carry `x` are visited in the same order
agree on `x`. The statement assumes nothing about the arithmetic. -/
theorem C16_interleaving_independent (sqrt : K → K) (v1 v2 : Variable K)
    (hagg : aggregatesOf v1.Entries = aggregatesOf v2.Entries)
    (hsam : samplesOf v1.Entries = samplesOf v2.Entries)
    (node1 node2 : Node K) (x : String)
    (hstate : node1.State = node2.State)
    (hwf : (node1.State.Variables.map (fun w => w.Name)).Nodup) :
    ((∀ e ∈ v1.Entries, e.recognized) → (∀ e ∈ v2.Entries, e.recognized) →
        v1.CalculateError sqrt = v2.CalculateError sqrt)
      ∧ (∀ node1' node2', node1.UpdateError sqrt = some node1' →
          node2.UpdateError sqrt = some node2' →
          node1'.Children.filterMap (fun p => GoMap.get x p.2.Error) =
            node2'.Children.filterMap (fun p => GoMap.get x p.2.Error) →
          (GoMap.get x node1'.Error).getD 0 = (GoMap.get x node2'.Error).getD 0) := by
  constructor
  · intro h1 h2
    rw [CalculateError_eq_machine sqrt v1 h1, CalculateError_eq_machine sqrt v2 h2,
      divergenceMachine, divergenceMachine, hagg, hsam]
  · intro node1' node2' h1 h2 hch
    rw [UpdateError_get_machine sqrt node1 node1' x hwf h1,
      UpdateError_get_machine sqrt node2 node2' x (hstate ▸ hwf) h2, hstate, hch]

/-- Witness of C16 in `float64`: a sample and an `Error` entry interleaved both ways, and
the children `l` and `r` visited both ways, where only `r` carries `y`. -/
theorem C16_interleaving_independent_witness :
    aggregatesOf ([⟨"A", .float64 1⟩, ⟨"l", .Error 3⟩] : List (Entry F64))
        = aggregatesOf [⟨"l", .Error 3⟩, ⟨"A", .float64 1⟩]
      ∧ samplesOf ([⟨"A", .float64 1⟩, ⟨"l", .Error 3⟩] : List (Entry F64))
        = samplesOf [⟨"l", .Error 3⟩, ⟨"A", .float64 1⟩]
      ∧ Variable.CalculateError F64.sqrt (⟨"x", [⟨"A", .float64 1⟩, ⟨"l", .Error 3⟩]⟩ :
          Variable F64)
        = Variable.CalculateError F64.sqrt ⟨"x", [⟨"l", .Error 3⟩, ⟨"A", .float64 1⟩]⟩
      ∧ (GoMap.get "y" (((Node.mk "" "" ⟨[]⟩ []
        [("l", Node.mk "l" "l" ⟨[⟨"x", [⟨"A", .float64 0⟩, ⟨"B", .float64 2⟩, ⟨"C", .float64 4⟩]⟩]⟩ [] [] []),
         ("r", Node.mk "r" "r" ⟨[⟨"y", [⟨"A", .float64 0⟩, ⟨"B", .float64 4⟩, ⟨"C", .float64 8⟩]⟩]⟩ [] [] [])]
        ["l", "r"] : Node F64).UpdateError F64.sqrt).map
            Node.Error |>.getD [])).getD 0
        = (GoMap.get "y" (((Node.mk "" "" ⟨[]⟩ []
        [("r", Node.mk "r" "r" ⟨[⟨"y", [⟨"A", .float64 0⟩, ⟨"B", .float64 4⟩, ⟨"C", .float64 8⟩]⟩]⟩ [] [] []),
         ("l", Node.mk "l" "l" ⟨[⟨"x", [⟨"A", .float64 0⟩, ⟨"B", .float64 2⟩, ⟨"C", .float64 4⟩]⟩]⟩ [] [] [])]
        ["l", "r"] : Node F64).UpdateError F64.sqrt).map
            Node.Error |>.getD [])).getD 0 := by
  have h1 : (Node.mk "" "" ⟨[]⟩ []
        [("l", Node.mk "l" "l" ⟨[⟨"x", [⟨"A", .float64 0⟩, ⟨"B", .float64 2⟩, ⟨"C", .float64 4⟩]⟩]⟩ [] [] []),
         ("r", Node.mk "r" "r" ⟨[⟨"y", [⟨"A", .float64 0⟩, ⟨"B", .float64 4⟩, ⟨"C", .float64 8⟩]⟩]⟩ [] [] [])]
        ["l", "r"] : Node F64).UpdateError F64.sqrt
      = some (Node.mk "" "" ⟨[]⟩ [("x", 2), ("y", 4)]
        [("l", Node.mk "l" "l" ⟨[⟨"x", [⟨"A", .float64 0⟩, ⟨"B", .float64 2⟩, ⟨"C", .float64 4⟩]⟩]⟩ [("x", 2)] [] []),
         ("r", Node.mk "r" "r" ⟨[⟨"y", [⟨"A", .float64 0⟩, ⟨"B", .float64 4⟩, ⟨"C", .float64 8⟩]⟩]⟩ [("y", 4)] [] [])]
        ["l", "r"] : Node F64) := by
    rfl
  have h2 : (Node.mk "" "" ⟨[]⟩ []
        [("r", Node.mk "r" "r" ⟨[⟨"y", [⟨"A", .float64 0⟩, ⟨"B", .float64 4⟩, ⟨"C", .float64 8⟩]⟩]⟩ [] [] []),
         ("l", Node.mk "l" "l" ⟨[⟨"x", [⟨"A", .float64 0⟩, ⟨"B", .float64 2⟩, ⟨"C", .float64 4⟩]⟩]⟩ [] [] [])]
        ["l", "r"] : Node F64).UpdateError F64.sqrt
      = some (Node.mk "" "" ⟨[]⟩ [("y", 4), ("x", 2)]
        [("r", Node.mk "r" "r" ⟨[⟨"y", [⟨"A", .float64 0⟩, ⟨"B", .float64 4⟩, ⟨"C", .float64 8⟩]⟩]⟩ [("y", 4)] [] []),
         ("l", Node.mk "l" "l" ⟨[⟨"x", [⟨"A", .float64 0⟩, ⟨"B", .float64 2⟩, ⟨"C", .float64 4⟩]⟩]⟩ [("x", 2)] [] [])]
        ["l", "r"] : Node F64) := by
    rfl
  have hthm := C16_interleaving_independent F64.sqrt
    ⟨"x", [⟨"A", .float64 1⟩, ⟨"l", .Error 3⟩]⟩ ⟨"x", [⟨"l", .Error 3⟩, ⟨"A", .float64 1⟩]⟩
    rfl rfl
    (Node.mk "" "" ⟨[]⟩ []
        [("l", Node.mk "l" "l" ⟨[⟨"x", [⟨"A", .float64 0⟩, ⟨"B", .float64 2⟩, ⟨"C", .float64 4⟩]⟩]⟩ [] [] []),
         ("r", Node.mk "r" "r" ⟨[⟨"y", [⟨"A", .float64 0⟩, ⟨"B", .float64 4⟩, ⟨"C", .float64 8⟩]⟩]⟩ [] [] [])]
        ["l", "r"] : Node F64)
    (Node.mk "" "" ⟨[]⟩ []
        [("r", Node.mk "r" "r" ⟨[⟨"y", [⟨"A", .float64 0⟩, ⟨"B", .float64 4⟩, ⟨"C", .float64 8⟩]⟩]⟩ [] [] []),
         ("l", Node.mk "l" "l" ⟨[⟨"x", [⟨"A", .float64 0⟩, ⟨"B", .float64 2⟩, ⟨"C", .float64 4⟩]⟩]⟩ [] [] [])]
        ["l", "r"] : Node F64)
    "y" rfl (by simp [Node.State])
  refine ⟨rfl, rfl, hthm.1 ?_ ?_, ?_⟩
  · intro e he
    simp only [List.mem_cons, List.mem_singleton, List.not_mem_nil, or_false] at he
    rcases he with rfl | rfl
    · exact Or.inl rfl
    · exact Or.inr ⟨3, rfl⟩
  · intro e he
    simp only [List.mem_cons, List.mem_singleton, List.not_mem_nil, or_false] at he
    rcases he with rfl | rfl
    · exact Or.inr ⟨3, rfl⟩
    · exact Or.inl rfl
  · rw [h1, h2]
    exact hthm.2 _ _ h1 h2 rfl

end MachineTheorems

end Gold
